import Mathlib

/-!
# Configuration binder: `config/bind.go`

A shallow embedding of the binder of `config/bind.go` and proofs about it.

* Go maps (`map[string]T`) are association lists read with `mapGet`, written with
  `mapSet` (replace in place, else append) and shrunk with `mapDelete`.
* Mutation is explicit state passing: every operation returns the state it leaves
  behind together with its error, also when it fails.
* The libraries the binder calls (the raw store, the template engine, the iteration
  order of Go maps) are parameters or small models, each marked as such.
-/

namespace Config

/-! ## Go maps -/

/-- Read of a Go map, `v, ok := m[key]`: the first entry stored under `key`. -/
def mapGet {β : Type} (key : String) : List (String × β) → Option β
  | [] => none
  | (k, v) :: rest => if k = key then some v else mapGet key rest

/-- Write of a Go map, `m[key] = val`: replaces the entry under `key`, or adds one. -/
def mapSet {β : Type} (key : String) (val : β) : List (String × β) → List (String × β)
  | [] => [(key, val)]
  | (k, v) :: rest => if k = key then (key, val) :: rest else (k, v) :: mapSet key val rest

/-- Removal from a Go map, `delete(m, key)`. -/
def mapDelete {β : Type} (key : String) (m : List (String × β)) : List (String × β) :=
  m.filter (fun e => decide (e.1 ≠ key))

/-! ## Strings -/

/-- Splitting of a character list at every occurrence of `sep`; never the empty list. -/
def splitChars (sep : Char) : List Char → List (List Char)
  | [] => [[]]
  | c :: cs =>
    if c = sep then [] :: splitChars sep cs
    else
      match splitChars sep cs with
      | [] => [[c]]
      | seg :: segs => (c :: seg) :: segs

/-- Go `strings.Split(s, sep)` for a separator of one character. -/
def stringsSplit (s : String) (sep : Char) : List String :=
  (splitChars sep s.toList).map String.mk

/-- Go `strings.Join(elems, sep)`. -/
def stringsJoin (elems : List String) (sep : String) : String :=
  sep.intercalate elems

/-- Test whether `sub` starts the character list. -/
def startsWithChars : List Char → List Char → Bool
  | [], _ => true
  | _ :: _, [] => false
  | a :: sub, c :: cs => a == c && startsWithChars sub cs

/-- Test whether `sub` occurs somewhere in the character list. -/
def containsChars (sub : List Char) : List Char → Bool
  | [] => sub.isEmpty
  | c :: cs => startsWithChars sub (c :: cs) || containsChars sub cs

/-- Go `strings.Contains(s, substr)`. -/
def stringsContains (s substr : String) : Bool :=
  containsChars substr.toList s.toList

/-! ## Errors -/

/-- The three error values declared at the top of `bind.go`. -/
inductive Sentinel where
  | ErrRequired
  | ErrMutualReference
  | ErrOverlayHierarchicalKey
  deriving DecidableEq, Repr

/-- Message of each declared error value (the argument of its `fmt.Errorf`). -/
def Sentinel.text : Sentinel → String
  | .ErrRequired => "required"
  | .ErrMutualReference => "mutual reference or invalid value"
  | .ErrOverlayHierarchicalKey => "overlay hierarchical key"

/-- A Go error: its message and the declared error value it wraps with `%w`, if any. -/
structure GoError where
  msg : String
  wraps : Option Sentinel
  deriving DecidableEq, Repr

/-- A declared error value returned as it is. -/
def Sentinel.err (s : Sentinel) : GoError := ⟨s.text, some s⟩

/-! ## Values and the resolved tree -/

/-- A raw configuration value: text or a typed scalar. -/
inductive Value where
  | str (s : String)
  | int (i : Int)
  | bool (b : Bool)
  deriving DecidableEq, Repr

/-- A Go `interface{}` stored in the resolved map: `nil`, a scalar, or a nested
`map[string]interface{}`. -/
inductive Node where
  | nil
  | scalar (v : Value)
  | mapping (m : List (String × Node))

/-- The resolved map `map[string]interface{}`. -/
abbrev Tree := List (String × Node)

/-- Type assertion `v.(map[string]interface{})` succeeds. -/
def Node.isMapping : Node → Bool
  | .mapping _ => true
  | _ => false

/-- Lookup of a path, segment by segment, starting at a node. -/
def Node.get : Node → List String → Option Node
  | n, [] => some n
  | .mapping m, k :: ks =>
    match mapGet k m with
    | some c => Node.get c ks
    | none => none
  | .nil, _ :: _ => none
  | .scalar _, _ :: _ => none

/-- Lookup of a dotted path in the resolved map. -/
def Tree.lookup (m : Tree) (key : String) : Option Node :=
  Node.get (.mapping m) (stringsSplit key '.')

/-- The descent loop and final write of `SetValueHierarchicalMap`: `keys` are the
intermediate segments still to descend, `lastKey` the final segment. Returns the map as
the call leaves it, and the error. -/
def setMapKeys : List String → String → Node → Tree → Tree × Option GoError
  | [], lastKey, val, m => (mapSet lastKey val m, none)
  | key :: keys, lastKey, val, m =>
    match mapGet key m with
    | some (.mapping vv) =>
      let r := setMapKeys keys lastKey val vv
      (mapSet key (.mapping r.1) m, r.2)
    | some _ => (m, some Sentinel.ErrOverlayHierarchicalKey.err)
    | none =>
      let r := setMapKeys keys lastKey val []
      (mapSet key (.mapping r.1) m, r.2)

/-- Go `SetValueHierarchicalMap(m, key, val)`. -/
def SetValueHierarchicalMap (m : Tree) (key : String) (val : Node) : Tree × Option GoError :=
  let keys := stringsSplit key '.'
  setMapKeys keys.dropLast (keys.getLastD "") val m

/-! ## Schema -/

/-- A Go struct tag, parsed into its `key:"value"` pairs; `Tag.Lookup` is `mapGet`. -/
abbrev StructTag := List (String × String)

/-- The `reflect.Kind` of a field that is not a struct. -/
inductive Kind where
  | Int | Int8 | Int16 | Int32 | Int64
  | Uint | Uint8 | Uint16 | Uint32 | Uint64
  | Bool | String | Other
  deriving DecidableEq, Repr

/-- A field of the struct handed to `Bind`: a field of struct kind with its own fields,
or a field of any other kind. -/
inductive Field where
  | leaf (tag : StructTag) (kind : Kind)
  | struct (tag : StructTag) (fields : List Field)

/-! ## External collaborators -/

/-- Modelled from the spec: the raw store, `get(path) -> optional value` and
`set(path, value)` by dotted key. The store of the source is the viper library,
which is not part of the repository. -/
abbrev RawStore := List (String × Value)

/-- Modelled from the spec: `viper.Get(key)`, the value stored under the dotted key, or
Go `nil` when there is none. -/
def viperGet (v : RawStore) (key : String) : Node :=
  match mapGet key v with
  | some x => .scalar x
  | none => .nil

/-- Modelled from the spec: `viper.Set(key, value)`. -/
def viperSet (v : RawStore) (key : String) (val : Value) : RawStore :=
  mapSet key val v

/-- What `template.New(key).Funcs(..).Parse(expr)` followed by `Execute` on the resolved
map gives: a parse error, an execution error, or the rendered buffer. -/
inductive TemplateResult where
  | parseError (cause : String)
  | execError (cause : String)
  | output (text : String)
  deriving DecidableEq, Repr

/-- An order in which the entries of a Go map are produced: some rearrangement of them.
Go leaves the order of `range` over a map unspecified; taking it as a function of the
map's content loses no behaviour of `Bind`, whose pending map is never the same at two
loop heads of one run. -/
structure MapOrder where
  order : List (String × String) → List (String × String)
  perm : ∀ l, (order l).Perm l

/-- The order that produces the entries as they are stored. -/
def MapOrder.stored : MapOrder := ⟨fun l => l, fun l => List.Perm.refl l⟩

/-- The parts of a run of `Bind` that the source leaves to its libraries and runtime:
the template engine (name, expression text, data), the order of `range` over the
pending map, and the order in which `common.MustMapKeys` returns its keys. -/
structure Env where
  template : String → String → Tree → TemplateResult
  rangeOrder : MapOrder
  keysOrder : MapOrder

/-! ## The binder -/

/-- Go `Binder`. -/
structure Binder where
  viper : RawStore
  toResolve : List (String × String)
  resolved : Tree

/-- Go `NewBinder(viper)`. -/
def NewBinder (viper : RawStore) : Binder := ⟨viper, [], []⟩

/-- Message of both expression errors of `bindKey`. -/
def parseFailure (key cause : String) : GoError :=
  ⟨"failed to parse default value of key " ++ key ++ ": " ++ cause, none⟩

/-- Go `Binder.bindKey(key, expr)`: the binder afterwards, `ok` and `err`. -/
def Binder.bindKey (env : Env) (b : Binder) (key expr : String) :
    Binder × Bool × Option GoError :=
  match env.template key expr b.resolved with
  | .parseError cause => (b, false, some (parseFailure key cause))
  | .execError cause =>
    if stringsContains cause "invalid value" then (b, false, none)
    else (b, false, some (parseFailure key cause))
  | .output text =>
    if stringsContains text "<no value>" then (b, false, none)
    else (⟨viperSet b.viper key (.str text), b.toResolve, b.resolved⟩, true, none)

/-- Error `fmt.Errorf("%w: %v", err, key)`. -/
def wrapKey (err : GoError) (key : String) : GoError :=
  ⟨err.msg ++ ": " ++ key, err.wraps⟩

/-- The write of the current raw value into the resolved map that ends the handling of
a leaf (`bind`, lines 103 to 105) and follows a commit in `Bind` (lines 49 to 51). -/
def Binder.writeResolved (b : Binder) (key : String) : Binder × Option GoError :=
  match SetValueHierarchicalMap b.resolved key (viperGet b.viper key) with
  | (m, some err) => (⟨b.viper, b.toResolve, m⟩, some (wrapKey err key))
  | (m, none) => (⟨b.viper, b.toResolve, m⟩, none)

/-- The `default:` branch of the switch of `bind` (lines 82 to 105) for one field:
`tag` is its struct tag, `fields` the split `mapstructure` tag, `key` its dotted path. -/
def Binder.bindLeaf (env : Env) (b : Binder) (tag : StructTag) (fields : List String)
    (key : String) : Binder × Option GoError :=
  match viperGet b.viper key with
  | .nil =>
    match mapGet "default" tag with
    | some defaultValue =>
      match b.bindKey env key defaultValue with
      | (b1, _, some err) => (b1, some err)
      | (b1, false, none) =>
        (⟨b1.viper, mapSet key defaultValue b1.toResolve, b1.resolved⟩, none)
      | (b1, true, none) => b1.writeResolved key
    | none =>
      match mapGet "required" tag with
      | some _ =>
        match mapGet "desc" tag with
        | some desc => (b, some (wrapKey Sentinel.ErrRequired.err (key ++ " (" ++ desc ++ ")")))
        | none => (b, some (wrapKey Sentinel.ErrRequired.err key))
      | none =>
        if fields.length == 1 || fields.get? 1 != some "omitempty" then
          Binder.writeResolved ⟨viperSet b.viper key (.str ""), b.toResolve, b.resolved⟩ key
        else b.writeResolved key
  | _ => b.writeResolved key

mutual
/-- One iteration of the field loop of `bind`, with `parts` the path so far. -/
def Binder.bindField (env : Env) : Field → List String → Binder → Binder × Option GoError
  | .leaf tag _, parts, b =>
    match mapGet "mapstructure" tag with
    | none => (b, none)
    | some tv =>
      let fields := stringsSplit tv ','
      b.bindLeaf env tag fields (stringsJoin (parts ++ [fields.headD ""]) ".")
  | .struct tag sub, parts, b =>
    match mapGet "mapstructure" tag with
    | none => (b, none)
    | some tv => Binder.bind env sub (parts ++ [(stringsSplit tv ',').headD ""]) b
/-- Go `Binder.bind(iface, parts...)` over the fields of `iface`. -/
def Binder.bind (env : Env) : List Field → List String → Binder → Binder × Option GoError
  | [], _, b => (b, none)
  | f :: fs, parts, b =>
    match Binder.bindField env f parts b with
    | (b1, some err) => (b1, some err)
    | (b1, none) => Binder.bind env fs parts b1
end

/-- The inner loop of `Bind` (lines 42 to 54) over the entries `range` produces, with
the flag `changed`. -/
def Binder.sweep (env : Env) : List (String × String) → Binder → Bool →
    Binder × Bool × Option GoError
  | [], b, changed => (b, changed, none)
  | (key, expr) :: rest, b, changed =>
    match b.bindKey env key expr with
    | (b1, _, some err) => (b1, changed, some err)
    | (b1, false, none) => Binder.sweep env rest b1 changed
    | (b1, true, none) =>
      match b1.writeResolved key with
      | (b2, some err) => (b2, true, some err)
      | (b2, none) =>
        Binder.sweep env rest ⟨b2.viper, mapDelete key b2.toResolve, b2.resolved⟩ true

/-- The error of line 56. -/
def mutualReference (env : Env) (toResolve : List (String × String)) : GoError :=
  ⟨stringsJoin ((env.keysOrder.order toResolve).map Prod.fst) ", " ++ ": "
      ++ Sentinel.ErrMutualReference.text, some .ErrMutualReference⟩

/-- The outer loop of `Bind` (lines 40 to 59), each sweep taking one unit of `fuel`;
`none` when the fuel runs out before the loop ends. -/
def Binder.resolveLoop (env : Env) : Nat → Binder → Option (Binder × Option GoError)
  | fuel, b =>
    if b.toResolve.length > 0 then
      match fuel with
      | 0 => none
      | fuel + 1 =>
        match Binder.sweep env (env.rangeOrder.order b.toResolve) b false with
        | (b1, _, some err) => some (b1, some err)
        | (b1, false, none) => some (b1, some (mutualReference env b1.toResolve))
        | (b1, true, none) => Binder.resolveLoop env fuel b1
    else some (b, none)

/-- Go `Binder.Bind(iface)` on the fields of `iface`. -/
def Binder.Bind (env : Env) (fuel : Nat) (b : Binder) (iface : List Field) :
    Option (Binder × Option GoError) :=
  match b.bind env iface [] with
  | (b1, some err) => some (b1, some err)
  | (b1, none) => b1.resolveLoop env fuel

/-! ## A small template engine for concrete runs -/

/-- Text of a scalar as a template prints it. -/
def Value.render : Value → String
  | .str s => s
  | .int i => toString i
  | .bool b => toString b

/-- A stand-in template engine: the expression `=text` renders `text`; the expression
`?` fails to parse; any other expression is a dotted path and renders the scalar stored
there, or the marker `<no value>`. -/
def refTemplate (_name expr : String) (data : Tree) : TemplateResult :=
  match expr.toList with
  | '=' :: cs => .output (String.mk cs)
  | ['?'] => .parseError "unexpected ?"
  | _ =>
    match Tree.lookup data expr with
    | some (.scalar v) => .output v.render
    | _ => .output "<no value>"

/-- Environment of the concrete runs: the stand-in engine, entries in stored order. -/
def refEnv : Env := ⟨refTemplate, MapOrder.stored, MapOrder.stored⟩

/-! ## Auxiliary notions used to state the results -/

/-- The binder at the head of the outer loop of `Bind` after `n` sweeps that each
committed something and raised no error; `none` if the loop ends before that. -/
def Binder.afterSweeps (env : Env) : Nat → Binder → Option Binder
  | 0, b => some b
  | n + 1, b =>
    if b.toResolve.length > 0 then
      match Binder.sweep env (env.rangeOrder.order b.toResolve) b false with
      | (b1, true, none) => Binder.afterSweeps env n b1
      | _ => none
    else none

/-- Schema of two fields `a` and `b` whose defaults are the given expressions. -/
def pairSchema (exprA exprB : String) : List Field :=
  [.leaf [("mapstructure", "a"), ("default", exprA)] .String,
   .leaf [("mapstructure", "b"), ("default", exprB)] .String]

/-- A leaf as the field loop of `bind` meets it: its struct tag, its split
`mapstructure` tag and its dotted path. -/
structure Leaf where
  tag : StructTag
  fields : List String
  key : String

mutual
/-- The leaves under one field, in the order `bind` handles them. -/
def walkField : Field → List String → List Leaf
  | .leaf tag _, parts =>
    match mapGet "mapstructure" tag with
    | none => []
    | some tv =>
      [⟨tag, stringsSplit tv ',',
        stringsJoin (parts ++ [(stringsSplit tv ',').headD ""]) "."⟩]
  | .struct tag sub, parts =>
    match mapGet "mapstructure" tag with
    | none => []
    | some tv => walk sub (parts ++ [(stringsSplit tv ',').headD ""])
/-- The leaves of a list of fields, depth first, in the order `bind` handles them. -/
def walk : List Field → List String → List Leaf
  | [], _ => []
  | f :: fs, parts => walkField f parts ++ walk fs parts
end

/-- The handling of a sequence of leaves, one after the other, up to the first error. -/
def Binder.bindLeaves (env : Env) : List Leaf → Binder → Binder × Option GoError
  | [], b => (b, none)
  | l :: ls, b =>
    match b.bindLeaf env l.tag l.fields l.key with
    | (b1, some err) => (b1, some err)
    | (b1, none) => Binder.bindLeaves env ls b1

/-! ## Schemas of the concrete runs -/

/-- Schema of C4's concrete run: a plain field, then a required field with a
description inside a nested struct. -/
def requiredSchema : List Field :=
  [.leaf [("mapstructure", "name")] .String,
   .struct [("mapstructure", "john")]
     [.leaf [("mapstructure", "listen"), ("required", ""), ("desc", "listen address")]
       .String]]

/-- Field whose only tag is `mapstructure`. -/
def plainLeaf (mapstructure : String) : Field :=
  .leaf [("mapstructure", mapstructure)] .String

/-- Field with a `mapstructure` and a `default` tag. -/
def defaultLeaf (mapstructure expr : String) : Field :=
  .leaf [("mapstructure", mapstructure), ("default", expr)] .String

/-- Schema of a leaf `a` marked omit-on-empty followed by a leaf whose tag is `a.b`. -/
def shadowSchema : List Field := [plainLeaf "a,omitempty", plainLeaf "a.b"]

/-- Schema of a plain leaf `a` followed by a leaf tagged `a.b` with a constant default. -/
def overlaySchema : List Field := [plainLeaf "a", defaultLeaf "a.b" "=x"]

/-- Schema of a single leaf `a` marked omit-on-empty. -/
def omitSchema : List Field := [plainLeaf "a,omitempty"]

/-! ## Notions used to state the resolution result -/

/-- The segments of a dotted path. -/
def segs (key : String) : List String := stringsSplit key '.'

/-- The first path leads, segment by segment, into the second. -/
def leadsInto (p q : List String) : Prop := ∃ r, p ++ r = q

/-- Neither path leads into the other. -/
def apart (p q : List String) : Prop := ¬ leadsInto p q ∧ ¬ leadsInto q p

/-- The resolved map holds a scalar at the dotted path. -/
def hasValue (m : Tree) (key : String) : Prop := ∃ v, Tree.lookup m key = some (.scalar v)

/-- A leaf that gets no value: no raw value, no default, marked omit-on-empty. -/
def valueless (raw : RawStore) (l : Leaf) : Prop :=
  mapGet l.key raw = none ∧ mapGet "default" l.tag = none
    ∧ l.fields.get? 1 = some "omitempty"

/-- No leaf path leads into the path of another leaf, nor equals it. -/
def PrefixFree (leaves : List Leaf) : Prop :=
  leaves.Pairwise (fun l1 l2 => apart (segs l1.key) (segs l2.key))

/-- The conditions under which the defaults of a schema can all be resolved: `refs`
gives the paths an expression references and `rank` witnesses that the reference graph
has no cycle. -/
structure AcyclicDefaults (env : Env) (raw : RawStore) (leaves : List Leaf)
    (refs : String → List String) (rank : String → Nat) : Prop where
  /-- Every reference goes to a path of lower rank. -/
  acyclic : ∀ l ∈ leaves, ∀ dv, mapGet "default" l.tag = some dv →
    ∀ p ∈ refs dv, rank p < rank l.key
  /-- Every referenced path is a leaf with a raw value, a default, or a forced empty text. -/
  referenced : ∀ l ∈ leaves, ∀ dv, mapGet "default" l.tag = some dv →
    ∀ p ∈ refs dv, ∃ l2 ∈ leaves, l2.key = p
      ∧ (mapGet p raw ≠ none ∨ mapGet "default" l2.tag ≠ none
          ∨ l2.fields.get? 1 ≠ some "omitempty")
  /-- A default is Ready once all the paths it references hold a value. -/
  ready : ∀ l ∈ leaves, ∀ dv, mapGet "default" l.tag = some dv → ∀ b : Binder,
    (∀ p ∈ refs dv, hasValue b.resolved p) → (b.bindKey env l.key dv).2 = (true, none)
  /-- The evaluation of a default never ends in a fatal error. -/
  noFatal : ∀ l ∈ leaves, ∀ dv, mapGet "default" l.tag = some dv → ∀ b : Binder,
    (b.bindKey env l.key dv).2.2 = none

/-- What holds of the binder once the leaves `done` have been handled, for the raw
store `raw` the run started from. -/
structure SeedInv (raw : RawStore) (done : List Leaf) (b : Binder) : Prop where
  /-- Every pending entry is a handled leaf with its default. -/
  pending : ∀ e ∈ b.toResolve, ∃ l ∈ done, l.key = e.1 ∧ mapGet "default" l.tag = some e.2
  /-- Every handled leaf is pending, holds a value, or is valueless and holds `nil`. -/
  settled : ∀ l ∈ done, (∃ e ∈ b.toResolve, e.1 = l.key) ∨ hasValue b.resolved l.key
    ∨ (valueless raw l ∧ Tree.lookup b.resolved l.key = some .nil)
  /-- Nodes that are not mappings sit at the paths of handled leaves only. -/
  scalars : ∀ q n, Node.get (.mapping b.resolved) q = some n → n.isMapping = false →
    ∃ l ∈ done, segs l.key = q
  /-- The raw store is unchanged away from the paths of handled leaves. -/
  rawKept : ∀ k, (∀ l ∈ done, l.key ≠ k) → mapGet k b.viper = mapGet k raw

instance leadsIntoDecidable (p q : List String) : Decidable (leadsInto p q) :=
  decidable_of_iff (p <+: q) Iff.rfl

instance apartDecidable (p q : List String) : Decidable (apart p q) :=
  inferInstanceAs (Decidable (¬ leadsInto p q ∧ ¬ leadsInto q p))

instance prefixFreeDecidable (leaves : List Leaf) : Decidable (PrefixFree leaves) :=
  inferInstanceAs
    (Decidable (leaves.Pairwise (fun l1 l2 : Leaf => apart (segs l1.key) (segs l2.key))))

/-- A stand-in template engine whose expressions are dotted paths: it renders `set`
when the path holds a scalar and the marker `<no value>` otherwise. -/
def probeTemplate (_name expr : String) (data : Tree) : TemplateResult :=
  match Tree.lookup data expr with
  | some (.scalar _) => .output "set"
  | _ => .output "<no value>"

/-- Environment of the probing engine, entries in stored order. -/
def probeEnv : Env := ⟨probeTemplate, MapOrder.stored, MapOrder.stored⟩

/-- Schema with forward references: `port` refers to `host`, `host` to `listen`, which
has a raw value; `log` is marked omit-on-empty. -/
def chainSchema : List Field :=
  [defaultLeaf "port" "host", defaultLeaf "host" "listen", plainLeaf "listen",
   plainLeaf "log,omitempty"]

/-- Rank of the paths of `chainSchema`. -/
def chainRank (key : String) : Nat :=
  if key = "port" then 2 else if key = "host" then 1 else 0

/-- Schema of two plain leaves, the path of the first leading into that of the second. -/
def nestedSchema : List Field := [plainLeaf "a", plainLeaf "a.b"]

/-- Schema of one required leaf. -/
def mustSchema : List Field := [.leaf [("mapstructure", "listen"), ("required", "")] .String]

/-- Schema of one leaf `log` marked omit-on-empty. -/
def logSchema : List Field := [plainLeaf "log,omitempty"]

/-! ## Typed destinations and the fuzzy decoder -/

/-- What a field that is not a struct holds. -/
inductive Data where
  | int (i : Int)
  | uint (n : Nat)
  | bool (b : Bool)
  | string (s : String)
  | other
  deriving DecidableEq, Repr

/-- A `reflect.Value` inside the destination of `SetValueHierarchicalStruct`: a value of
struct kind with its fields and their tags, or a value of another kind. -/
inductive ReflectValue where
  | scalar (kind : Kind) (data : Data)
  | struct (fields : List (StructTag × ReflectValue))

/-- Why a `strconv` parse fails: the text is not a numeral, or its value does not fit. -/
inductive ParseError where
  | malformed
  | outOfRange
  deriving DecidableEq, Repr

/-- The largest `uint64`, `1<<64 - 1`. -/
def maxUint64 : Nat := 18446744073709551615

/-- Modelled from the spec: the digit loop of `strconv.ParseUint(s, 10, bitSize)` of the
Go library, which is not part of the repository. `n` is the `uint64` accumulated so
far and `c.toNat - 48` the digit `c - '0'`; a character that is not a decimal digit is
malformed, and the two overflow tests
of the library end the loop with a range error. -/
def parseUintLoop (maxVal : Nat) : List Char → Nat → Nat × Option ParseError
  | [], n => (n, none)
  | c :: cs, n =>
    if '0' ≤ c ∧ c ≤ '9' then
      if n ≥ maxUint64 / 10 + 1 then (maxVal, some .outOfRange)
      else
        let n10 := (n * 10) % 2 ^ 64
        let n1 := (n10 + (c.toNat - 48)) % 2 ^ 64
        if n1 < n10 ∨ n1 > maxVal then (maxVal, some .outOfRange)
        else parseUintLoop maxVal cs n1
    else (0, some .malformed)

/-- Modelled from the spec: `strconv.ParseUint(s, 10, bitSize)` for a bit size from 1 to
64: base-10 digits only, no sign, value at most `1<<bitSize - 1`. -/
def ParseUint (s : String) (bitSize : Nat) : Nat × Option ParseError :=
  if s.toList = [] then (0, some .malformed)
  else parseUintLoop (2 ^ bitSize - 1) s.toList 0

/-- Conversion `int64(u)` of a `uint64`. -/
def toInt64 (u : Nat) : Int := (((u : Int) + 2 ^ 63) % 2 ^ 64) - 2 ^ 63

/-- Negation `-n` of an `int64`. -/
def negInt64 (n : Int) : Int := ((-n + 2 ^ 63) % 2 ^ 64) - 2 ^ 63

/-- Modelled from the spec: the part of `strconv.ParseInt` that follows the picking off
of the sign: `rest` is parsed as a `uint64`, a syntax error is returned as it is, and the
value, clamped if the parse overflowed, is tested against `1 << (bitSize-1)`. -/
def parseIntSigned (neg : Bool) (rest : List Char) (bitSize : Nat) : Int × Option ParseError :=
  match ParseUint (String.mk rest) 64 with
  | (_, some .malformed) => (0, some .malformed)
  | (un, _) =>
    if neg = false ∧ un ≥ 2 ^ (bitSize - 1) then
      (((2 ^ (bitSize - 1) : Nat) : Int) - 1, some .outOfRange)
    else if neg = true ∧ un > 2 ^ (bitSize - 1) then
      (-((2 ^ (bitSize - 1) : Nat) : Int), some .outOfRange)
    else (if neg then negInt64 (toInt64 un) else toInt64 un, none)

/-- Modelled from the spec: `strconv.ParseInt(s, 10, bitSize)` for a bit size from 1 to
64: an optional leading `+` or `-`, then base-10 digits, value from `-(1 << (bitSize-1))`
to `1 << (bitSize-1) - 1`. -/
def ParseInt (s : String) (bitSize : Nat) : Int × Option ParseError :=
  match s.toList with
  | [] => (0, some .malformed)
  | c :: cs => parseIntSigned (c == '-') (if c = '+' ∨ c = '-' then cs else c :: cs) bitSize

/-- Go `v.SetInt(i)` on a value of `bits` bits: the `int64` is cut to the width. -/
def SetInt (bits : Nat) (i : Int) : Data :=
  .int (((i + 2 ^ (bits - 1)) % 2 ^ bits) - 2 ^ (bits - 1))

/-- Go `v.SetUint(i)` on a value of `bits` bits: the `uint64` is cut to the width. -/
def SetUint (bits : Nat) (n : Nat) : Data := .uint (n % 2 ^ bits)

/-- One signed case of the switch of `FuzzyDecode`: parse, return `false` on error,
else set. -/
def decodeInt (kind : Kind) (bits : Nat) (data : Data) (val : String) : ReflectValue × Bool :=
  match ParseInt val bits with
  | (_, some _) => (.scalar kind data, false)
  | (i, none) => (.scalar kind (SetInt bits i), true)

/-- One unsigned case of the switch of `FuzzyDecode`. -/
def decodeUint (kind : Kind) (bits : Nat) (data : Data) (val : String) : ReflectValue × Bool :=
  match ParseUint val bits with
  | (_, some _) => (.scalar kind data, false)
  | (n, none) => (.scalar kind (SetUint bits n), true)

/-- Go `FuzzyDecode(to, val)`, `dst` being what `to` points to: the destination as the
call leaves it, and the result.
`intSize` is `strconv.IntSize`. -/
def FuzzyDecode (intSize : Nat) (dst : ReflectValue) (val : String) :
    ReflectValue × Bool :=
  match dst with
  | .scalar .Int d => decodeInt .Int intSize d val
  | .scalar .Int8 d => decodeInt .Int8 8 d val
  | .scalar .Int16 d => decodeInt .Int16 16 d val
  | .scalar .Int32 d => decodeInt .Int32 32 d val
  | .scalar .Int64 d => decodeInt .Int64 64 d val
  | .scalar .Uint d => decodeUint .Uint intSize d val
  | .scalar .Uint8 d => decodeUint .Uint8 8 d val
  | .scalar .Uint16 d => decodeUint .Uint16 16 d val
  | .scalar .Uint32 d => decodeUint .Uint32 32 d val
  | .scalar .Uint64 d => decodeUint .Uint64 64 d val
  | .scalar .Bool d =>
    if val = "true" ∨ val = "1" then (.scalar .Bool (.bool true), true)
    else if val = "false" ∨ val = "0" then (.scalar .Bool (.bool false), true)
    else (.scalar .Bool d, false)
  | .scalar .String _ => (.scalar .String (.string val), true)
  | .scalar .Other d => (.scalar .Other d, true)
  | .struct fields => (.struct fields, true)

/-- How a call ends: it returns `nil`, it returns an error, or it panics. -/
inductive Outcome where
  | ok
  | err (e : GoError)
  | panicked (msg : String)
  deriving DecidableEq, Repr

/-- Text of `reflect.Kind.String()`; for the kinds gathered under `Other` the text is
not modelled. -/
def kindText : Kind → String
  | .Int => "int" | .Int8 => "int8" | .Int16 => "int16" | .Int32 => "int32"
  | .Int64 => "int64"
  | .Uint => "uint" | .Uint8 => "uint8" | .Uint16 => "uint16" | .Uint32 => "uint32"
  | .Uint64 => "uint64"
  | .Bool => "bool" | .String => "string" | .Other => "other"

/-- Text of `ifv.Kind()`. -/
def ReflectValue.kindName : ReflectValue → String
  | .scalar kind _ => kindText kind
  | .struct _ => "struct"

/-- A double quote. -/
def quote : String := String.singleton (Char.ofNat 34)

/-- The error of line 171. -/
def unexpectedKey (key : String) : GoError := ⟨"unexpected key: " ++ key, none⟩

/-- The error of line 175. -/
def typeMismatch (kind val : String) : GoError :=
  ⟨"type does not match: type " ++ quote ++ kind ++ quote ++ " and value " ++ quote ++ val
    ++ quote, none⟩

/-- The inner loop of `SetValueHierarchicalStruct` (lines 161 to 169): the index of the
first field whose `mapstructure` tag is `key`. -/
def findField (key : String) : List (StructTag × ReflectValue) → Option Nat
  | [] => none
  | (tag, _) :: rest =>
    if mapGet "mapstructure" tag = some key then some 0
    else (findField key rest).map (· + 1)

/-- The outer loop of `SetValueHierarchicalStruct` over the segments still to descend,
then the call of `FuzzyDecode`. `NumField` panics on a value that is not a struct. -/
def setStructKeys (intSize : Nat) : List String → ReflectValue → String →
    ReflectValue × Outcome
  | [], v, val =>
    match FuzzyDecode intSize v val with
    | (v2, true) => (v2, .ok)
    | (v2, false) => (v2, .err (typeMismatch v.kindName val))
  | key :: keys, .struct fields, val =>
    match findField key fields with
    | none => (.struct fields, .err (unexpectedKey key))
    | some i =>
      match fields.get? i with
      | none => (.struct fields, .err (unexpectedKey key))
      | some (tag, c) =>
        let r := setStructKeys intSize keys c val
        (.struct (fields.set i (tag, r.1)), r.2)
  | _ :: _, .scalar kind data, _ =>
    (.scalar kind data,
      .panicked ("reflect: call of reflect.Value.NumField on " ++ kindText kind ++ " Value"))

/-- Go `SetValueHierarchicalStruct(m, key, val)` with `m` pointing to the value given:
the value as the call leaves it, and how the call ends. -/
def SetValueHierarchicalStruct (intSize : Nat) (m : ReflectValue) (key val : String) :
    ReflectValue × Outcome :=
  setStructKeys intSize (stringsSplit key '.') m val

/-- The field reached from a value by a path of field indices. -/
def ReflectValue.fieldAt : ReflectValue → List Nat → Option ReflectValue
  | v, [] => some v
  | .struct fields, i :: rest =>
    match fields.get? i with
    | some (_, c) => c.fieldAt rest
    | none => none
  | .scalar _ _, _ :: _ => none

/-- The path of field indices that the segments select, each segment taking the first
field whose `mapstructure` tag equals it; `none` when a segment selects nothing. -/
def resolvePath : ReflectValue → List String → Option (List Nat)
  | _, [] => some []
  | .struct fields, key :: keys =>
    match findField key fields with
    | none => none
    | some i =>
      match fields.get? i with
      | none => none
      | some (_, c) => (resolvePath c keys).map (i :: ·)
  | .scalar _ _, _ :: _ => none

/-- Two paths of field indices neither of which continues the other. -/
def apartIdx (p q : List Nat) : Prop := (¬ ∃ r, p ++ r = q) ∧ (¬ ∃ r, q ++ r = p)

/-! ## Numerals, read declaratively -/

/-- A decimal digit. -/
def isDigit (c : Char) : Bool := decide ('0' ≤ c ∧ c ≤ '9')

/-- Value of a run of decimal digits, most significant first, above `n`. -/
def digitsValue (n : Nat) : List Char → Nat
  | [] => n
  | c :: cs => digitsValue (n * 10 + (c.toNat - 48)) cs

/-- The value of a text made of one or more decimal digits and nothing else. -/
def unsignedNumeral (s : String) : Option Nat :=
  if s.toList ≠ [] ∧ s.toList.all isDigit = true then some (digitsValue 0 s.toList) else none

/-- The value of a text made of an optional `+` or `-` and one or more decimal digits. -/
def signedNumeral (s : String) : Option Int :=
  match s.toList with
  | [] => none
  | c :: cs =>
    if c = '+' then (unsignedNumeral (String.mk cs)).map (fun n : Nat => (n : Int))
    else if c = '-' then (unsignedNumeral (String.mk cs)).map (fun n : Nat => -(n : Int))
    else (unsignedNumeral (String.mk (c :: cs))).map (fun n : Nat => (n : Int))

/-- The bit width of a signed integer kind. -/
def intBits (intSize : Nat) : Kind → Option Nat
  | .Int => some intSize | .Int8 => some 8 | .Int16 => some 16 | .Int32 => some 32
  | .Int64 => some 64
  | _ => none

/-- The bit width of an unsigned integer kind. -/
def uintBits (intSize : Nat) : Kind → Option Nat
  | .Uint => some intSize | .Uint8 => some 8 | .Uint16 => some 16 | .Uint32 => some 32
  | .Uint64 => some 64
  | _ => none

/-- A destination for the concrete runs: a nested struct `john` with a text field
`listen` and a 16-bit field `port`, and a field `debug` of kind Bool. -/
def sampleStruct : ReflectValue :=
  .struct
    [([("mapstructure", "john")],
        .struct [([("mapstructure", "listen")], .scalar .String (.string "")),
                 ([("mapstructure", "port")], .scalar .Uint16 (.uint 0))]),
     ([("mapstructure", "debug")], .scalar .Bool (.bool false))]

/-- A destination with the single field `port` of kind Int. -/
def portStruct : ReflectValue :=
  .struct [([("mapstructure", "port")], .scalar .Int (.int 0))]

/-- A destination with the single string field `Log`, tagged `log,omitempty`: the typed
counterpart of `logSchema`. -/
def logStruct : ReflectValue :=
  .struct [([("mapstructure", "log,omitempty")], .scalar .String (.string ""))]

/-! ## Go map lemmas -/

theorem mapGet_mapSet_self {β : Type} (k : String) (v : β) (m : List (String × β)) :
    mapGet k (mapSet k v m) = some v := by
  induction m with
  | nil => simp [mapSet, mapGet]
  | cons e rest ih =>
    obtain ⟨k1, v1⟩ := e
    by_cases h : k1 = k <;> simp [mapSet, mapGet, h, ih]

theorem mapGet_mapSet_ne {β : Type} (k k2 : String) (v : β) (m : List (String × β))
    (hne : k2 ≠ k) : mapGet k2 (mapSet k v m) = mapGet k2 m := by
  induction m with
  | nil => simp [mapSet, mapGet, Ne.symm hne]
  | cons e rest ih =>
    obtain ⟨k1, v1⟩ := e
    by_cases h : k1 = k
    · subst h
      have h2 : ¬ k1 = k2 := fun h => hne h.symm
      simp [mapSet, mapGet, h2]
    · by_cases h3 : k1 = k2
      · subst h3
        simp [mapSet, mapGet, h]
      · simp [mapSet, mapGet, h, h3, ih]

theorem mapSet_of_mapGet {β : Type} (k : String) (v : β) (m : List (String × β))
    (h : mapGet k m = some v) : mapSet k v m = m := by
  induction m with
  | nil => simp [mapGet] at h
  | cons e rest ih =>
    obtain ⟨k1, v1⟩ := e
    by_cases h1 : k1 = k
    · simp [mapGet, h1] at h
      simp [mapSet, h1, h]
    · simp [mapGet, h1] at h
      simp [mapSet, h1, ih h]

theorem length_mapDelete_le {β : Type} (k : String) (m : List (String × β)) :
    (mapDelete k m).length ≤ m.length := by
  unfold mapDelete
  exact List.length_filter_le _ _

theorem length_mapDelete_lt {β : Type} (k : String) (x : β) (m : List (String × β))
    (h : (k, x) ∈ m) : (mapDelete k m).length < m.length := by
  induction m with
  | nil => simp at h
  | cons e rest ih =>
    obtain ⟨k1, v1⟩ := e
    by_cases h1 : k1 = k
    · have : (mapDelete k ((k1, v1) :: rest)) = mapDelete k rest := by
        simp [mapDelete, h1]
      rw [this]
      have := length_mapDelete_le k rest
      simp
      omega
    · have hmem : (k, x) ∈ rest := by
        rcases List.mem_cons.mp h with h2 | h2
        · exact absurd (congrArg Prod.fst h2).symm h1
        · exact h2
      have : (mapDelete k ((k1, v1) :: rest)) = (k1, v1) :: mapDelete k rest := by
        simp [mapDelete, h1]
      rw [this]
      have := ih hmem
      simp
      omega

/-! ## `bindKey` and the sweep -/

theorem bindKey_toResolve (env : Env) (b : Binder) (key expr : String) :
    (b.bindKey env key expr).1.toResolve = b.toResolve
      ∧ (b.bindKey env key expr).1.resolved = b.resolved := by
  unfold Binder.bindKey
  split
  · exact ⟨rfl, rfl⟩
  · split <;> exact ⟨rfl, rfl⟩
  · split <;> exact ⟨rfl, rfl⟩

theorem bindKey_notReady (env : Env) (b : Binder) (key expr : String)
    (h : (b.bindKey env key expr).2 = (false, none)) :
    b.bindKey env key expr = (b, false, none) := by
  unfold Binder.bindKey at h ⊢
  split at h
  · simp at h
  · split at h
    · rename_i h1 h2
      simp [h1, h2]
    · simp at h
  · split at h
    · rename_i h1 h2
      simp [h1, h2]
    · simp at h

theorem writeResolved_frame (b : Binder) (key : String) :
    (b.writeResolved key).1.viper = b.viper
      ∧ (b.writeResolved key).1.toResolve = b.toResolve := by
  unfold Binder.writeResolved
  split <;> exact ⟨rfl, rfl⟩

theorem sweep_notReady (env : Env) (l : List (String × String)) (b : Binder) (changed : Bool)
    (h : ∀ e ∈ l, (b.bindKey env e.1 e.2).2 = (false, none)) :
    Binder.sweep env l b changed = (b, changed, none) := by
  induction l with
  | nil => rfl
  | cons e rest ih =>
    obtain ⟨key, expr⟩ := e
    have h1 := bindKey_notReady env b key expr (h (key, expr) (List.mem_cons_self _ _))
    unfold Binder.sweep
    rw [h1]
    exact ih (fun e he => h e (List.mem_cons_of_mem _ he))

theorem sweep_cons_err (env : Env) (key expr : String) (rest : List (String × String))
    (b b1 : Binder) (changed ok : Bool) (err : GoError)
    (h : b.bindKey env key expr = (b1, ok, some err)) :
    Binder.sweep env ((key, expr) :: rest) b changed = (b1, changed, some err) := by
  rw [Binder.sweep, h]
  cases ok <;> rfl

theorem sweep_cons_notReady (env : Env) (key expr : String) (rest : List (String × String))
    (b b1 : Binder) (changed : Bool)
    (h : b.bindKey env key expr = (b1, false, none)) :
    Binder.sweep env ((key, expr) :: rest) b changed = Binder.sweep env rest b1 changed := by
  rw [Binder.sweep, h]

theorem sweep_cons_writeErr (env : Env) (key expr : String) (rest : List (String × String))
    (b b1 b2 : Binder) (changed : Bool) (err : GoError)
    (h : b.bindKey env key expr = (b1, true, none))
    (hw : b1.writeResolved key = (b2, some err)) :
    Binder.sweep env ((key, expr) :: rest) b changed = (b2, true, some err) := by
  rw [Binder.sweep, h]
  simp only [hw]

theorem sweep_cons_commit (env : Env) (key expr : String) (rest : List (String × String))
    (b b1 b2 : Binder) (changed : Bool)
    (h : b.bindKey env key expr = (b1, true, none))
    (hw : b1.writeResolved key = (b2, none)) :
    Binder.sweep env ((key, expr) :: rest) b changed =
      Binder.sweep env rest ⟨b2.viper, mapDelete key b2.toResolve, b2.resolved⟩ true := by
  rw [Binder.sweep, h]
  simp only [hw]

theorem bindKey_toResolve_eq (env : Env) (b b1 : Binder) (key expr : String) (ok : Bool)
    (err : Option GoError) (h : b.bindKey env key expr = (b1, ok, err)) :
    b1.toResolve = b.toResolve ∧ b1.resolved = b.resolved := by
  have := bindKey_toResolve env b key expr
  rw [h] at this
  exact this

theorem writeResolved_frame_eq (b b2 : Binder) (key : String) (err : Option GoError)
    (h : b.writeResolved key = (b2, err)) :
    b2.viper = b.viper ∧ b2.toResolve = b.toResolve := by
  have := writeResolved_frame b key
  rw [h] at this
  exact this

theorem sweep_length_le (env : Env) (l : List (String × String)) (b : Binder) (changed : Bool) :
    (Binder.sweep env l b changed).1.toResolve.length ≤ b.toResolve.length := by
  induction l generalizing b changed with
  | nil => simp [Binder.sweep]
  | cons e rest ih =>
    obtain ⟨key, expr⟩ := e
    rcases hbk : b.bindKey env key expr with ⟨b1, ok, err⟩
    have hk := (bindKey_toResolve_eq env b b1 key expr ok err hbk).1
    cases err with
    | some e =>
      rw [sweep_cons_err env key expr rest b b1 changed ok e hbk]
      exact le_of_eq (congrArg List.length hk)
    | none =>
      cases ok with
      | false =>
        rw [sweep_cons_notReady env key expr rest b b1 changed hbk]
        have := ih b1 changed
        rw [hk] at this
        exact this
      | true =>
        rcases hw : b1.writeResolved key with ⟨b2, err2⟩
        have hw2 := (writeResolved_frame_eq b1 b2 key err2 hw).2
        cases err2 with
        | some e =>
          rw [sweep_cons_writeErr env key expr rest b b1 b2 changed e hbk hw]
          exact le_of_eq (congrArg List.length (hw2.trans hk))
        | none =>
          rw [sweep_cons_commit env key expr rest b b1 b2 changed hbk hw]
          have h1 := ih ⟨b2.viper, mapDelete key b2.toResolve, b2.resolved⟩ true
          have h2 := length_mapDelete_le key b2.toResolve
          exact le_trans h1 (le_trans h2 (le_of_eq (congrArg List.length (hw2.trans hk))))

theorem sweep_progress (env : Env) (l : List (String × String)) (b b1 : Binder)
    (hmem : ∀ e ∈ l, e ∈ b.toResolve)
    (h : Binder.sweep env l b false = (b1, true, none)) :
    b1.toResolve.length < b.toResolve.length := by
  induction l generalizing b with
  | nil => simp [Binder.sweep] at h
  | cons e rest ih =>
    obtain ⟨key, expr⟩ := e
    rcases hbk : b.bindKey env key expr with ⟨b2, ok, err⟩
    have hk := (bindKey_toResolve_eq env b b2 key expr ok err hbk).1
    cases err with
    | some e =>
      rw [sweep_cons_err env key expr rest b b2 false ok e hbk] at h
      simp at h
    | none =>
      cases ok with
      | false =>
        rw [sweep_cons_notReady env key expr rest b b2 false hbk] at h
        have := ih b2 (fun e he => by rw [hk]; exact hmem e (List.mem_cons_of_mem _ he)) h
        rw [hk] at this
        exact this
      | true =>
        rcases hw : b2.writeResolved key with ⟨b3, err3⟩
        have hw3 := (writeResolved_frame_eq b2 b3 key err3 hw).2
        cases err3 with
        | some e =>
          rw [sweep_cons_writeErr env key expr rest b b2 b3 false e hbk hw] at h
          simp at h
        | none =>
          rw [sweep_cons_commit env key expr rest b b2 b3 false hbk hw] at h
          have h1 := sweep_length_le env rest
            ⟨b3.viper, mapDelete key b3.toResolve, b3.resolved⟩ true
          rw [h] at h1
          have h2 := length_mapDelete_lt key expr b.toResolve (hmem _ (List.mem_cons_self _ _))
          rw [hw3, hk] at h1
          exact lt_of_le_of_lt h1 h2

theorem sweep_range_progress (env : Env) (b b1 : Binder)
    (h : Binder.sweep env (env.rangeOrder.order b.toResolve) b false = (b1, true, none)) :
    b1.toResolve.length < b.toResolve.length :=
  sweep_progress env _ b b1 (fun _ he => ((env.rangeOrder.perm b.toResolve).mem_iff).mp he) h

theorem resolveLoop_zero (env : Env) (b : Binder) :
    b.resolveLoop env 0 = if b.toResolve.length > 0 then none else some (b, none) := by
  unfold Binder.resolveLoop
  rfl

theorem resolveLoop_done (env : Env) (fuel : Nat) (b : Binder)
    (h : ¬ b.toResolve.length > 0) : b.resolveLoop env fuel = some (b, none) := by
  unfold Binder.resolveLoop
  rw [if_neg h]

theorem resolveLoop_err (env : Env) (fuel : Nat) (b b1 : Binder) (ch : Bool) (err : GoError)
    (hpos : b.toResolve.length > 0)
    (hs : Binder.sweep env (env.rangeOrder.order b.toResolve) b false = (b1, ch, some err)) :
    b.resolveLoop env (fuel + 1) = some (b1, some err) := by
  unfold Binder.resolveLoop
  rw [if_pos hpos]
  simp only [hs]

theorem resolveLoop_mutual (env : Env) (fuel : Nat) (b b1 : Binder)
    (hpos : b.toResolve.length > 0)
    (hs : Binder.sweep env (env.rangeOrder.order b.toResolve) b false = (b1, false, none)) :
    b.resolveLoop env (fuel + 1) = some (b1, some (mutualReference env b1.toResolve)) := by
  unfold Binder.resolveLoop
  rw [if_pos hpos]
  simp only [hs]

theorem resolveLoop_next (env : Env) (fuel : Nat) (b b1 : Binder)
    (hpos : b.toResolve.length > 0)
    (hs : Binder.sweep env (env.rangeOrder.order b.toResolve) b false = (b1, true, none)) :
    b.resolveLoop env (fuel + 1) = b1.resolveLoop env fuel := by
  conv => lhs; unfold Binder.resolveLoop
  rw [if_pos hpos]
  simp only [hs]

theorem resolveLoop_enough (env : Env) (fuel : Nat) (b : Binder)
    (h : b.toResolve.length ≤ fuel) : ∃ r, b.resolveLoop env fuel = some r := by
  induction fuel generalizing b with
  | zero =>
    have h0 : ¬ b.toResolve.length > 0 := by omega
    exact ⟨_, resolveLoop_done env 0 b h0⟩
  | succ n ih =>
    by_cases hpos : b.toResolve.length > 0
    · rcases hs : Binder.sweep env (env.rangeOrder.order b.toResolve) b false with ⟨b1, ch, err⟩
      cases err with
      | some e => exact ⟨_, resolveLoop_err env n b b1 ch e hpos hs⟩
      | none =>
        cases ch with
        | false => exact ⟨_, resolveLoop_mutual env n b b1 hpos hs⟩
        | true =>
          have := sweep_range_progress env b b1 hs
          rw [resolveLoop_next env n b b1 hpos hs]
          exact ih b1 (by omega)
    · exact ⟨_, resolveLoop_done env _ b hpos⟩

theorem resolveLoop_mono (env : Env) (f1 f2 : Nat) (b : Binder)
    (r : Binder × Option GoError) (h : b.resolveLoop env f1 = some r) (hle : f1 ≤ f2) :
    b.resolveLoop env f2 = some r := by
  induction f1 generalizing b f2 with
  | zero =>
    by_cases hpos : b.toResolve.length > 0
    · rw [resolveLoop_zero, if_pos hpos] at h
      simp at h
    · rw [resolveLoop_done env _ b hpos] at h ⊢
      exact h
  | succ n ih =>
    obtain ⟨m, rfl⟩ : ∃ m, f2 = m + 1 := ⟨f2 - 1, by omega⟩
    by_cases hpos : b.toResolve.length > 0
    · rcases hs : Binder.sweep env (env.rangeOrder.order b.toResolve) b false with ⟨b1, ch, err⟩
      cases err with
      | some e =>
        rw [resolveLoop_err env n b b1 ch e hpos hs] at h
        rw [resolveLoop_err env m b b1 ch e hpos hs]
        exact h
      | none =>
        cases ch with
        | false =>
          rw [resolveLoop_mutual env n b b1 hpos hs] at h
          rw [resolveLoop_mutual env m b b1 hpos hs]
          exact h
        | true =>
          rw [resolveLoop_next env n b b1 hpos hs] at h
          rw [resolveLoop_next env m b b1 hpos hs]
          exact ih m b1 h (by omega)
    · rw [resolveLoop_done env _ b hpos] at h ⊢
      exact h

theorem resolveLoop_afterSweeps (env : Env) (n fuel : Nat) (b b2 : Binder)
    (h : b.afterSweeps env n = some b2) :
    b.resolveLoop env (n + fuel) = b2.resolveLoop env fuel := by
  induction n generalizing b with
  | zero =>
    simp [Binder.afterSweeps] at h
    simp [h]
  | succ n ih =>
    rw [Binder.afterSweeps] at h
    by_cases hpos : b.toResolve.length > 0
    · rw [if_pos hpos] at h
      have hn : n + 1 + fuel = (n + fuel) + 1 := by omega
      rcases hs : Binder.sweep env (env.rangeOrder.order b.toResolve) b false with ⟨b1, ch, err⟩
      rw [hs] at h
      cases err with
      | some e => cases ch <;> simp at h
      | none =>
        cases ch with
        | false => simp at h
        | true =>
          rw [hn, resolveLoop_next env _ b b1 hpos hs]
          exact ih b1 h
    · simp [hpos] at h

theorem resolveLoop_stall (env : Env) (fuel : Nat) (b : Binder) (hne : b.toResolve ≠ [])
    (hstall : ∀ e ∈ b.toResolve, (b.bindKey env e.1 e.2).2 = (false, none)) :
    b.resolveLoop env (fuel + 1) = some (b, some (mutualReference env b.toResolve)) := by
  have hpos : b.toResolve.length > 0 := List.length_pos.mpr hne
  have hs := sweep_notReady env (env.rangeOrder.order b.toResolve) b false
    (fun e he => hstall e (((env.rangeOrder.perm b.toResolve).mem_iff).mp he))
  exact resolveLoop_mutual env fuel b b hpos hs

/-! ## Splitting and the hierarchical writer -/

theorem splitChars_ne_nil (sep : Char) (cs : List Char) : splitChars sep cs ≠ [] := by
  induction cs with
  | nil => simp [splitChars]
  | cons c cs ih =>
    unfold splitChars
    by_cases h : c = sep
    · simp [h]
    · simp only [h, if_false]
      split <;> simp

theorem splitChars_append (sep : Char) (p r : List Char) :
    splitChars sep (p ++ sep :: r) = splitChars sep p ++ splitChars sep r := by
  induction p with
  | nil => simp [splitChars]
  | cons c cs ih =>
    by_cases h : c = sep
    · simp [splitChars, h, ih]
    · have hne := splitChars_ne_nil sep cs
      rcases hs : splitChars sep cs with _ | ⟨seg, segs⟩
      · exact absurd hs hne
      · simp [splitChars, h, ih, hs]

theorem stringsSplit_ne_nil (s : String) (sep : Char) : stringsSplit s sep ≠ [] := by
  unfold stringsSplit
  simp [splitChars_ne_nil]

theorem stringsSplit_append (p r : String) :
    stringsSplit (p ++ "." ++ r) '.' = stringsSplit p '.' ++ stringsSplit r '.' := by
  unfold stringsSplit
  have h : (p ++ "." ++ r).toList = p.toList ++ '.' :: r.toList := by
    simp [String.toList, String.data_append]
  rw [h, splitChars_append, List.map_append]

theorem dropLast_append_getLastD (l : List String) (h : l ≠ []) :
    l.dropLast ++ [l.getLastD ""] = l := by
  induction l with
  | nil => exact absurd rfl h
  | cons a rest ih =>
    cases rest with
    | nil => simp
    | cons b rest2 =>
      have := ih (by simp)
      simp [List.dropLast, List.getLastD] at this ⊢
      exact this

theorem setMapKeys_get (ks : List String) (last : String) (v : Node) (m m2 : Tree)
    (h : setMapKeys ks last v m = (m2, none)) :
    Node.get (.mapping m2) (ks ++ [last]) = some v := by
  induction ks generalizing m m2 with
  | nil =>
    simp [setMapKeys] at h
    subst h
    simp [Node.get, mapGet_mapSet_self]
  | cons k ks ih =>
    rw [setMapKeys] at h
    rcases hg : mapGet k m with _ | c
    · rw [hg] at h
      simp only [Prod.mk.injEq] at h
      obtain ⟨h1, h2⟩ := h
      subst h1
      have := ih [] _ (Prod.ext rfl h2)
      simp [Node.get, mapGet_mapSet_self, this]
    · rw [hg] at h
      cases c with
      | nil => simp at h
      | scalar x => simp at h
      | mapping vv =>
        simp only [Prod.mk.injEq] at h
        obtain ⟨h1, h2⟩ := h
        subst h1
        have := ih vv _ (Prod.ext rfl h2)
        simp [Node.get, mapGet_mapSet_self, this]

theorem setMapKeys_blocked (pre more : List String) (last : String) (v n : Node) (m : Tree)
    (hpre : pre ≠ []) (hn : n.isMapping = false)
    (hget : Node.get (.mapping m) pre = some n) :
    setMapKeys (pre ++ more) last v m = (m, some Sentinel.ErrOverlayHierarchicalKey.err) := by
  induction pre generalizing m with
  | nil => exact absurd rfl hpre
  | cons k rest ih =>
    rw [Node.get] at hget
    rcases hg : mapGet k m with _ | c
    · rw [hg] at hget
      simp at hget
    · rw [hg] at hget
      simp only [] at hget
      cases rest with
      | nil =>
        simp [Node.get] at hget
        subst hget
        rw [List.cons_append, setMapKeys, hg]
        cases c with
        | nil => rfl
        | scalar x => rfl
        | mapping vv => simp [Node.isMapping] at hn
      | cons k2 rest2 =>
        cases c with
        | nil => simp [Node.get] at hget
        | scalar x => simp [Node.get] at hget
        | mapping vv =>
          have := ih vv (by simp) hget
          rw [List.cons_append, setMapKeys, hg]
          simp only [this]
          rw [mapSet_of_mapGet k _ m hg]

theorem setMapKeys_ok_of_get (ks : List String) (last : String) (v n : Node) (m : Tree)
    (hget : Node.get (.mapping m) (ks ++ [last]) = some n) :
    (setMapKeys ks last v m).2 = none := by
  induction ks generalizing m with
  | nil => simp [setMapKeys]
  | cons k ks ih =>
    rw [List.cons_append, Node.get] at hget
    rcases hg : mapGet k m with _ | c
    · rw [hg] at hget
      simp at hget
    · rw [hg] at hget
      simp only [] at hget
      cases c with
      | nil => cases ks <;> simp [Node.get] at hget
      | scalar x => cases ks <;> simp [Node.get] at hget
      | mapping vv =>
        rw [setMapKeys, hg]
        exact ih vv hget

theorem SetValueHierarchicalMap_lookup (m m2 : Tree) (key : String) (v : Node)
    (h : SetValueHierarchicalMap m key v = (m2, none)) : Tree.lookup m2 key = some v := by
  unfold SetValueHierarchicalMap at h
  have := setMapKeys_get _ _ v m m2 h
  rw [dropLast_append_getLastD _ (stringsSplit_ne_nil key '.')] at this
  exact this

/-! ## The seed pass as a pass over the leaves -/

theorem bindLeaves_append (env : Env) (l1 l2 : List Leaf) (b : Binder) :
    Binder.bindLeaves env (l1 ++ l2) b =
      match Binder.bindLeaves env l1 b with
      | (b1, some err) => (b1, some err)
      | (b1, none) => Binder.bindLeaves env l2 b1 := by
  induction l1 generalizing b with
  | nil => simp [Binder.bindLeaves]
  | cons l ls ih =>
    rw [List.cons_append, Binder.bindLeaves, Binder.bindLeaves]
    rcases hb : b.bindLeaf env l.tag l.fields l.key with ⟨b1, err⟩
    cases err with
    | some e => rfl
    | none => exact ih b1

mutual
theorem bindField_eq_bindLeaves (env : Env) (f : Field) (parts : List String) (b : Binder) :
    Binder.bindField env f parts b = Binder.bindLeaves env (walkField f parts) b := by
  cases f with
  | leaf tag kind =>
    rw [Binder.bindField, walkField]
    cases hm : mapGet "mapstructure" tag with
    | none => rfl
    | some tv =>
      simp only [Binder.bindLeaves]
      rcases hb : b.bindLeaf env tag (stringsSplit tv ',')
        (stringsJoin (parts ++ [(stringsSplit tv ',').headD ""]) ".") with ⟨b1, err⟩
      cases err <;> rfl
  | struct tag sub =>
    rw [Binder.bindField, walkField]
    cases hm : mapGet "mapstructure" tag with
    | none => rfl
    | some tv => exact bind_eq_bindLeaves env sub _ b
theorem bind_eq_bindLeaves (env : Env) (fs : List Field) (parts : List String) (b : Binder) :
    Binder.bind env fs parts b = Binder.bindLeaves env (walk fs parts) b := by
  cases fs with
  | nil => rw [Binder.bind, walk]; rfl
  | cons f rest =>
    rw [Binder.bind, walk, bindLeaves_append, bindField_eq_bindLeaves env f parts b]
    rcases hb : Binder.bindLeaves env (walkField f parts) b with ⟨b1, err⟩
    cases err with
    | some e => rfl
    | none => exact bind_eq_bindLeaves env rest parts b1
end

/-! ## The write that ends the handling of a leaf -/

theorem setMapKeys_err (ks : List String) (last : String) (v : Node) (m : Tree) (e : GoError)
    (h : (setMapKeys ks last v m).2 = some e) : e = Sentinel.ErrOverlayHierarchicalKey.err := by
  induction ks generalizing m with
  | nil => simp [setMapKeys] at h
  | cons k ks ih =>
    rw [setMapKeys] at h
    rcases hg : mapGet k m with _ | c
    · rw [hg] at h
      exact ih [] h
    · rw [hg] at h
      cases c with
      | nil => simp at h; exact h.symm
      | scalar x => simp at h; exact h.symm
      | mapping vv => exact ih vv h

theorem writeResolved_spec (b : Binder) (key : String) :
    (b.writeResolved key).1.viper = b.viper
    ∧ (b.writeResolved key).1.toResolve = b.toResolve
    ∧ (b.writeResolved key).1.resolved
        = (SetValueHierarchicalMap b.resolved key (viperGet b.viper key)).1
    ∧ ((b.writeResolved key).2 = none →
        Tree.lookup (b.writeResolved key).1.resolved key = some (viperGet b.viper key))
    ∧ (∀ e, (b.writeResolved key).2 = some e →
        e = ⟨"overlay hierarchical key: " ++ key, some .ErrOverlayHierarchicalKey⟩
        ∧ (SetValueHierarchicalMap b.resolved key (viperGet b.viper key)).2
            = some Sentinel.ErrOverlayHierarchicalKey.err) := by
  unfold Binder.writeResolved
  rcases hs : SetValueHierarchicalMap b.resolved key (viperGet b.viper key) with ⟨m, err⟩
  cases err with
  | none =>
    refine ⟨rfl, rfl, rfl, fun _ => ?_, fun e he => by simp at he⟩
    exact SetValueHierarchicalMap_lookup b.resolved m key _ hs
  | some e0 =>
    have he0 : e0 = Sentinel.ErrOverlayHierarchicalKey.err := by
      have := setMapKeys_err _ _ _ _ e0 (congrArg Prod.snd hs)
      exact this
    subst he0
    refine ⟨rfl, rfl, rfl, fun h => by simp at h, fun e he => ?_⟩
    simp only [Option.some.injEq] at he
    subst he
    refine ⟨?_, rfl⟩
    simp only [wrapKey, Sentinel.err, Sentinel.text, String.append_assoc]
    rfl

/-! ## The outcomes of `bindKey` -/

theorem bindKey_cases (env : Env) (b : Binder) (key expr : String) :
    (∃ e, b.bindKey env key expr = (b, false, some e) ∧ e.wraps = none)
    ∨ b.bindKey env key expr = (b, false, none)
    ∨ (∃ text, env.template key expr b.resolved = .output text
        ∧ stringsContains text "<no value>" = false
        ∧ b.bindKey env key expr
            = (⟨viperSet b.viper key (.str text), b.toResolve, b.resolved⟩, true, none)) := by
  rcases ht : env.template key expr b.resolved with cause | cause | text
  · refine Or.inl ⟨parseFailure key cause, ?_, rfl⟩
    simp only [Binder.bindKey, ht]
  · by_cases hc : stringsContains cause "invalid value" = true
    · refine Or.inr (Or.inl ?_)
      simp only [Binder.bindKey, ht, hc, if_true]
    · refine Or.inl ⟨parseFailure key cause, ?_, rfl⟩
      simp only [Binder.bindKey, ht, hc]
      rfl
  · by_cases hc : stringsContains text "<no value>" = true
    · refine Or.inr (Or.inl ?_)
      simp only [Binder.bindKey, ht, hc, if_true]
    · refine Or.inr (Or.inr ⟨text, rfl, by simpa using hc, ?_⟩)
      simp only [Binder.bindKey, ht, hc]
      rfl

theorem bindLeaf_default (env : Env) (b : Binder) (tag : StructTag) (fields : List String)
    (key dv : String) (hraw : mapGet key b.viper = none)
    (hdef : mapGet "default" tag = some dv) :
    b.bindLeaf env tag fields key =
      match b.bindKey env key dv with
      | (b1, _, some err) => (b1, some err)
      | (b1, false, none) =>
        (⟨b1.viper, mapSet key dv b1.toResolve, b1.resolved⟩, none)
      | (b1, true, none) => b1.writeResolved key := by
  unfold Binder.bindLeaf viperGet
  simp only [hraw, hdef]

/-! ## The hierarchical writer: success, frame, and where scalars sit -/

theorem Node.get_append (n : Node) (q r : List String) :
    Node.get n (q ++ r) = (Node.get n q).bind (fun c => Node.get c r) := by
  induction q generalizing n with
  | nil => simp [Node.get]
  | cons k ks ih =>
    cases n with
    | nil => simp [Node.get]
    | scalar x => simp [Node.get]
    | mapping m =>
      rw [List.cons_append, Node.get, Node.get]
      cases mapGet k m with
      | none => rfl
      | some c => exact ih c

theorem Node.get_nonMapping (n : Node) (k : String) (ks : List String)
    (h : n.isMapping = false) : Node.get n (k :: ks) = none := by
  cases n with
  | nil => rfl
  | scalar x => rfl
  | mapping m => simp [Node.isMapping] at h

theorem Node.get_empty (q : List String) (hq : q ≠ []) : Node.get (.mapping []) q = none := by
  cases q with
  | nil => exact absurd rfl hq
  | cons k ks => simp [Node.get, mapGet]

theorem setMapKeys_ok (ks : List String) (last : String) (v : Node) (m : Tree)
    (h : ∀ pre more n, pre ≠ [] → pre ++ more = ks →
      Node.get (.mapping m) pre = some n → n.isMapping = true) :
    (setMapKeys ks last v m).2 = none := by
  induction ks generalizing m with
  | nil => simp [setMapKeys]
  | cons k ks ih =>
    rw [setMapKeys]
    rcases hg : mapGet k m with _ | c
    · simp only []
      apply ih
      intro pre more n hpre _ hget
      rw [Node.get_empty pre hpre] at hget
      simp at hget
    · have hc := h [k] ks c (by simp) rfl (by simp [Node.get, hg])
      cases c with
      | nil => simp [Node.isMapping] at hc
      | scalar x => simp [Node.isMapping] at hc
      | mapping vv =>
        simp only []
        apply ih
        intro pre more n hpre hpm hget
        apply h (k :: pre) more n (by simp) (by simp [hpm])
        rw [Node.get, hg]
        exact hget

theorem setMapKeys_frame (ks : List String) (last : String) (v : Node) (m m2 : Tree)
    (h : setMapKeys ks last v m = (m2, none)) (q : List String)
    (hq1 : ¬ leadsInto q (ks ++ [last])) (hq2 : ¬ leadsInto (ks ++ [last]) q) :
    Node.get (.mapping m2) q = Node.get (.mapping m) q := by
  induction ks generalizing m m2 q with
  | nil =>
    simp [setMapKeys] at h
    subst h
    cases q with
    | nil => exact absurd ⟨[last], rfl⟩ hq1
    | cons k rest =>
      have hk : k ≠ last := by
        intro hk
        subst hk
        exact hq2 ⟨rest, rfl⟩
      rw [Node.get, Node.get, mapGet_mapSet_ne last k v m hk]
  | cons k0 ks ih =>
    cases q with
    | nil => exact absurd ⟨_, rfl⟩ hq1
    | cons k rest =>
      rw [setMapKeys] at h
      by_cases hk : k = k0
      · subst hk
        have hr1 : ¬ leadsInto rest (ks ++ [last]) := by
          rintro ⟨r, hr⟩
          exact hq1 ⟨r, by simp [hr]⟩
        have hr2 : ¬ leadsInto (ks ++ [last]) rest := by
          rintro ⟨r, hr⟩
          exact hq2 ⟨r, by simp [hr]⟩
        rcases hg : mapGet k m with _ | c
        · rw [hg] at h
          simp only [Prod.mk.injEq] at h
          obtain ⟨h1, h2⟩ := h
          subst h1
          rw [Node.get, Node.get, mapGet_mapSet_self, hg]
          simp only []
          rw [ih [] _ (Prod.ext rfl h2) rest hr1 hr2]
          apply Node.get_empty
          intro hrest
          subst hrest
          exact hq1 ⟨ks ++ [last], rfl⟩
        · rw [hg] at h
          cases c with
          | nil => simp at h
          | scalar x => simp at h
          | mapping vv =>
            simp only [Prod.mk.injEq] at h
            obtain ⟨h1, h2⟩ := h
            subst h1
            rw [Node.get, Node.get, mapGet_mapSet_self, hg]
            exact ih vv _ (Prod.ext rfl h2) rest hr1 hr2
      · have key : ∀ x : Node, mapGet k (mapSet k0 x m) = mapGet k m :=
          fun x => mapGet_mapSet_ne k0 k x m hk
        rcases hg : mapGet k0 m with _ | c
        · rw [hg] at h
          simp only [Prod.mk.injEq] at h
          rw [← h.1, Node.get, Node.get, key]
        · rw [hg] at h
          cases c with
          | nil => simp at h
          | scalar x => simp at h
          | mapping vv =>
            simp only [Prod.mk.injEq] at h
            rw [← h.1, Node.get, Node.get, key]

theorem write_inv (m : Tree) (key : String) (v : Node) (hv : v.isMapping = false)
    (Sp : List String → Prop)
    (hsc : ∀ q n, Node.get (.mapping m) q = some n → n.isMapping = false → Sp q)
    (hfree : ∀ q, Sp q → q ≠ segs key → apart q (segs key)) :
    ∃ m2, SetValueHierarchicalMap m key v = (m2, none)
      ∧ Node.get (.mapping m2) (segs key) = some v
      ∧ (∀ q, apart q (segs key) → Node.get (.mapping m2) q = Node.get (.mapping m) q)
      ∧ (∀ q n, Node.get (.mapping m2) q = some n → n.isMapping = false →
          q = segs key ∨ Sp q) := by
  have hsplit := dropLast_append_getLastD _ (stringsSplit_ne_nil key '.')
  have hok : (SetValueHierarchicalMap m key v).2 = none := by
    unfold SetValueHierarchicalMap
    apply setMapKeys_ok
    intro pre more n hpre hpm hget
    by_contra hn
    have hn2 : n.isMapping = false := by simpa using hn
    have hS := hsc pre n hget hn2
    have hlead : leadsInto pre (segs key) := by
      refine ⟨more ++ [(stringsSplit key '.').getLastD ""], ?_⟩
      rw [← List.append_assoc, hpm]
      exact hsplit
    have hne : pre ≠ segs key := by
      intro heq
      have h1 := congrArg List.length hpm
      have h2 := congrArg List.length hsplit
      rw [heq] at h1
      simp [segs] at h1 h2
      omega
    exact (hfree pre hS hne).1 hlead
  refine ⟨(SetValueHierarchicalMap m key v).1, Prod.ext rfl hok, ?_, ?_, ?_⟩
  · exact SetValueHierarchicalMap_lookup m _ key v (Prod.ext rfl hok)
  · intro q hq
    have h := setMapKeys_frame _ _ v m (SetValueHierarchicalMap m key v).1
      (Prod.ext rfl hok) q
    rw [hsplit] at h
    exact h hq.1 hq.2
  · intro q n hget hn
    have hat : Node.get (.mapping (SetValueHierarchicalMap m key v).1) (segs key) = some v :=
      SetValueHierarchicalMap_lookup m _ key v (Prod.ext rfl hok)
    by_cases h1 : leadsInto q (segs key)
    · obtain ⟨r, hr⟩ := h1
      cases r with
      | nil => left; simpa using hr
      | cons k rest =>
        exfalso
        rw [← hr, Node.get_append, hget] at hat
        simp only [Option.bind] at hat
        rw [Node.get_nonMapping n k rest hn] at hat
        simp at hat
    · by_cases h2 : leadsInto (segs key) q
      · obtain ⟨r, hr⟩ := h2
        cases r with
        | nil => left; simpa using hr.symm
        | cons k rest =>
          exfalso
          rw [← hr, Node.get_append, hat] at hget
          simp only [Option.bind] at hget
          rw [Node.get_nonMapping v k rest hv] at hget
          simp at hget
      · right
        have h := setMapKeys_frame _ _ v m (SetValueHierarchicalMap m key v).1
          (Prod.ext rfl hok) q
        rw [hsplit] at h
        rw [h h1 h2] at hget
        exact hsc q n hget hn

theorem exists_min_rank (l : List (String × String)) (rank : String → Nat) (h : l ≠ []) :
    ∃ e ∈ l, ∀ e2 ∈ l, rank e.1 ≤ rank e2.1 := by
  induction l with
  | nil => exact absurd rfl h
  | cons a rest ih =>
    cases rest with
    | nil => exact ⟨a, by simp, by simp⟩
    | cons c rest2 =>
      obtain ⟨e, he, hmin⟩ := ih (by simp)
      by_cases hle : rank a.1 ≤ rank e.1
      · refine ⟨a, by simp, ?_⟩
        intro e2 he2
        rcases List.mem_cons.mp he2 with h1 | h1
        · rw [h1]
        · exact le_trans hle (hmin e2 h1)
      · refine ⟨e, List.mem_cons_of_mem _ he, ?_⟩
        intro e2 he2
        rcases List.mem_cons.mp he2 with h1 | h1
        · rw [h1]; omega
        · exact hmin e2 h1

theorem mem_mapSet {β : Type} (k : String) (v : β) (m : List (String × β)) (e : String × β)
    (h : e ∈ mapSet k v m) : e = (k, v) ∨ e ∈ m := by
  induction m with
  | nil => simp [mapSet] at h; exact Or.inl h
  | cons a rest ih =>
    obtain ⟨k1, v1⟩ := a
    by_cases h1 : k1 = k
    · simp [mapSet, h1] at h
      rcases h with h | h
      · exact Or.inl h
      · exact Or.inr (List.mem_cons_of_mem _ h)
    · simp [mapSet, h1] at h
      rcases h with h | h
      · exact Or.inr (by rw [h]; exact List.mem_cons_self _ _)
      · rcases ih h with h2 | h2
        · exact Or.inl h2
        · exact Or.inr (List.mem_cons_of_mem _ h2)

theorem mem_mapSet_of_ne {β : Type} (k : String) (v : β) (m : List (String × β))
    (e : String × β) (h : e ∈ m) (hne : e.1 ≠ k) : e ∈ mapSet k v m := by
  induction m with
  | nil => simp at h
  | cons a rest ih =>
    obtain ⟨k1, v1⟩ := a
    by_cases h1 : k1 = k
    · rcases List.mem_cons.mp h with h2 | h2
      · rw [h2] at hne
        exact absurd h1 hne
      · simp [mapSet, h1, h2]
    · rcases List.mem_cons.mp h with h2 | h2
      · simp [mapSet, h1, h2]
      · simp [mapSet, h1, ih h2]

theorem mem_mapSet_self {β : Type} (k : String) (v : β) (m : List (String × β)) :
    (k, v) ∈ mapSet k v m := by
  induction m with
  | nil => simp [mapSet]
  | cons a rest ih =>
    obtain ⟨k1, v1⟩ := a
    by_cases h1 : k1 = k <;> simp [mapSet, h1, ih]

theorem mem_mapDelete {β : Type} (k : String) (m : List (String × β)) (e : String × β) :
    e ∈ mapDelete k m ↔ e ∈ m ∧ e.1 ≠ k := by
  simp [mapDelete]

/-! ## The handling of a leaf, branch by branch -/

theorem bindLeaf_raw (env : Env) (b : Binder) (tag : StructTag) (fields : List String)
    (key : String) (v : Value) (hraw : mapGet key b.viper = some v) :
    b.bindLeaf env tag fields key = b.writeResolved key := by
  have hv : viperGet b.viper key = .scalar v := by simp [viperGet, hraw]
  unfold Binder.bindLeaf
  rw [hv]

theorem bindLeaf_forced (env : Env) (b : Binder) (tag : StructTag) (fields : List String)
    (key : String) (hraw : mapGet key b.viper = none) (hdef : mapGet "default" tag = none)
    (hreq : mapGet "required" tag = none) (homit : fields.get? 1 ≠ some "omitempty") :
    b.bindLeaf env tag fields key
      = Binder.writeResolved ⟨viperSet b.viper key (.str ""), b.toResolve, b.resolved⟩ key := by
  unfold Binder.bindLeaf viperGet
  simp only [hraw, hdef, hreq]
  have h3 : ¬ fields[1]? = some "omitempty" := by simpa using homit
  simp [h3]

theorem bindLeaf_omitted (env : Env) (b : Binder) (tag : StructTag) (fields : List String)
    (key : String) (hraw : mapGet key b.viper = none) (hdef : mapGet "default" tag = none)
    (hreq : mapGet "required" tag = none) (homit : fields.get? 1 = some "omitempty") :
    b.bindLeaf env tag fields key = b.writeResolved key := by
  have hlen : fields.length ≠ 1 := by
    intro h1
    have : fields.get? 1 = none := List.get?_eq_none.mpr (by omega)
    rw [this] at homit
    simp at homit
  unfold Binder.bindLeaf viperGet
  simp only [hraw, hdef, hreq]
  have homit2 : fields[1]? = some "omitempty" := by simpa using homit
  simp [hlen, homit2]

theorem viperGet_nonMapping (v : RawStore) (key : String) :
    (viperGet v key).isMapping = false := by
  unfold viperGet
  cases mapGet key v <;> rfl

theorem apart_irrefl (p : List String) : ¬ apart p p :=
  fun h => h.1 ⟨[], by simp⟩

theorem commit_write (raw : RawStore) (D : List Leaf) (b : Binder) (l : Leaf) (vp : RawStore)
    (hinv : SeedInv raw D b)
    (hap : ∀ l2 ∈ D, l2.key ≠ l.key → apart (segs l2.key) (segs l.key)) :
    ∃ m2, Binder.writeResolved ⟨vp, b.toResolve, b.resolved⟩ l.key
        = (⟨vp, b.toResolve, m2⟩, none)
      ∧ Tree.lookup m2 l.key = some (viperGet vp l.key)
      ∧ (∀ l2 ∈ D, l2.key ≠ l.key →
          Tree.lookup m2 l2.key = Tree.lookup b.resolved l2.key)
      ∧ (∀ q n, Node.get (.mapping m2) q = some n → n.isMapping = false →
          segs l.key = q ∨ ∃ l2 ∈ D, segs l2.key = q) := by
  obtain ⟨m2, hw, hat, hframe, hsc⟩ := write_inv b.resolved l.key (viperGet vp l.key)
    (viperGet_nonMapping vp l.key) (fun q => ∃ l2 ∈ D, segs l2.key = q) hinv.scalars
    (by
      rintro q ⟨l2, hl2, rfl⟩ hne
      exact hap l2 hl2 (fun h => hne (by rw [h])))
  refine ⟨m2, ?_, hat, ?_, ?_⟩
  · unfold Binder.writeResolved
    simp only [hw]
  · intro l2 hl2 hne
    exact hframe (segs l2.key) (hap l2 hl2 hne)
  · intro q n hget hn
    rcases hsc q n hget hn with h | h
    · exact Or.inl h.symm
    · exact Or.inr h

/-! ## The seed pass keeps the invariant -/

theorem seed_write (raw : RawStore) (done : List Leaf) (b : Binder) (l : Leaf) (vp : RawStore)
    (hinv : SeedInv raw done b)
    (hap : ∀ l2 ∈ done, apart (segs l2.key) (segs l.key))
    (hvp : ∀ k, k ≠ l.key → mapGet k vp = mapGet k b.viper)
    (hval : (∃ x, mapGet l.key vp = some x) ∨ (mapGet l.key vp = none ∧ valueless raw l)) :
    ∃ b2, Binder.writeResolved ⟨vp, b.toResolve, b.resolved⟩ l.key = (b2, none)
      ∧ SeedInv raw (done ++ [l]) b2 := by
  have hne : ∀ l2 ∈ done, l2.key ≠ l.key := by
    intro l2 hl2 heq
    have := hap l2 hl2
    rw [heq] at this
    exact apart_irrefl _ this
  obtain ⟨m2, hw, hat, hframe, hsc⟩ := commit_write raw done b l vp hinv
    (fun l2 hl2 _ => hap l2 hl2)
  refine ⟨⟨vp, b.toResolve, m2⟩, hw, ?_, ?_, ?_, ?_⟩
  · intro e he
    obtain ⟨l2, hl2, h⟩ := hinv.pending e he
    exact ⟨l2, List.mem_append_left _ hl2, h⟩
  · intro l2 hl2
    rcases List.mem_append.mp hl2 with h | h
    · have hk := hne l2 h
      rcases hinv.settled l2 h with h1 | h1 | h1
      · exact Or.inl h1
      · right; left
        obtain ⟨v, hv⟩ := h1
        exact ⟨v, by rw [hframe l2 h hk]; exact hv⟩
      · right; right
        exact ⟨h1.1, by rw [hframe l2 h hk]; exact h1.2⟩
    · simp only [List.mem_singleton] at h
      subst h
      rcases hval with ⟨x, hx⟩ | ⟨hx, hvl⟩
      · right; left
        refine ⟨x, ?_⟩
        show Tree.lookup m2 l2.key = _
        rw [hat]
        simp [viperGet, hx]
      · right; right
        refine ⟨hvl, ?_⟩
        show Tree.lookup m2 l2.key = _
        rw [hat]
        simp [viperGet, hx]
  · intro q n hget hn
    rcases hsc q n hget hn with h | ⟨l2, hl2, h⟩
    · exact ⟨l, by simp, h⟩
    · exact ⟨l2, List.mem_append_left _ hl2, h⟩
  · intro k hk
    have h1 : k ≠ l.key := fun h => hk l (by simp) h.symm
    show mapGet k vp = mapGet k raw
    rw [hvp k h1]
    exact hinv.rawKept k (fun l2 hl2 => hk l2 (List.mem_append_left _ hl2))

theorem seed_step (env : Env) (raw : RawStore) (done : List Leaf) (b : Binder) (l : Leaf)
    (hinv : SeedInv raw done b)
    (hap : ∀ l2 ∈ done, apart (segs l2.key) (segs l.key))
    (hreq : mapGet "required" l.tag ≠ none →
      mapGet l.key raw ≠ none ∨ mapGet "default" l.tag ≠ none)
    (hnf : ∀ dv, mapGet "default" l.tag = some dv → ∀ b : Binder,
      (b.bindKey env l.key dv).2.2 = none) :
    ∃ b2, b.bindLeaf env l.tag l.fields l.key = (b2, none)
      ∧ SeedInv raw (done ++ [l]) b2 := by
  have hne : ∀ l2 ∈ done, l2.key ≠ l.key := by
    intro l2 hl2 heq
    have := hap l2 hl2
    rw [heq] at this
    exact apart_irrefl _ this
  have hkey : mapGet l.key b.viper = mapGet l.key raw := hinv.rawKept l.key hne
  have hb : b = ⟨b.viper, b.toResolve, b.resolved⟩ := rfl
  rcases hraw : mapGet l.key b.viper with _ | v
  · rcases hdef : mapGet "default" l.tag with _ | dv
    · rcases hrq : mapGet "required" l.tag with _ | rq
      · by_cases homit : l.fields.get? 1 = some "omitempty"
        · rw [bindLeaf_omitted env b l.tag l.fields l.key hraw hdef hrq homit, hb]
          exact seed_write raw done b l b.viper hinv hap (fun _ _ => rfl)
            (Or.inr ⟨hraw, by rw [← hkey]; exact hraw, hdef, homit⟩)
        · rw [bindLeaf_forced env b l.tag l.fields l.key hraw hdef hrq homit]
          exact seed_write raw done b l _ hinv hap
            (fun k hk => mapGet_mapSet_ne l.key k _ b.viper hk)
            (Or.inl ⟨_, mapGet_mapSet_self l.key _ b.viper⟩)
      · exfalso
        rcases hreq (by rw [hrq]; simp) with h | h
        · rw [← hkey, hraw] at h
          exact h rfl
        · exact h hdef
    · have hl := bindLeaf_default env b l.tag l.fields l.key dv hraw hdef
      rcases bindKey_cases env b l.key dv with ⟨e0, h0, _⟩ | h0 | ⟨text, _, _, h0⟩
      · have := hnf dv hdef b
        rw [h0] at this
        simp at this
      · rw [h0] at hl
        simp only [] at hl
        refine ⟨_, hl, ?_, ?_, ?_, ?_⟩
        · intro e he
          rcases mem_mapSet l.key dv b.toResolve e he with h | h
          · exact ⟨l, by simp, by rw [h], by rw [h]; exact hdef⟩
          · obtain ⟨l2, hl2, h2⟩ := hinv.pending e h
            exact ⟨l2, List.mem_append_left _ hl2, h2⟩
        · intro l2 hl2
          rcases List.mem_append.mp hl2 with h | h
          · rcases hinv.settled l2 h with ⟨e, he, hek⟩ | h1 | h1
            · left
              exact ⟨e, mem_mapSet_of_ne l.key dv b.toResolve e he
                (by rw [hek]; exact hne l2 h), hek⟩
            · exact Or.inr (Or.inl h1)
            · exact Or.inr (Or.inr h1)
          · simp only [List.mem_singleton] at h
            subst h
            exact Or.inl ⟨(l2.key, dv), mem_mapSet_self l2.key dv b.toResolve, rfl⟩
        · intro q n hget hn
          obtain ⟨l2, hl2, h2⟩ := hinv.scalars q n hget hn
          exact ⟨l2, List.mem_append_left _ hl2, h2⟩
        · intro k hk
          exact hinv.rawKept k (fun l2 hl2 => hk l2 (List.mem_append_left _ hl2))
      · rw [h0] at hl
        simp only [] at hl
        rw [hl]
        exact seed_write raw done b l _ hinv hap
          (fun k hk => mapGet_mapSet_ne l.key k _ b.viper hk)
          (Or.inl ⟨_, mapGet_mapSet_self l.key _ b.viper⟩)
  · rw [bindLeaf_raw env b l.tag l.fields l.key v hraw, hb]
    exact seed_write raw done b l b.viper hinv hap (fun _ _ => rfl) (Or.inl ⟨v, hraw⟩)

theorem seed_pass (env : Env) (raw : RawStore) (rest done : List Leaf) (b : Binder)
    (hinv : SeedInv raw done b)
    (hcross : ∀ l2 ∈ done, ∀ l ∈ rest, apart (segs l2.key) (segs l.key))
    (hfree : PrefixFree rest)
    (hreq : ∀ l ∈ rest, mapGet "required" l.tag ≠ none →
      mapGet l.key raw ≠ none ∨ mapGet "default" l.tag ≠ none)
    (hnf : ∀ l ∈ rest, ∀ dv, mapGet "default" l.tag = some dv → ∀ b : Binder,
      (b.bindKey env l.key dv).2.2 = none) :
    ∃ b2, Binder.bindLeaves env rest b = (b2, none) ∧ SeedInv raw (done ++ rest) b2 := by
  induction rest generalizing done b with
  | nil => exact ⟨b, rfl, by simpa using hinv⟩
  | cons l ls ih =>
    obtain ⟨b1, hb1, hinv1⟩ := seed_step env raw done b l hinv
      (fun l2 hl2 => hcross l2 hl2 l (List.mem_cons_self _ _))
      (hreq l (List.mem_cons_self _ _)) (hnf l (List.mem_cons_self _ _))
    have hpw := List.pairwise_cons.mp hfree
    obtain ⟨b2, hb2, hinv2⟩ := ih (done ++ [l]) b1 hinv1
      (by
        intro l2 hl2 l3 hl3
        rcases List.mem_append.mp hl2 with h | h
        · exact hcross l2 h l3 (List.mem_cons_of_mem _ hl3)
        · simp only [List.mem_singleton] at h
          subst h
          exact hpw.1 l3 hl3)
      hpw.2
      (fun l3 hl3 => hreq l3 (List.mem_cons_of_mem _ hl3))
      (fun l3 hl3 => hnf l3 (List.mem_cons_of_mem _ hl3))
    refine ⟨b2, ?_, by simpa using hinv2⟩
    rw [Binder.bindLeaves, hb1]
    exact hb2

/-! ## The fixpoint loop resolves every pending default -/

theorem apart_symm (p q : List String) (h : apart p q) : apart q p := ⟨h.2, h.1⟩

theorem prefixFree_apart (leaves : List Leaf) (hfree : PrefixFree leaves) (l1 l2 : Leaf)
    (h1 : l1 ∈ leaves) (h2 : l2 ∈ leaves) (hne : l1.key ≠ l2.key) :
    apart (segs l1.key) (segs l2.key) := by
  have hsym : Symmetric (fun a b : Leaf => apart (segs a.key) (segs b.key)) :=
    fun a b h => apart_symm _ _ h
  exact List.Pairwise.forall hsym hfree h1 h2 (fun h => hne (by rw [h]))

theorem loop_commit (raw : RawStore) (leaves : List Leaf) (b : Binder) (l : Leaf)
    (text : String) (hinv : SeedInv raw leaves b) (hfree : PrefixFree leaves)
    (hl : l ∈ leaves) :
    ∃ m2, Binder.writeResolved
        ⟨viperSet b.viper l.key (.str text), b.toResolve, b.resolved⟩ l.key
        = (⟨viperSet b.viper l.key (.str text), b.toResolve, m2⟩, none)
      ∧ SeedInv raw leaves
          ⟨viperSet b.viper l.key (.str text), mapDelete l.key b.toResolve, m2⟩ := by
  obtain ⟨m2, hw, hat, hframe, hsc⟩ := commit_write raw leaves b l
    (viperSet b.viper l.key (.str text)) hinv
    (fun l2 hl2 hne => prefixFree_apart leaves hfree l2 l hl2 hl hne)
  have hval : viperGet (viperSet b.viper l.key (.str text)) l.key = .scalar (.str text) := by
    simp [viperGet, viperSet, mapGet_mapSet_self]
  rw [hval] at hat
  refine ⟨m2, hw, ?_, ?_, ?_, ?_⟩
  · intro e he
    exact hinv.pending e ((mem_mapDelete l.key b.toResolve e).mp he).1
  · intro l2 hl2
    by_cases hk : l2.key = l.key
    · right; left
      exact ⟨.str text, by show Tree.lookup m2 l2.key = _; rw [hk]; exact hat⟩
    · rcases hinv.settled l2 hl2 with ⟨e, he, hek⟩ | h1 | h1
      · left
        exact ⟨e, (mem_mapDelete l.key b.toResolve e).mpr ⟨he, by rw [hek]; exact hk⟩, hek⟩
      · right; left
        obtain ⟨v, hv⟩ := h1
        exact ⟨v, by show Tree.lookup m2 l2.key = _; rw [hframe l2 hl2 hk]; exact hv⟩
      · right; right
        exact ⟨h1.1, by show Tree.lookup m2 l2.key = _; rw [hframe l2 hl2 hk]; exact h1.2⟩
  · intro q n hget hn
    rcases hsc q n hget hn with h | h
    · exact ⟨l, hl, h⟩
    · exact h
  · intro k hk
    have h1 : k ≠ l.key := fun h => hk l hl h.symm
    show mapGet k (viperSet b.viper l.key (.str text)) = mapGet k raw
    rw [viperSet, mapGet_mapSet_ne l.key k _ b.viper h1]
    exact hinv.rawKept k hk

theorem sweep_inv (env : Env) (raw : RawStore) (leaves : List Leaf)
    (refs : String → List String) (rank : String → Nat)
    (hac : AcyclicDefaults env raw leaves refs rank) (hfree : PrefixFree leaves)
    (L : List (String × String)) (b : Binder) (changed : Bool)
    (hinv : SeedInv raw leaves b)
    (hL : ∀ e ∈ L, ∃ l ∈ leaves, l.key = e.1 ∧ mapGet "default" l.tag = some e.2) :
    ∃ b2 ch2, Binder.sweep env L b changed = (b2, ch2, none)
      ∧ SeedInv raw leaves b2
      ∧ (changed = true → ch2 = true)
      ∧ (∀ e ∈ L, (∀ p ∈ refs e.2, hasValue b.resolved p) → ch2 = true) := by
  induction L generalizing b changed with
  | nil => exact ⟨b, changed, rfl, hinv, id, by simp⟩
  | cons e0 rest ih =>
    obtain ⟨key, expr⟩ := e0
    obtain ⟨l, hl, hlk, hld⟩ := hL (key, expr) (List.mem_cons_self _ _)
    simp only [] at hlk hld
    subst hlk
    have hrest : ∀ e ∈ rest, ∃ l ∈ leaves, l.key = e.1 ∧ mapGet "default" l.tag = some e.2 :=
      fun e he => hL e (List.mem_cons_of_mem _ he)
    rcases bindKey_cases env b l.key expr with ⟨e1, h0, _⟩ | h0 | ⟨text, _, _, h0⟩
    · have := hac.noFatal l hl expr hld b
      rw [h0] at this
      simp at this
    · obtain ⟨b2, ch2, hs, hinv2, hch, htarget⟩ := ih b changed hinv hrest
      refine ⟨b2, ch2, ?_, hinv2, hch, ?_⟩
      · rw [sweep_cons_notReady env l.key expr rest b b changed h0]
        exact hs
      · intro e he hrefs
        rcases List.mem_cons.mp he with h | h
        · exfalso
          subst h
          have := hac.ready l hl expr hld b hrefs
          rw [h0] at this
          simp at this
        · exact htarget e h hrefs
    · obtain ⟨m2, hw, hinv1⟩ := loop_commit raw leaves b l text hinv hfree hl
      obtain ⟨b2, ch2, hs, hinv2, hch, _⟩ := ih
        ⟨viperSet b.viper l.key (.str text), mapDelete l.key b.toResolve, m2⟩ true hinv1 hrest
      refine ⟨b2, ch2, ?_, hinv2, fun _ => hch rfl, fun _ _ _ => hch rfl⟩
      rw [sweep_cons_commit env l.key expr rest b _ _ changed h0 hw]
      exact hs

theorem loop_resolves (env : Env) (raw : RawStore) (leaves : List Leaf)
    (refs : String → List String) (rank : String → Nat)
    (hac : AcyclicDefaults env raw leaves refs rank) (hfree : PrefixFree leaves)
    (fuel : Nat) (b : Binder) (hinv : SeedInv raw leaves b)
    (hfuel : b.toResolve.length ≤ fuel) :
    ∃ b2, b.resolveLoop env fuel = some (b2, none) ∧ SeedInv raw leaves b2
      ∧ b2.toResolve = [] := by
  induction fuel generalizing b with
  | zero =>
    have h0 : ¬ b.toResolve.length > 0 := by omega
    exact ⟨b, resolveLoop_done env 0 b h0, hinv, List.length_eq_zero.mp (by omega)⟩
  | succ n ih =>
    by_cases hpos : b.toResolve.length > 0
    · have hne : b.toResolve ≠ [] := List.length_pos.mp hpos
      obtain ⟨e, he, hmin⟩ := exists_min_rank b.toResolve rank hne
      obtain ⟨l, hl, hlk, hld⟩ := hinv.pending e he
      have hrefs : ∀ p ∈ refs e.2, hasValue b.resolved p := by
        intro p hp
        obtain ⟨l2, hl2, hk2, hgets⟩ := hac.referenced l hl e.2 hld p hp
        have hrank := hac.acyclic l hl e.2 hld p hp
        rcases hinv.settled l2 hl2 with ⟨e2, he2, hek2⟩ | h1 | h1
        · exfalso
          have := hmin e2 he2
          rw [hek2, hk2, ← hlk] at this
          omega
        · rw [← hk2]
          exact h1
        · exfalso
          obtain ⟨⟨hv1, hv2, hv3⟩, _⟩ := h1
          rcases hgets with h | h | h
          · rw [← hk2] at h
            exact h hv1
          · exact h hv2
          · exact h hv3
      obtain ⟨b2, ch2, hs, hinv2, _, htarget⟩ := sweep_inv env raw leaves refs rank hac hfree
        (env.rangeOrder.order b.toResolve) b false hinv
        (fun e2 he2 => hinv.pending e2 (((env.rangeOrder.perm b.toResolve).mem_iff).mp he2))
      have hch : ch2 = true := htarget e
        (((env.rangeOrder.perm b.toResolve).mem_iff).mpr he) hrefs
      subst hch
      have hlt := sweep_range_progress env b b2 hs
      rw [resolveLoop_next env n b b2 hpos hs]
      exact ih b2 hinv2 (by omega)
    · exact ⟨b, resolveLoop_done env _ b hpos, hinv, List.length_eq_zero.mp (by omega)⟩

/-! ## The fixpoint loop -/

/-- C1: when the seed pass of `Bind` ended without error, `n` sweeps each committed
something, and at the loop head then reached the pending map is not empty and every
pending expression is NotReady (`ok = false`, `err = nil`) against the binder as it
stands, `Bind` returns, with the binder unchanged by that last sweep, the error that
wraps `ErrMutualReference` and whose message is the pending paths, each exactly once
and no other, joined by a comma and a blank, followed by the text of the error. -/
theorem Bind_mutualReference (env : Env) (b0 : Binder) (iface : List Field) (n fuel : Nat)
    (b1 b : Binder)
    (hseed : b0.bind env iface [] = (b1, none))
    (hreach : b1.afterSweeps env n = some b)
    (hne : b.toResolve ≠ [])
    (hstall : ∀ e ∈ b.toResolve, (b.bindKey env e.1 e.2).2 = (false, none)) :
    ∃ keys : List String, keys.Perm (b.toResolve.map Prod.fst) ∧
      b0.Bind env (n + (fuel + 1)) iface
        = some (b, some ⟨stringsJoin keys ", " ++ ": " ++ "mutual reference or invalid value",
            some .ErrMutualReference⟩) := by
  refine ⟨(env.keysOrder.order b.toResolve).map Prod.fst,
    (env.keysOrder.perm b.toResolve).map Prod.fst, ?_⟩
  unfold Binder.Bind
  rw [hseed]
  simp only []
  rw [resolveLoop_afterSweeps env n (fuel + 1) b1 b hreach,
    resolveLoop_stall env fuel b hne hstall]
  rfl

/-- Witness of C1: two fields whose defaults name each other, no raw value. -/
theorem Bind_mutualReference_witness :
    (NewBinder []).bind refEnv (pairSchema "b" "a") [] = (⟨[], [("a", "b"), ("b", "a")], []⟩, none)
    ∧ Binder.afterSweeps refEnv 0 ⟨[], [("a", "b"), ("b", "a")], []⟩
        = some ⟨[], [("a", "b"), ("b", "a")], []⟩
    ∧ (∃ keys : List String, keys.Perm ["a", "b"] ∧
      (NewBinder []).Bind refEnv 1 (pairSchema "b" "a")
        = some (⟨[], [("a", "b"), ("b", "a")], []⟩,
            some ⟨stringsJoin keys ", " ++ ": " ++ "mutual reference or invalid value",
              some .ErrMutualReference⟩)) :=
  ⟨rfl, rfl, Bind_mutualReference refEnv (NewBinder []) (pairSchema "b" "a") 0 0
    ⟨[], [("a", "b"), ("b", "a")], []⟩ ⟨[], [("a", "b"), ("b", "a")], []⟩ rfl rfl
    (by decide) (by decide)⟩

/-- The run of C1 spelled out: with entries produced in stored order the message is
`a, b: mutual reference or invalid value`. -/
theorem Bind_pair_run :
    ((NewBinder []).Bind refEnv 1 (pairSchema "b" "a")).map (fun r => r.2)
      = some (some ⟨"a, b: mutual reference or invalid value", some .ErrMutualReference⟩) := by
  decide

/-- C2: with `P` the size of the pending map when the seed pass ends, `Bind` returns
within `P` sweeps: any fuel of at least `P` gives the result that fuel `P` gives.
Moreover a sweep after which the loop goes on has removed at least one pending entry,
and a sweep that removes none ends `Bind` with an error. -/
theorem Bind_terminates (env : Env) (b0 : Binder) (iface : List Field) (fuel : Nat)
    (hfuel : (b0.bind env iface []).1.toResolve.length ≤ fuel) :
    (∃ r, b0.Bind env fuel iface = some r
      ∧ b0.Bind env (b0.bind env iface []).1.toResolve.length iface = some r)
    ∧ (∀ b b1 : Binder,
        Binder.sweep env (env.rangeOrder.order b.toResolve) b false = (b1, true, none) →
        b1.toResolve.length < b.toResolve.length)
    ∧ (∀ (b b1 : Binder) (changed : Bool) (err : Option GoError), b.toResolve ≠ [] →
        Binder.sweep env (env.rangeOrder.order b.toResolve) b false = (b1, changed, err) →
        b.toResolve.length ≤ b1.toResolve.length →
        ∀ k, ∃ e, b.resolveLoop env (k + 1) = some (b1, some e)) := by
  refine ⟨?_, fun b b1 h => sweep_range_progress env b b1 h, ?_⟩
  · rcases hb : b0.bind env iface [] with ⟨b1, err⟩
    rw [hb] at hfuel
    cases err with
    | some e =>
      refine ⟨(b1, some e), ?_, ?_⟩ <;> simp [Binder.Bind, hb]
    | none =>
      obtain ⟨r, hr⟩ := resolveLoop_enough env b1.toResolve.length b1 (le_refl _)
      refine ⟨r, ?_, ?_⟩
      · simp only [Binder.Bind, hb]
        exact resolveLoop_mono env _ fuel b1 r hr hfuel
      · simp only [Binder.Bind, hb]
        exact hr
  · intro b b1 changed err hne hs hlen k
    have hpos : b.toResolve.length > 0 := List.length_pos.mpr hne
    cases err with
    | some e => exact ⟨e, resolveLoop_err env k b b1 changed e hpos hs⟩
    | none =>
      cases changed with
      | false => exact ⟨_, resolveLoop_mutual env k b b1 hpos hs⟩
      | true =>
        have := sweep_range_progress env b b1 hs
        omega

/-- Witness of C2: the two mutually referring defaults, two pending entries, fuel two. -/
theorem Bind_terminates_witness :
    ((NewBinder []).bind refEnv (pairSchema "b" "a") []).1.toResolve.length ≤ 2
    ∧ ∃ r, (NewBinder []).Bind refEnv 2 (pairSchema "b" "a") = some r :=
  ⟨by decide,
    (Bind_terminates refEnv (NewBinder []) (pairSchema "b" "a") 2 (by decide)).1.imp
      (fun _ h => h.1)⟩

/-! ## Resolution of acyclic defaults -/

theorem acyclicDefaults_of_no_default (env : Env) (raw : RawStore) (leaves : List Leaf)
    (h : ∀ l ∈ leaves, mapGet "default" l.tag = none) :
    AcyclicDefaults env raw leaves (fun _ => []) (fun _ => 0) := by
  refine ⟨?_, ?_, ?_, ?_⟩ <;>
  · intro l hl dv hdv
    rw [h l hl] at hdv
    simp at hdv

/-- Counterexample to C3: three schemas without any default, so that the conditions on
the defaults hold of them. With a leaf `a` before a leaf `a.b`, `Bind` returns the
overlay error; with a required leaf that has no value, `Bind` returns the required
error; and with a leaf marked omit-on-empty `Bind` succeeds but the resolved map has an
entry at the leaf's path, holding `nil`. -/
theorem Bind_acyclic_failures :
    (AcyclicDefaults probeEnv [] (walk nestedSchema []) (fun _ => []) (fun _ => 0)
      ∧ (NewBinder []).Bind probeEnv 0 nestedSchema
          = some (⟨[("a", .str ""), ("a.b", .str "")], [], [("a", .scalar (.str ""))]⟩,
              some ⟨"overlay hierarchical key: a.b", some .ErrOverlayHierarchicalKey⟩))
    ∧ (AcyclicDefaults probeEnv [] (walk mustSchema []) (fun _ => []) (fun _ => 0)
      ∧ (NewBinder []).Bind probeEnv 0 mustSchema
          = some (⟨[], [], []⟩, some ⟨"required: listen", some .ErrRequired⟩))
    ∧ (AcyclicDefaults probeEnv [] (walk logSchema []) (fun _ => []) (fun _ => 0)
      ∧ (NewBinder []).Bind probeEnv 0 logSchema = some (⟨[], [], [("log", .nil)]⟩, none)
      ∧ mapGet "log" ([("log", .nil)] : Tree) = some .nil) := by
  refine ⟨⟨?_, rfl⟩, ⟨?_, rfl⟩, ⟨?_, rfl, rfl⟩⟩ <;>
  · apply acyclicDefaults_of_no_default
    decide

/-- C3, amended: let the defaults of a schema reference paths without a cycle, every
referenced path being a leaf with a raw value, a default or a forced empty text, and
let the evaluator be Ready whenever the referenced paths hold a value and never fatal.
If moreover no leaf path leads into or equals another leaf path, and every required
leaf has a raw value or a default, then `Bind` on a fresh binder returns success within
as many sweeps as the seed pass left pending entries, the pending map is empty, and
every leaf either holds a scalar in the resolved map or is an omit-on-empty leaf without
raw value and default whose path holds `nil`. -/
theorem Bind_resolves (env : Env) (raw : RawStore) (iface : List Field)
    (refs : String → List String) (rank : String → Nat) (fuel : Nat)
    (hac : AcyclicDefaults env raw (walk iface []) refs rank)
    (hfree : PrefixFree (walk iface []))
    (hreq : ∀ l ∈ walk iface [], mapGet "required" l.tag ≠ none →
      mapGet l.key raw ≠ none ∨ mapGet "default" l.tag ≠ none)
    (hfuel : ((NewBinder raw).bind env iface []).1.toResolve.length ≤ fuel) :
    ∃ b, (NewBinder raw).Bind env fuel iface = some (b, none)
      ∧ b.toResolve = []
      ∧ ∀ l ∈ walk iface [], hasValue b.resolved l.key
          ∨ (valueless raw l ∧ Tree.lookup b.resolved l.key = some .nil) := by
  have hinit : SeedInv raw [] (NewBinder raw) := by
    refine ⟨by simp [NewBinder], by simp, ?_, fun _ _ => rfl⟩
    intro q n hget hn
    cases q with
    | nil =>
      simp [Node.get] at hget
      subst hget
      simp [Node.isMapping] at hn
    | cons k ks =>
      have : Node.get (.mapping (NewBinder raw).resolved) (k :: ks) = none :=
        Node.get_empty (k :: ks) (by simp)
      rw [this] at hget
      simp at hget
  obtain ⟨b1, hb1, hinv1⟩ := seed_pass env raw (walk iface []) [] (NewBinder raw) hinit
    (by simp) hfree hreq hac.noFatal
  simp only [List.nil_append] at hinv1
  have hbind : (NewBinder raw).bind env iface [] = (b1, none) := by
    rw [bind_eq_bindLeaves]
    exact hb1
  rw [hbind] at hfuel
  obtain ⟨b2, hb2, hinv2, hempty⟩ := loop_resolves env raw (walk iface []) refs rank hac hfree
    fuel b1 hinv1 hfuel
  refine ⟨b2, ?_, hempty, ?_⟩
  · unfold Binder.Bind
    rw [hbind]
    exact hb2
  · intro l hl
    rcases hinv2.settled l hl with ⟨e, he, _⟩ | h | h
    · rw [hempty] at he
      simp at he
    · exact Or.inl h
    · exact Or.inr h

theorem probe_acyclic :
    AcyclicDefaults probeEnv [("listen", .str "0.0.0.0")] (walk chainSchema [])
      (fun e => [e]) chainRank := by
  have hw : walk chainSchema [] =
      [⟨[("mapstructure", "port"), ("default", "host")], ["port"], "port"⟩,
       ⟨[("mapstructure", "host"), ("default", "listen")], ["host"], "host"⟩,
       ⟨[("mapstructure", "listen")], ["listen"], "listen"⟩,
       ⟨[("mapstructure", "log,omitempty")], ["log", "omitempty"], "log"⟩] := rfl
  rw [hw]
  refine ⟨?_, ?_, ?_, ?_⟩
  · intro l hl dv hdv p hp
    simp only [List.mem_cons, List.mem_singleton, List.not_mem_nil, or_false] at hl hp
    subst hp
    rcases hl with rfl | rfl | rfl | rfl
    · simp [mapGet] at hdv; subst hdv; decide
    · simp [mapGet] at hdv; subst hdv; decide
    · simp [mapGet] at hdv
    · simp [mapGet] at hdv
  · intro l hl dv hdv p hp
    simp only [List.mem_cons, List.mem_singleton, List.not_mem_nil, or_false] at hl hp
    subst hp
    rcases hl with rfl | rfl | rfl | rfl
    · simp [mapGet] at hdv; subst hdv
      exact ⟨⟨[("mapstructure", "host"), ("default", "listen")], ["host"], "host"⟩,
        by simp, rfl, Or.inr (Or.inl (by decide))⟩
    · simp [mapGet] at hdv; subst hdv
      exact ⟨⟨[("mapstructure", "listen")], ["listen"], "listen"⟩,
        by simp, rfl, Or.inl (by decide)⟩
    · simp [mapGet] at hdv
    · simp [mapGet] at hdv
  · intro l _ dv _ b hrefs
    obtain ⟨v, hv⟩ := hrefs dv (by simp)
    have ht : probeEnv.template l.key dv b.resolved = .output "set" := by
      show probeTemplate l.key dv b.resolved = _
      unfold probeTemplate
      rw [hv]
    unfold Binder.bindKey
    rw [ht]
    rfl
  · intro l _ dv _ b
    unfold Binder.bindKey
    have ht : probeEnv.template l.key dv b.resolved = .output "set"
        ∨ probeEnv.template l.key dv b.resolved = .output "<no value>" := by
      show probeTemplate l.key dv b.resolved = _ ∨ probeTemplate l.key dv b.resolved = _
      unfold probeTemplate
      split
      · exact Or.inl rfl
      · exact Or.inr rfl
    rcases ht with ht | ht <;> rw [ht] <;> rfl

/-- Witness of C3 as amended: `port` refers to `host`, `host` to `listen`, which has a
raw value; the seed pass leaves two entries pending and two sweeps resolve them. -/
theorem Bind_resolves_witness :
    AcyclicDefaults probeEnv [("listen", .str "0.0.0.0")] (walk chainSchema [])
      (fun e => [e]) chainRank
    ∧ PrefixFree (walk chainSchema [])
    ∧ (∀ l ∈ walk chainSchema [], mapGet "required" l.tag ≠ none →
        mapGet l.key ([("listen", .str "0.0.0.0")] : RawStore) ≠ none
          ∨ mapGet "default" l.tag ≠ none)
    ∧ ((NewBinder [("listen", .str "0.0.0.0")]).bind probeEnv chainSchema []).1.toResolve.length
        ≤ 2
    ∧ ∃ b, (NewBinder [("listen", .str "0.0.0.0")]).Bind probeEnv 2 chainSchema = some (b, none)
      ∧ b.toResolve = []
      ∧ ∀ l ∈ walk chainSchema [], hasValue b.resolved l.key
          ∨ (valueless [("listen", .str "0.0.0.0")] l
              ∧ Tree.lookup b.resolved l.key = some .nil) :=
  ⟨probe_acyclic, by decide, by decide, by decide,
    Bind_resolves probeEnv [("listen", .str "0.0.0.0")] chainSchema (fun e => [e]) chainRank 2
      probe_acyclic (by decide) (by decide) (by decide)⟩

/-- The run of the witness of C3 spelled out. -/
theorem Bind_chain_run :
    (NewBinder [("listen", .str "0.0.0.0")]).Bind probeEnv 2 chainSchema
      = some (⟨[("listen", .str "0.0.0.0"), ("host", .str "set"), ("port", .str "set")], [],
          [("listen", .scalar (.str "0.0.0.0")), ("log", .nil),
           ("host", .scalar (.str "set")), ("port", .scalar (.str "set"))]⟩, none) := by
  rfl

/-! ## The seed pass, leaf by leaf -/

theorem bindLeaf_required (env : Env) (b : Binder) (tag : StructTag) (fields : List String)
    (key req : String) (hraw : mapGet key b.viper = none)
    (hdef : mapGet "default" tag = none) (hreq : mapGet "required" tag = some req) :
    b.bindLeaf env tag fields key =
      (b, some ⟨match mapGet "desc" tag with
              | some desc => "required: " ++ key ++ " (" ++ desc ++ ")"
              | none => "required: " ++ key, some .ErrRequired⟩) := by
  unfold Binder.bindLeaf viperGet
  simp only [hraw, hdef, hreq]
  cases mapGet "desc" tag with
  | none => rfl
  | some desc =>
    simp only [wrapKey, Sentinel.err, Sentinel.text, String.append_assoc]
    rfl

/-- C4: when the walk over the fields meets a leaf that carries a `required` tag and
no `default` tag, every leaf before it was handled without error, and the raw store
then has no value at the leaf's path, `Bind` returns the error that wraps `ErrRequired`
and whose message is `required: ` followed by the leaf's dotted path and, when the leaf
has a `desc` tag, by a blank and the description in brackets. -/
theorem Bind_required (env : Env) (b0 b : Binder) (iface : List Field) (fuel : Nat)
    (before after : List Leaf) (l : Leaf) (req : String)
    (hwalk : walk iface [] = before ++ l :: after)
    (hbefore : b0.bindLeaves env before = (b, none))
    (hraw : mapGet l.key b.viper = none)
    (hdef : mapGet "default" l.tag = none)
    (hreq : mapGet "required" l.tag = some req) :
    b0.Bind env fuel iface =
      some (b, some ⟨match mapGet "desc" l.tag with
              | some desc => "required: " ++ l.key ++ " (" ++ desc ++ ")"
              | none => "required: " ++ l.key, some .ErrRequired⟩) := by
  have hl := bindLeaf_required env b l.tag l.fields l.key req hraw hdef hreq
  have hbind : b0.bind env iface [] = (b, some ⟨match mapGet "desc" l.tag with
              | some desc => "required: " ++ l.key ++ " (" ++ desc ++ ")"
              | none => "required: " ++ l.key, some .ErrRequired⟩) := by
    rw [bind_eq_bindLeaves, hwalk, bindLeaves_append, hbefore]
    simp only [Binder.bindLeaves, hl]
  unfold Binder.Bind
  rw [hbind]

/-- Witness of C4: the required field `john.listen` with description, no raw value. -/
theorem Bind_required_witness :
    walk requiredSchema [] =
      [⟨[("mapstructure", "name")], ["name"], "name"⟩]
        ++ ⟨[("mapstructure", "listen"), ("required", ""), ("desc", "listen address")],
            ["listen"], "john.listen"⟩ :: []
    ∧ (NewBinder []).bindLeaves refEnv [⟨[("mapstructure", "name")], ["name"], "name"⟩]
        = (⟨[("name", .str "")], [], [("name", .scalar (.str ""))]⟩, none)
    ∧ (NewBinder []).Bind refEnv 0 requiredSchema =
        some (⟨[("name", .str "")], [], [("name", .scalar (.str ""))]⟩,
          some ⟨"required: john.listen (listen address)", some .ErrRequired⟩) :=
  ⟨rfl, rfl,
    Bind_required refEnv (NewBinder []) ⟨[("name", .str "")], [], [("name", .scalar (.str ""))]⟩
      requiredSchema 0 [⟨[("mapstructure", "name")], ["name"], "name"⟩] []
      ⟨[("mapstructure", "listen"), ("required", ""), ("desc", "listen address")],
        ["listen"], "john.listen"⟩ "" rfl rfl rfl rfl rfl⟩

/-- Counterexample to C5: the leaf `a.b` has the raw value `y`, but the leaf `a`, marked
omit-on-empty and without a value, was handled before it and left `nil` at `a`: the
write collides, `Bind` returns the overlay error and the resolved map holds nothing at
`a.b`. -/
theorem Bind_rawValue_collision :
    mapGet "a.b" ([("a.b", .str "y")] : RawStore) = some (.str "y")
    ∧ (NewBinder [("a.b", .str "y")]).Bind refEnv 0 shadowSchema
        = some (⟨[("a.b", .str "y")], [], [("a", .nil)]⟩,
            some ⟨"overlay hierarchical key: a.b", some .ErrOverlayHierarchicalKey⟩)
    ∧ Tree.lookup [("a", .nil)] "a.b" = none :=
  ⟨rfl, rfl, rfl⟩

/-- C5, amended: for a leaf whose path has the value `v` in the raw store, the handling
of the leaf is the write of exactly `v` at the leaf's path into the resolved map and
nothing else: it is the same for every template engine (the default is not evaluated),
the pending map and the raw store stay as they are, and either the write succeeds and
the resolved map holds `v` at the path, or the write collides and the error is the
overlay error annotated with the path, never `ErrRequired`. -/
theorem bindLeaf_rawValue (env : Env) (b : Binder) (tag : StructTag) (fields : List String)
    (key : String) (v : Value) (hraw : mapGet key b.viper = some v) :
    (∀ env2 : Env, b.bindLeaf env2 tag fields key = b.bindLeaf env tag fields key)
    ∧ (b.bindLeaf env tag fields key).1.viper = b.viper
    ∧ (b.bindLeaf env tag fields key).1.toResolve = b.toResolve
    ∧ (b.bindLeaf env tag fields key).1.resolved
        = (SetValueHierarchicalMap b.resolved key (.scalar v)).1
    ∧ ((b.bindLeaf env tag fields key).2 = none →
        Tree.lookup (b.bindLeaf env tag fields key).1.resolved key = some (.scalar v))
    ∧ (∀ e, (b.bindLeaf env tag fields key).2 = some e →
        e = ⟨"overlay hierarchical key: " ++ key, some .ErrOverlayHierarchicalKey⟩) := by
  have hv : viperGet b.viper key = .scalar v := by simp [viperGet, hraw]
  have hl : ∀ env2 : Env, b.bindLeaf env2 tag fields key = b.writeResolved key := by
    intro env2
    unfold Binder.bindLeaf
    rw [hv]
  have hw := writeResolved_spec b key
  rw [hv] at hw
  rw [hl env]
  exact ⟨fun env2 => hl env2, hw.1, hw.2.1, hw.2.2.1, hw.2.2.2.1,
    fun e he => (hw.2.2.2.2 e he).1⟩

/-- Witness of C5 as amended: the leaf `port` with the raw value `8080`. -/
theorem bindLeaf_rawValue_witness :
    mapGet "port" (NewBinder [("port", .int 8080)]).viper = some (.int 8080)
    ∧ (Binder.bindLeaf refEnv (NewBinder [("port", .int 8080)])
        [("mapstructure", "port"), ("default", "?")] ["port"] "port").1.resolved
        = (SetValueHierarchicalMap [] "port" (.scalar (.int 8080))).1 :=
  ⟨rfl, (bindLeaf_rawValue refEnv (NewBinder [("port", .int 8080)])
    [("mapstructure", "port"), ("default", "?")] ["port"] "port" (.int 8080) rfl).2.2.2.1⟩

/-- C6: for a leaf that carries both a `default` and a `required` tag and has no raw
value, the handling of the leaf is the evaluation of the default and never the
`required` branch: no error it returns wraps `ErrRequired`; when the default is Ready
the text is committed; when it is NotReady the leaf enters the pending map; and the
only other outcome is the evaluator's own fatal error. -/
theorem bindLeaf_default_over_required (env : Env) (b : Binder) (tag : StructTag)
    (fields : List String) (key dv req : String)
    (hraw : mapGet key b.viper = none)
    (hdef : mapGet "default" tag = some dv)
    (hreq : mapGet "required" tag = some req) :
    (∀ e, (b.bindLeaf env tag fields key).2 = some e → e.wraps ≠ some .ErrRequired)
    ∧ ((b.bindKey env key dv).2 = (true, none) →
        b.bindLeaf env tag fields key = (b.bindKey env key dv).1.writeResolved key)
    ∧ ((b.bindKey env key dv).2 = (false, none) →
        b.bindLeaf env tag fields key
          = (⟨b.viper, mapSet key dv b.toResolve, b.resolved⟩, none))
    ∧ (∀ e, (b.bindKey env key dv).2.2 = some e →
        b.bindLeaf env tag fields key = (b, some e) ∧ e.wraps = none) := by
  have _ := hreq
  have hl := bindLeaf_default env b tag fields key dv hraw hdef
  rcases bindKey_cases env b key dv with ⟨e0, h0, hw0⟩ | h0 | ⟨text, _, _, h0⟩
  · rw [h0] at hl
    simp only [] at hl
    rw [hl, h0]
    refine ⟨fun e he => ?_, fun h => by simp at h, fun h => by simp at h, fun e he => ?_⟩
    · simp only [Option.some.injEq] at he
      subst he
      rw [hw0]
      simp
    · simp only [Option.some.injEq] at he
      subst he
      exact ⟨rfl, hw0⟩
  · rw [h0] at hl
    simp only [] at hl
    rw [hl, h0]
    exact ⟨fun e he => by simp at he, fun h => by simp at h, fun _ => rfl,
      fun e he => by simp at he⟩
  · rw [h0] at hl
    simp only [] at hl
    rw [hl, h0]
    refine ⟨fun e he => ?_, fun _ => rfl, fun h => by simp at h, fun e he => by simp at he⟩
    have := (writeResolved_spec
      ⟨viperSet b.viper key (.str text), b.toResolve, b.resolved⟩ key).2.2.2.2 e he
    rw [this.1]
    simp

/-- Witness of C6: a leaf with `default` and `required`, no raw value, default NotReady. -/
theorem bindLeaf_default_over_required_witness :
    mapGet "port" (NewBinder []).viper = none
    ∧ mapGet "default" [("mapstructure", "port"), ("default", "listen"), ("required", "")]
        = some "listen"
    ∧ mapGet "required" [("mapstructure", "port"), ("default", "listen"), ("required", "")]
        = some ""
    ∧ ∀ e, (Binder.bindLeaf refEnv (NewBinder [])
        [("mapstructure", "port"), ("default", "listen"), ("required", "")] ["port"]
        "port").2 = some e → e.wraps ≠ some .ErrRequired :=
  ⟨rfl, rfl, rfl,
    (bindLeaf_default_over_required refEnv (NewBinder [])
      [("mapstructure", "port"), ("default", "listen"), ("required", "")] ["port"] "port"
      "listen" "" rfl rfl rfl).1⟩

theorem bindLeaf_pending_only (env : Env) (b : Binder) (tag : StructTag)
    (fields : List String) (key : String)
    (h : (b.bindLeaf env tag fields key).1.toResolve ≠ b.toResolve) :
    mapGet key b.viper = none
    ∧ ∃ dv, mapGet "default" tag = some dv
        ∧ (b.bindKey env key dv).2 = (false, none)
        ∧ (b.bindLeaf env tag fields key).1.toResolve = mapSet key dv b.toResolve := by
  rcases hraw : mapGet key b.viper with _ | v
  · refine ⟨rfl, ?_⟩
    rcases hdef : mapGet "default" tag with _ | dv
    · exfalso
      apply h
      unfold Binder.bindLeaf viperGet
      simp only [hraw, hdef]
      rcases mapGet "required" tag with _ | req
      · simp only []
        split
        · exact (writeResolved_frame _ key).2
        · exact (writeResolved_frame _ key).2
      · simp only []
        cases mapGet "desc" tag <;> rfl
    · refine ⟨dv, rfl, ?_⟩
      have hl := bindLeaf_default env b tag fields key dv hraw hdef
      rcases bindKey_cases env b key dv with ⟨e0, h0, _⟩ | h0 | ⟨text, _, _, h0⟩
      · rw [h0] at hl
        simp only [] at hl
        rw [hl] at h
        exact absurd rfl h
      · rw [h0] at hl
        simp only [] at hl
        rw [hl, h0]
        exact ⟨rfl, rfl⟩
      · rw [h0] at hl
        simp only [] at hl
        rw [hl] at h
        exact absurd (writeResolved_frame _ key).2 h
  · exfalso
    apply h
    have hv : viperGet b.viper key = .scalar v := by simp [viperGet, hraw]
    unfold Binder.bindLeaf
    rw [hv]
    exact (writeResolved_frame b key).2

/-- Counterexample to C7: the leaf tagged `a.b` has no raw value and its default `=x`
is Ready when the seed pass reaches it, but the leaf `a` before it left the text `""`
at `a`: the rendered text reaches the raw store, its write into the resolved map
collides, `Bind` returns the overlay error and the resolved map holds nothing at `a.b`. -/
theorem Bind_default_collision :
    mapGet "a.b" ([("a", .str "")] : RawStore) = none
    ∧ (Binder.bindKey refEnv ⟨[("a", .str "")], [], [("a", .scalar (.str ""))]⟩ "a.b" "=x").2
        = (true, none)
    ∧ (NewBinder []).Bind refEnv 0 overlaySchema
        = some (⟨[("a", .str ""), ("a.b", .str "x")], [], [("a", .scalar (.str ""))]⟩,
            some ⟨"overlay hierarchical key: a.b", some .ErrOverlayHierarchicalKey⟩)
    ∧ Tree.lookup [("a", .scalar (.str ""))] "a.b" = none :=
  ⟨rfl, rfl, rfl, rfl⟩

/-- C7, amended: for a leaf with no raw value whose default is Ready (`ok = true`,
`err = nil`) against the binder as the seed pass finds it, the rendered text is set
verbatim in the raw store at the leaf's path, the pending map stays as it is, and the
text is then written at the path into the resolved map: either the write succeeds and
the resolved map holds the text there, or it collides and the error is the overlay
error annotated with the path. And the handling of any leaf changes the pending map
only if the leaf has no raw value, has a default, and that default was NotReady; the
leaf is then added under its path with its default. -/
theorem bindLeaf_default_ready (env : Env) (b : Binder) (tag : StructTag)
    (fields : List String) (key dv : String)
    (hraw : mapGet key b.viper = none)
    (hdef : mapGet "default" tag = some dv)
    (hready : (b.bindKey env key dv).2 = (true, none)) :
    (∃ text, env.template key dv b.resolved = .output text
      ∧ (b.bindLeaf env tag fields key).1.viper = viperSet b.viper key (.str text)
      ∧ mapGet key (b.bindLeaf env tag fields key).1.viper = some (.str text)
      ∧ (b.bindLeaf env tag fields key).1.toResolve = b.toResolve
      ∧ (b.bindLeaf env tag fields key).1.resolved
          = (SetValueHierarchicalMap b.resolved key (.scalar (.str text))).1
      ∧ ((b.bindLeaf env tag fields key).2 = none →
          Tree.lookup (b.bindLeaf env tag fields key).1.resolved key
            = some (.scalar (.str text)))
      ∧ (∀ e, (b.bindLeaf env tag fields key).2 = some e →
          e = ⟨"overlay hierarchical key: " ++ key, some .ErrOverlayHierarchicalKey⟩))
    ∧ (∀ (b2 : Binder) (tag2 : StructTag) (fields2 : List String) (key2 : String),
        (b2.bindLeaf env tag2 fields2 key2).1.toResolve ≠ b2.toResolve →
        mapGet key2 b2.viper = none
        ∧ ∃ dv2, mapGet "default" tag2 = some dv2
            ∧ (b2.bindKey env key2 dv2).2 = (false, none)
            ∧ (b2.bindLeaf env tag2 fields2 key2).1.toResolve
                = mapSet key2 dv2 b2.toResolve) := by
  refine ⟨?_, fun b2 tag2 fields2 key2 h => bindLeaf_pending_only env b2 tag2 fields2 key2 h⟩
  have hl := bindLeaf_default env b tag fields key dv hraw hdef
  rcases bindKey_cases env b key dv with ⟨e0, h0, _⟩ | h0 | ⟨text, ht, _, h0⟩
  · rw [h0] at hready
    simp at hready
  · rw [h0] at hready
    simp at hready
  · rw [h0] at hl
    simp only [] at hl
    have hw := writeResolved_spec ⟨viperSet b.viper key (.str text), b.toResolve, b.resolved⟩ key
    have hv : viperGet (viperSet b.viper key (.str text)) key = .scalar (.str text) := by
      simp [viperGet, viperSet, mapGet_mapSet_self]
    simp only [hv] at hw
    rw [hl]
    refine ⟨text, ht, hw.1, ?_, hw.2.1, hw.2.2.1, hw.2.2.2.1, fun e he => (hw.2.2.2.2 e he).1⟩
    rw [hw.1]
    exact mapGet_mapSet_self key _ _

/-- Witness of C7 as amended: the leaf `port` with the constant default `=8080`. -/
theorem bindLeaf_default_ready_witness :
    mapGet "port" (NewBinder []).viper = none
    ∧ mapGet "default" [("mapstructure", "port"), ("default", "=8080")] = some "=8080"
    ∧ ((NewBinder []).bindKey refEnv "port" "=8080").2 = (true, none)
    ∧ ∃ text, refEnv.template "port" "=8080" (NewBinder []).resolved = .output text
      ∧ mapGet "port" (Binder.bindLeaf refEnv (NewBinder [])
          [("mapstructure", "port"), ("default", "=8080")] ["port"] "port").1.viper
          = some (.str text) :=
  ⟨rfl, rfl, rfl,
    (bindLeaf_default_ready refEnv (NewBinder [])
      [("mapstructure", "port"), ("default", "=8080")] ["port"] "port" "=8080"
      rfl rfl rfl).1.imp (fun _ h => ⟨h.1, h.2.2.1⟩)⟩

/-- Counterexample to C8: a single leaf `a` marked omit-on-empty, no raw value, no
default, not required. After `Bind` the raw store has no entry at `a`, but the resolved
map has one: `a` holds `nil`. -/
theorem Bind_omitempty_entry :
    (NewBinder []).Bind refEnv 0 omitSchema = some (⟨[], [], [("a", .nil)]⟩, none)
    ∧ mapGet "a" ([("a", .nil)] : Tree) = some .nil
    ∧ Tree.lookup [("a", .nil)] "a" = some .nil :=
  ⟨rfl, rfl, rfl⟩

/-- C8, amended: for a leaf with no raw value, no `default` and no `required` tag whose
`mapstructure` tag has `omitempty` as its second item, the raw store and the pending
map stay as they are, so the raw store has no entry at the path, and `nil` is written
at the path into the resolved map: either that write succeeds and the resolved map has
an entry at the path holding `nil`, or it collides and the error is the overlay error.
For a leaf not so marked the empty text is set in the raw store and written into the
resolved map in the same way. -/
theorem bindLeaf_omitempty (env : Env) (b : Binder) (tag : StructTag) (fields : List String)
    (key : String)
    (hraw : mapGet key b.viper = none)
    (hdef : mapGet "default" tag = none)
    (hreq : mapGet "required" tag = none)
    (homit : fields.get? 1 = some "omitempty") :
    ((b.bindLeaf env tag fields key).1.viper = b.viper
      ∧ mapGet key (b.bindLeaf env tag fields key).1.viper = none
      ∧ (b.bindLeaf env tag fields key).1.toResolve = b.toResolve
      ∧ (b.bindLeaf env tag fields key).1.resolved
          = (SetValueHierarchicalMap b.resolved key .nil).1
      ∧ ((b.bindLeaf env tag fields key).2 = none →
          Tree.lookup (b.bindLeaf env tag fields key).1.resolved key = some .nil)
      ∧ (∀ e, (b.bindLeaf env tag fields key).2 = some e →
          e = ⟨"overlay hierarchical key: " ++ key, some .ErrOverlayHierarchicalKey⟩))
    ∧ (∀ fields2 : List String, fields2.get? 1 ≠ some "omitempty" →
        (b.bindLeaf env tag fields2 key).1.viper = viperSet b.viper key (.str "")
        ∧ mapGet key (b.bindLeaf env tag fields2 key).1.viper = some (.str "")
        ∧ (b.bindLeaf env tag fields2 key).1.toResolve = b.toResolve
        ∧ (b.bindLeaf env tag fields2 key).1.resolved
            = (SetValueHierarchicalMap b.resolved key (.scalar (.str ""))).1
        ∧ ((b.bindLeaf env tag fields2 key).2 = none →
            Tree.lookup (b.bindLeaf env tag fields2 key).1.resolved key
              = some (.scalar (.str "")))
        ∧ (∀ e, (b.bindLeaf env tag fields2 key).2 = some e →
            e = ⟨"overlay hierarchical key: " ++ key, some .ErrOverlayHierarchicalKey⟩)) := by
  constructor
  · have hlen : fields.length ≠ 1 := by
      intro h1
      have : fields.get? 1 = none := List.get?_eq_none.mpr (by omega)
      rw [this] at homit
      simp at homit
    have hl : b.bindLeaf env tag fields key = b.writeResolved key := by
      unfold Binder.bindLeaf viperGet
      simp only [hraw, hdef, hreq]
      have homit2 : fields[1]? = some "omitempty" := by simpa using homit
      simp [hlen, homit2]
    have hv : viperGet b.viper key = .nil := by simp [viperGet, hraw]
    have hw := writeResolved_spec b key
    rw [hv] at hw
    rw [hl]
    refine ⟨hw.1, ?_, hw.2.1, hw.2.2.1, hw.2.2.2.1, fun e he => (hw.2.2.2.2 e he).1⟩
    rw [hw.1]
    exact hraw
  · intro fields2 h2
    have hl : b.bindLeaf env tag fields2 key
        = Binder.writeResolved ⟨viperSet b.viper key (.str ""), b.toResolve, b.resolved⟩ key := by
      unfold Binder.bindLeaf viperGet
      simp only [hraw, hdef, hreq]
      have h3 : ¬ fields2[1]? = some "omitempty" := by simpa using h2
      simp [h3]
    have hw := writeResolved_spec ⟨viperSet b.viper key (.str ""), b.toResolve, b.resolved⟩ key
    have hv : viperGet (viperSet b.viper key (.str "")) key = .scalar (.str "") := by
      simp [viperGet, viperSet, mapGet_mapSet_self]
    simp only [hv] at hw
    rw [hl]
    refine ⟨hw.1, ?_, hw.2.1, hw.2.2.1, hw.2.2.2.1, fun e he => (hw.2.2.2.2 e he).1⟩
    rw [hw.1]
    exact mapGet_mapSet_self key _ _

/-- Witness of C8 as amended: the leaf `john.log` marked omit-on-empty. -/
theorem bindLeaf_omitempty_witness :
    mapGet "john.log" (NewBinder []).viper = none
    ∧ mapGet "default" [("mapstructure", "log,omitempty")] = none
    ∧ mapGet "required" [("mapstructure", "log,omitempty")] = none
    ∧ (stringsSplit "log,omitempty" ',').get? 1 = some "omitempty"
    ∧ (Binder.bindLeaf refEnv (NewBinder []) [("mapstructure", "log,omitempty")]
        (stringsSplit "log,omitempty" ',') "john.log").1.resolved
        = (SetValueHierarchicalMap [] "john.log" .nil).1 :=
  ⟨rfl, rfl, rfl, by decide,
    (bindLeaf_omitempty refEnv (NewBinder []) [("mapstructure", "log,omitempty")]
      (stringsSplit "log,omitempty" ',') "john.log" rfl rfl rfl (by decide)).1.2.2.2.1⟩

/-! ## Collisions in the hierarchical writer -/

/-- C9: a write at a dotted path that extends `p` by further segments returns
`ErrOverlayHierarchicalKey`, and leaves the map as it was, whenever the node at `p` is
not a mapping (a scalar, or `nil`): both when the map already holds such a node at `p`,
and, on every map, after a successful write of such a value at `p`. -/
theorem SetValueHierarchicalMap_overlay (m : Tree) (p r : String) (v w : Node)
    (hv : v.isMapping = false) :
    (Tree.lookup m p = some v →
      SetValueHierarchicalMap m (p ++ "." ++ r) w
        = (m, some Sentinel.ErrOverlayHierarchicalKey.err))
    ∧ ((SetValueHierarchicalMap m p v).2 = none →
      SetValueHierarchicalMap (SetValueHierarchicalMap m p v).1 (p ++ "." ++ r) w
        = ((SetValueHierarchicalMap m p v).1,
            some Sentinel.ErrOverlayHierarchicalKey.err)) := by
  have hr := stringsSplit_ne_nil r '.'
  have hp := stringsSplit_ne_nil p '.'
  have hdrop : (stringsSplit p '.' ++ stringsSplit r '.').dropLast
      = stringsSplit p '.' ++ (stringsSplit r '.').dropLast := List.dropLast_append_of_ne_nil _ hr
  have key : ∀ t : Tree, Tree.lookup t p = some v →
      SetValueHierarchicalMap t (p ++ "." ++ r) w
        = (t, some Sentinel.ErrOverlayHierarchicalKey.err) := by
    intro t hget
    unfold Tree.lookup at hget
    unfold SetValueHierarchicalMap
    simp only [stringsSplit_append, hdrop]
    exact setMapKeys_blocked _ _ _ w v _ hp hv hget
  exact ⟨key m, fun hwrite => key _
    (SetValueHierarchicalMap_lookup m _ p v (Prod.ext rfl hwrite))⟩

/-- Witness of C9: scalar `x` at `a`, then `1` at `a.b`. -/
theorem SetValueHierarchicalMap_overlay_witness :
    (Node.scalar (.str "x")).isMapping = false
    ∧ (SetValueHierarchicalMap [] "a" (.scalar (.str "x"))).2 = none
    ∧ SetValueHierarchicalMap (SetValueHierarchicalMap [] "a" (.scalar (.str "x"))).1
        ("a" ++ "." ++ "b") (.scalar (.int 1))
      = ((SetValueHierarchicalMap [] "a" (.scalar (.str "x"))).1,
          some Sentinel.ErrOverlayHierarchicalKey.err) :=
  ⟨rfl, by decide,
    (SetValueHierarchicalMap_overlay [] "a" "b" (.scalar (.str "x")) (.scalar (.int 1)) rfl).2
      (by decide)⟩

/-- Counterexample to C10: on the empty map, `1` written at `a.b` and then `x` written
at `a`: the second write returns no error and the map is `a: x`. -/
theorem SetValueHierarchicalMap_scalar_over_mapping :
    SetValueHierarchicalMap [] "a.b" (.scalar (.int 1))
      = ([("a", .mapping [("b", .scalar (.int 1))])], none)
    ∧ SetValueHierarchicalMap [("a", .mapping [("b", .scalar (.int 1))])] "a"
        (.scalar (.str "x"))
      = ([("a", .scalar (.str "x"))], none) :=
  ⟨rfl, rfl⟩

/-- C10, amended: a write at a dotted path whose final segment holds a value of any
kind, a mapping included, returns no error, and the path then holds the written value:
a scalar written where a mapping exists replaces the mapping. -/
theorem SetValueHierarchicalMap_replaces (m : Tree) (p : String) (old val : Node)
    (hold : Tree.lookup m p = some old) :
    (SetValueHierarchicalMap m p val).2 = none
    ∧ Tree.lookup (SetValueHierarchicalMap m p val).1 p = some val := by
  have hok : (SetValueHierarchicalMap m p val).2 = none := by
    unfold Tree.lookup at hold
    rw [← dropLast_append_getLastD _ (stringsSplit_ne_nil p '.')] at hold
    exact setMapKeys_ok_of_get _ _ val old m hold
  exact ⟨hok, SetValueHierarchicalMap_lookup m _ p val (Prod.ext rfl hok)⟩

/-- Witness of C10 as amended: `x` written at `a` where `a` holds the mapping `b: 1`. -/
theorem SetValueHierarchicalMap_replaces_witness :
    Tree.lookup [("a", .mapping [("b", .scalar (.int 1))])] "a"
      = some (.mapping [("b", .scalar (.int 1))])
    ∧ (SetValueHierarchicalMap [("a", .mapping [("b", .scalar (.int 1))])] "a"
        (.scalar (.str "x"))).2 = none
    ∧ Tree.lookup (SetValueHierarchicalMap [("a", .mapping [("b", .scalar (.int 1))])] "a"
        (.scalar (.str "x"))).1 "a" = some (.scalar (.str "x")) :=
  ⟨rfl, SetValueHierarchicalMap_replaces [("a", .mapping [("b", .scalar (.int 1))])] "a"
    (.mapping [("b", .scalar (.int 1))]) (.scalar (.str "x")) rfl⟩

/-! ## The hierarchical writer: what a write leaves behind -/

theorem setMapKeys_empty_ok (ks : List String) (last : String) (v : Node) :
    (setMapKeys ks last v []).2 = none :=
  setMapKeys_ok ks last v [] (fun pre _ n hpre _ hget => by
    rw [Node.get_empty pre hpre] at hget
    simp at hget)

theorem setMapKeys_atomic (ks : List String) (last : String) (v : Node) (m : Tree)
    (e : GoError) (h : (setMapKeys ks last v m).2 = some e) :
    (setMapKeys ks last v m).1 = m := by
  induction ks generalizing m with
  | nil => simp [setMapKeys] at h
  | cons k ks ih =>
    rw [setMapKeys] at h ⊢
    rcases hg : mapGet k m with _ | c
    · rw [hg] at h
      simp only [] at h
      rw [setMapKeys_empty_ok] at h
      simp at h
    · rw [hg] at h
      cases c with
      | nil => rfl
      | scalar x => rfl
      | mapping vv =>
        simp only [] at h ⊢
        rw [ih vv h]
        exact mapSet_of_mapGet k _ m hg

theorem splitChars_leads (sep : Char) (p q : List Char)
    (h : leadsInto ((splitChars sep p).map String.mk) ((splitChars sep q).map String.mk)) :
    ∃ r, p ++ r = q := by
  have hinj : ∀ a b : List (List Char), a.map String.mk = b.map String.mk → a = b := by
    intro a b hab
    exact List.map_injective_iff.mpr (fun x y hxy => by injection hxy) hab
  have h2 : ∃ r, splitChars sep p ++ r = splitChars sep q := by
    obtain ⟨r, hr⟩ := h
    refine ⟨r.map String.data, ?_⟩
    apply hinj
    rw [List.map_append, List.map_map]
    have : (String.mk ∘ String.data) = id := by
      funext s
      rfl
    rw [this, List.map_id]
    exact hr
  clear h
  induction p generalizing q with
  | nil => exact ⟨q, rfl⟩
  | cons c cs ih =>
    obtain ⟨r, hr⟩ := h2
    have hcs := splitChars_ne_nil sep cs
    cases q with
    | nil =>
      exfalso
      by_cases hc : c = sep
      · simp [splitChars, hc] at hr
        exact hcs hr.1
      · rcases hs : splitChars sep cs with _ | ⟨seg, segs⟩
        · exact hcs hs
        · simp [splitChars, hc, hs] at hr
    | cons d ds =>
      have hds := splitChars_ne_nil sep ds
      by_cases hc : c = sep
      · by_cases hd : d = sep
        · simp only [splitChars, hc, hd, if_true, List.cons_append, List.cons.injEq,
            true_and] at hr
          obtain ⟨r2, hr2⟩ := ih ds ⟨r, hr⟩
          exact ⟨r2, by rw [hc, hd, List.cons_append, hr2]⟩
        · exfalso
          rcases hs : splitChars sep ds with _ | ⟨seg, segs⟩
          · exact hds hs
          · simp [splitChars, hc, hd, hs] at hr
      · rcases hs : splitChars sep cs with _ | ⟨seg, segs⟩
        · exact absurd hs hcs
        · by_cases hd : d = sep
          · exfalso
            simp [splitChars, hc, hd, hs] at hr
          · rcases hs2 : splitChars sep ds with _ | ⟨seg2, segs2⟩
            · exact absurd hs2 hds
            · simp only [splitChars, hc, hd, hs, hs2, if_false, List.cons_append,
                List.cons.injEq] at hr
              obtain ⟨⟨h1, h2⟩, h3⟩ := hr
              obtain ⟨r2, hr2⟩ := ih ds ⟨r, by rw [hs2, ← h2, ← h3, hs]; rfl⟩
              exact ⟨r2, by rw [h1, List.cons_append, hr2]⟩

theorem segs_leads (p q : String) (h : leadsInto (segs p) (segs q)) : ∃ r, p ++ r = q := by
  obtain ⟨r, hr⟩ := splitChars_leads '.' p.toList q.toList h
  refine ⟨String.mk r, ?_⟩
  apply String.ext
  simp only [String.data_append]
  exact hr
/-- C11: when `SetValueHierarchicalMap` returns no error, the lookup of the dotted path
in the map it leaves reaches exactly the written value; every proper prefix of the path
holds a mapping there; and every path that neither leads into the written path nor
continues it looks up as before, so that the entries of the intermediate mappings that
existed are kept. -/
theorem SetValueHierarchicalMap_reaches (m : Tree) (key : String) (v : Node)
    (hok : (SetValueHierarchicalMap m key v).2 = none) :
    Tree.lookup (SetValueHierarchicalMap m key v).1 key = some v
    ∧ (∀ pre rest, pre ++ rest = segs key → rest ≠ [] →
        ∃ sub, Node.get (.mapping (SetValueHierarchicalMap m key v).1) pre
          = some (.mapping sub))
    ∧ (∀ q, apart q (segs key) →
        Node.get (.mapping (SetValueHierarchicalMap m key v).1) q
          = Node.get (.mapping m) q) := by
  have hat := SetValueHierarchicalMap_lookup m _ key v (Prod.ext rfl hok)
  refine ⟨hat, ?_, ?_⟩
  · intro pre rest hpr hrest
    unfold Tree.lookup at hat
    have hseg : stringsSplit key '.' = pre ++ rest := hpr.symm
    rw [hseg, Node.get_append] at hat
    rcases hg : Node.get (.mapping (SetValueHierarchicalMap m key v).1) pre with _ | n
    · rw [hg] at hat
      simp at hat
    · rw [hg] at hat
      simp only [Option.bind] at hat
      cases rest with
      | nil => exact absurd rfl hrest
      | cons k ks =>
        cases n with
        | nil => simp [Node.get] at hat
        | scalar x => simp [Node.get] at hat
        | mapping sub => exact ⟨sub, rfl⟩
  · intro q hq
    have h := setMapKeys_frame _ _ v m (SetValueHierarchicalMap m key v).1
      (Prod.ext rfl hok) q
    rw [dropLast_append_getLastD _ (stringsSplit_ne_nil key '.')] at h
    exact h hq.1 hq.2

/-- Witness of C11: `8080` written at `john.port` into a map that holds `john.listen`. -/
theorem SetValueHierarchicalMap_reaches_witness :
    (SetValueHierarchicalMap [("john", .mapping [("listen", .scalar (.str "0.0.0.0"))])]
      "john.port" (.scalar (.int 8080))).2 = none
    ∧ Tree.lookup (SetValueHierarchicalMap
        [("john", .mapping [("listen", .scalar (.str "0.0.0.0"))])]
        "john.port" (.scalar (.int 8080))).1 "john.port" = some (.scalar (.int 8080)) :=
  ⟨by decide,
    (SetValueHierarchicalMap_reaches [("john", .mapping [("listen", .scalar (.str "0.0.0.0"))])]
      "john.port" (.scalar (.int 8080)) (by decide)).1⟩

/-- C18: when `SetValueHierarchicalMap` returns an error, that error is
`ErrOverlayHierarchicalKey` and the map is exactly as it was before the call. -/
theorem SetValueHierarchicalMap_atomic (m : Tree) (key : String) (v : Node) (e : GoError)
    (herr : (SetValueHierarchicalMap m key v).2 = some e) :
    (SetValueHierarchicalMap m key v).1 = m
    ∧ e = Sentinel.ErrOverlayHierarchicalKey.err :=
  ⟨setMapKeys_atomic _ _ v m e herr, setMapKeys_err _ _ v m e herr⟩

/-- Witness of C18: a write at `a.b.c.d` into a map where `a.b` holds a scalar. -/
theorem SetValueHierarchicalMap_atomic_witness :
    (SetValueHierarchicalMap [("a", .mapping [("b", .scalar (.str "x"))])] "a.b.c.d"
      (.scalar (.int 1))).2 = some Sentinel.ErrOverlayHierarchicalKey.err
    ∧ (SetValueHierarchicalMap [("a", .mapping [("b", .scalar (.str "x"))])] "a.b.c.d"
      (.scalar (.int 1))).1 = [("a", .mapping [("b", .scalar (.str "x"))])] :=
  ⟨by decide,
    (SetValueHierarchicalMap_atomic [("a", .mapping [("b", .scalar (.str "x"))])] "a.b.c.d"
      (.scalar (.int 1)) Sentinel.ErrOverlayHierarchicalKey.err (by decide)).1⟩

/-- C19: after a write at the dotted path `p` that returned no error, the lookup of
every dotted path `q` gives what it gave before, provided neither path leads, segment
by segment, into the other; in particular provided neither is, as a text, the beginning
of the other. -/
theorem SetValueHierarchicalMap_frame (m : Tree) (p q : String) (v : Node)
    (hok : (SetValueHierarchicalMap m p v).2 = none) :
    (apart (segs q) (segs p) →
      Tree.lookup (SetValueHierarchicalMap m p v).1 q = Tree.lookup m q)
    ∧ ((¬ ∃ r, q ++ r = p) → (¬ ∃ r, p ++ r = q) →
      Tree.lookup (SetValueHierarchicalMap m p v).1 q = Tree.lookup m q) := by
  have key : apart (segs q) (segs p) →
      Tree.lookup (SetValueHierarchicalMap m p v).1 q = Tree.lookup m q := by
    intro hq
    have h := setMapKeys_frame _ _ v m (SetValueHierarchicalMap m p v).1
      (Prod.ext rfl hok) (segs q)
    rw [dropLast_append_getLastD _ (stringsSplit_ne_nil p '.')] at h
    exact h hq.1 hq.2
  exact ⟨key, fun h1 h2 => key ⟨fun h => h1 (segs_leads q p h), fun h => h2 (segs_leads p q h)⟩⟩

/-- Witness of C19: a write at `a.c` leaves `a.b`, under the shared mapping `a`, as it was. -/
theorem SetValueHierarchicalMap_frame_witness :
    (SetValueHierarchicalMap [("a", .mapping [("b", .scalar (.int 1))])] "a.c"
      (.scalar (.int 2))).2 = none
    ∧ apart (segs "a.b") (segs "a.c")
    ∧ Tree.lookup (SetValueHierarchicalMap [("a", .mapping [("b", .scalar (.int 1))])] "a.c"
        (.scalar (.int 2))).1 "a.b"
      = Tree.lookup [("a", .mapping [("b", .scalar (.int 1))])] "a.b" :=
  ⟨by decide, by decide,
    (SetValueHierarchicalMap_frame [("a", .mapping [("b", .scalar (.int 1))])] "a.c" "a.b"
      (.scalar (.int 2)) (by decide)).1 (by decide)⟩
/-! ## NotReady is not an error -/

/-- C17: `bindKey` answers `ok = false`, `err = nil`, with the binder and so the raw
store untouched, both when the execution of the template fails with a message that
contains `invalid value` and when the rendered text contains `<no value>`; every other
failure of the execution and every failure to parse is returned as an error. After such
a NotReady answer the seed pass adds the leaf to the pending map and goes on, and a
sweep of `Bind` goes on with the next entry: neither returns an error for it. -/
theorem bindKey_classification (env : Env) (b : Binder) (key expr : String) :
    (∀ cause, env.template key expr b.resolved = .execError cause →
        stringsContains cause "invalid value" = true →
        b.bindKey env key expr = (b, false, none))
    ∧ (∀ text, env.template key expr b.resolved = .output text →
        stringsContains text "<no value>" = true →
        b.bindKey env key expr = (b, false, none))
    ∧ (∀ cause, env.template key expr b.resolved = .execError cause →
        stringsContains cause "invalid value" = false →
        b.bindKey env key expr = (b, false, some (parseFailure key cause)))
    ∧ (∀ cause, env.template key expr b.resolved = .parseError cause →
        b.bindKey env key expr = (b, false, some (parseFailure key cause)))
    ∧ ((b.bindKey env key expr).2 = (false, none) →
        (∀ (tag : StructTag) (fields : List String), mapGet key b.viper = none →
          mapGet "default" tag = some expr →
          b.bindLeaf env tag fields key
            = (⟨b.viper, mapSet key expr b.toResolve, b.resolved⟩, none))
        ∧ (∀ (rest : List (String × String)) (changed : Bool),
          Binder.sweep env ((key, expr) :: rest) b changed
            = Binder.sweep env rest b changed)) := by
  refine ⟨?_, ?_, ?_, ?_, ?_⟩
  · intro cause ht hc
    simp only [Binder.bindKey, ht, hc, if_true]
  · intro text ht hc
    simp only [Binder.bindKey, ht, hc, if_true]
  · intro cause ht hc
    simp only [Binder.bindKey, ht, hc]
    rfl
  · intro cause ht
    simp only [Binder.bindKey, ht]
  · intro h
    have h0 := bindKey_notReady env b key expr h
    refine ⟨?_, ?_⟩
    · intro tag fields hraw hdef
      rw [bindLeaf_default env b tag fields key expr hraw hdef, h0]
    · intro rest changed
      exact sweep_cons_notReady env key expr rest b b changed h0

/-- Witness of C17: the default `listen` of `port` renders `<no value>` on an empty
resolved map; `bindKey` answers NotReady and the seed pass makes the leaf pending. -/
theorem bindKey_classification_witness :
    refEnv.template "port" "listen" (NewBinder []).resolved = .output "<no value>"
    ∧ stringsContains "<no value>" "<no value>" = true
    ∧ (NewBinder []).bindKey refEnv "port" "listen" = (NewBinder [], false, none)
    ∧ Binder.bindLeaf refEnv (NewBinder []) [("mapstructure", "port"), ("default", "listen")]
        ["port"] "port" = (⟨[], [("port", "listen")], []⟩, none) :=
  ⟨rfl, by decide,
    (bindKey_classification refEnv (NewBinder []) "port" "listen").2.1 "<no value>" rfl
      (by decide),
    ((bindKey_classification refEnv (NewBinder []) "port" "listen").2.2.2.2 rfl).1
      [("mapstructure", "port"), ("default", "listen")] ["port"] rfl rfl⟩
/-! ## The library parsers against the declarative reading of numerals -/

theorem digit_le_nine (c : Char) (h : '0' ≤ c ∧ c ≤ '9') : c.toNat - 48 ≤ 9 := by
  obtain ⟨_, h2⟩ := h
  have h4 : c.toNat ≤ 57 := by
    have h5 : c.val ≤ '9'.val := Char.le_def.mp h2
    have h6 : c.val.toNat ≤ ('9'.val).toNat := UInt32.le_def.mp h5
    have h7 : ('9'.val).toNat = 57 := by decide
    rw [h7] at h6
    exact h6
  generalize c.toNat = k at h4
  omega

theorem digitsValue_cons (n : Nat) (c : Char) (cs : List Char) :
    digitsValue n (c :: cs) = digitsValue (n * 10 + (c.toNat - 48)) cs := rfl

theorem le_digitsValue (cs : List Char) (n : Nat) : n ≤ digitsValue n cs := by
  induction cs generalizing n with
  | nil => exact le_refl _
  | cons c cs ih =>
    have h := ih (n * 10 + (c.toNat - 48))
    rw [digitsValue_cons]
    have h2 : n ≤ n * 10 + (c.toNat - 48) := by
      generalize c.toNat - 48 = d
      omega
    exact le_trans h2 h

theorem parseUintLoop_nil (maxVal n : Nat) : parseUintLoop maxVal [] n = (n, none) := rfl

theorem parseUintLoop_cons (maxVal n : Nat) (c : Char) (cs : List Char) :
    parseUintLoop maxVal (c :: cs) n =
      if '0' ≤ c ∧ c ≤ '9' then
        if n ≥ maxUint64 / 10 + 1 then (maxVal, some .outOfRange)
        else
          if (n * 10 % 2 ^ 64 + (c.toNat - 48)) % 2 ^ 64 < n * 10 % 2 ^ 64
              ∨ (n * 10 % 2 ^ 64 + (c.toNat - 48)) % 2 ^ 64 > maxVal then
            (maxVal, some .outOfRange)
          else parseUintLoop maxVal cs ((n * 10 % 2 ^ 64 + (c.toNat - 48)) % 2 ^ 64)
      else (0, some .malformed) := rfl

theorem parseUintLoop_spec (maxVal : Nat) (hmax : maxVal ≤ maxUint64) (cs : List Char)
    (n : Nat) (hn : n ≤ maxVal) :
    (cs.all isDigit = true ∧ digitsValue n cs ≤ maxVal →
      parseUintLoop maxVal cs n = (digitsValue n cs, none))
    ∧ ((parseUintLoop maxVal cs n).2 = none →
      cs.all isDigit = true ∧ digitsValue n cs ≤ maxVal) := by
  have h64 : (2 : Nat) ^ 64 = 18446744073709551616 := by norm_num
  have hm : maxUint64 = 18446744073709551615 := rfl
  induction cs generalizing n with
  | nil =>
    rw [parseUintLoop_nil]
    exact ⟨fun _ => rfl, fun _ => ⟨rfl, hn⟩⟩
  | cons c cs ih =>
    rw [parseUintLoop_cons, digitsValue_cons]
    by_cases hd : '0' ≤ c ∧ c ≤ '9'
    · have hdig := digit_le_nine c hd
      have hge := le_digitsValue cs (n * 10 + (c.toNat - 48))
      have hall : (c :: cs).all isDigit = cs.all isDigit := by
        simp [List.all_cons, isDigit, hd]
      rw [if_pos hd, hall]
      have ih2 := ih (n * 10 + (c.toNat - 48))
      generalize c.toNat - 48 = d at hdig hge ih2 ⊢
      by_cases hcut : n ≥ maxUint64 / 10 + 1
      · rw [if_pos hcut]
        have : maxUint64 / 10 + 1 = 1844674407370955162 := by rw [hm]
        refine ⟨fun h => ?_, fun h => by simp at h⟩
        omega
      · rw [if_neg hcut]
        have hcut2 : n < 1844674407370955162 := by
          have : maxUint64 / 10 + 1 = 1844674407370955162 := by rw [hm]
          omega
        have h10 : (n * 10) % 2 ^ 64 = n * 10 := by
          rw [h64]
          exact Nat.mod_eq_of_lt (by omega)
        simp only [h10]
        by_cases hwrap : n * 10 + d < 2 ^ 64
        · have h1 : (n * 10 + d) % 2 ^ 64 = n * 10 + d := Nat.mod_eq_of_lt hwrap
          rw [h1]
          by_cases hbig : n * 10 + d > maxVal
          · have hcond : n * 10 + d < n * 10 ∨ n * 10 + d > maxVal := Or.inr hbig
            rw [if_pos hcond]
            refine ⟨fun h => ?_, fun h => by simp at h⟩
            omega
          · have hcond : ¬ (n * 10 + d < n * 10 ∨ n * 10 + d > maxVal) := by omega
            rw [if_neg hcond]
            exact ih2 (by omega)
        · have h1 : (n * 10 + d) % 2 ^ 64 = n * 10 + d - 2 ^ 64 := by
            rw [h64] at hwrap ⊢
            omega
          rw [h1]
          have hcond : n * 10 + d - 2 ^ 64 < n * 10 ∨ n * 10 + d - 2 ^ 64 > maxVal := by
            left
            rw [h64] at hwrap ⊢
            omega
          rw [if_pos hcond]
          refine ⟨fun h => ?_, fun h => by simp at h⟩
          rw [h64] at hwrap
          omega
    · rw [if_neg hd]
      refine ⟨fun h => ?_, fun h => by simp at h⟩
      have : isDigit c = false := by simp [isDigit, hd]
      simp [List.all_cons, this] at h

theorem ParseUint_spec (s : String) (bitSize : Nat) (hbits : bitSize ≤ 64) :
    (∀ n, unsignedNumeral s = some n → n ≤ 2 ^ bitSize - 1 →
      ParseUint s bitSize = (n, none))
    ∧ ((ParseUint s bitSize).2 = none →
      ∃ n, unsignedNumeral s = some n ∧ n ≤ 2 ^ bitSize - 1
        ∧ (ParseUint s bitSize).1 = n) := by
  have hmax : 2 ^ bitSize - 1 ≤ maxUint64 := by
    have h1 : 2 ^ bitSize ≤ 2 ^ 64 := Nat.pow_le_pow_right (by omega) hbits
    have h64 : (2 : Nat) ^ 64 = 18446744073709551616 := by norm_num
    have hm : maxUint64 = 18446744073709551615 := rfl
    omega
  have hspec := parseUintLoop_spec (2 ^ bitSize - 1) hmax s.toList 0 (Nat.zero_le _)
  unfold ParseUint unsignedNumeral
  by_cases he : s.toList = []
  · rw [if_pos he]
    refine ⟨fun n hn _ => ?_, fun h => by simp at h⟩
    rw [if_neg (fun h => h.1 he)] at hn
    simp at hn
  · rw [if_neg he]
    constructor
    · intro n hn hle
      by_cases hall : s.toList.all isDigit = true
      · rw [if_pos ⟨he, hall⟩] at hn
        simp only [Option.some.injEq] at hn
        subst hn
        exact hspec.1 ⟨hall, hle⟩
      · rw [if_neg (fun h => hall h.2)] at hn
        simp at hn
    · intro h
      obtain ⟨hall, hle⟩ := hspec.2 h
      refine ⟨digitsValue 0 s.toList, by rw [if_pos ⟨he, hall⟩], hle, ?_⟩
      rw [hspec.1 ⟨hall, hle⟩]
theorem toInt64_small (u : Nat) (h : u < 9223372036854775808) : toInt64 u = (u : Int) := by
  unfold toInt64
  norm_num
  omega

theorem negInt64_toInt64 (u : Nat) (h : u ≤ 9223372036854775808) :
    negInt64 (toInt64 u) = -(u : Int) := by
  unfold negInt64 toInt64
  norm_num
  omega

theorem parseUintLoop_range (maxVal : Nat) (cs : List Char) (n : Nat)
    (h : (parseUintLoop maxVal cs n).2 = some .outOfRange) :
    (parseUintLoop maxVal cs n).1 = maxVal := by
  induction cs generalizing n with
  | nil => rw [parseUintLoop_nil] at h; simp at h
  | cons c cs ih =>
    rw [parseUintLoop_cons] at h ⊢
    split at h
    · split at h
      · rename_i h1 h2
        rw [if_pos h1, if_pos h2]
      · split at h
        · rename_i h1 h2 h3
          rw [if_pos h1, if_neg h2, if_pos h3]
        · rename_i h1 h2 h3
          rw [if_pos h1, if_neg h2, if_neg h3]
          exact ih _ h
    · simp at h

theorem ParseUint_range (s : String) (bitSize : Nat)
    (h : (ParseUint s bitSize).2 = some .outOfRange) :
    (ParseUint s bitSize).1 = 2 ^ bitSize - 1 := by
  unfold ParseUint at h ⊢
  by_cases he : s.toList = []
  · rw [if_pos he] at h
    simp at h
  · rw [if_neg he] at h ⊢
    exact parseUintLoop_range _ _ _ h

theorem parseIntSigned_spec (neg : Bool) (rest : List Char) (bitSize : Nat)
    (h1 : 1 ≤ bitSize) (h64 : bitSize ≤ 64) :
    (∀ n, unsignedNumeral (String.mk rest) = some n →
      (if neg = true then n ≤ 2 ^ (bitSize - 1) else n < 2 ^ (bitSize - 1)) →
      parseIntSigned neg rest bitSize = ((if neg = true then -(n : Int) else (n : Int)), none))
    ∧ ((parseIntSigned neg rest bitSize).2 = none →
      ∃ n, unsignedNumeral (String.mk rest) = some n
        ∧ (if neg = true then n ≤ 2 ^ (bitSize - 1) else n < 2 ^ (bitSize - 1))
        ∧ (parseIntSigned neg rest bitSize).1 = (if neg = true then -(n : Int) else (n : Int))) := by
  have hcut1 : 1 ≤ 2 ^ (bitSize - 1) := Nat.one_le_two_pow
  have hcut2 : 2 ^ (bitSize - 1) ≤ 9223372036854775808 := by
    have : 2 ^ (bitSize - 1) ≤ 2 ^ 63 := Nat.pow_le_pow_right (by omega) (by omega)
    have h63 : (2 : Nat) ^ 63 = 9223372036854775808 := by norm_num
    omega
  have h264 : (2 : Nat) ^ 64 - 1 = 18446744073709551615 := by norm_num
  have hU := ParseUint_spec (String.mk rest) 64 (le_refl _)
  rw [h264] at hU
  unfold parseIntSigned
  generalize 2 ^ (bitSize - 1) = cut at hcut1 hcut2 ⊢
  have hfit : ∀ n, unsignedNumeral (String.mk rest) = some n →
      (if neg = true then n ≤ cut else n < cut) →
      ParseUint (String.mk rest) 64 = (n, none) := by
    intro n hn hc
    apply hU.1 n hn
    split at hc <;> omega
  have hval : ∀ n : Nat, (if neg = true then n ≤ cut else n < cut) →
      (if neg = false ∧ n ≥ cut then ((cut : Int) - 1, some ParseError.outOfRange)
        else if neg = true ∧ n > cut then (-(cut : Int), some ParseError.outOfRange)
        else (if neg = true then negInt64 (toInt64 n) else toInt64 n, none))
      = ((if neg = true then -(n : Int) else (n : Int)), none) := by
    intro n hc
    cases neg with
    | false =>
      simp only [Bool.false_eq_true, if_false] at hc ⊢
      have : ¬ (True ∧ n ≥ cut) := by omega
      simp only [true_and] at this ⊢
      rw [if_neg this]
      simp only [false_and, if_false]
      rw [toInt64_small n (by omega)]
    | true =>
      simp only [if_true] at hc ⊢
      simp only [Bool.true_eq_false, false_and, if_false, true_and]
      rw [if_neg (by omega), negInt64_toInt64 n (by omega)]
  rcases hP : ParseUint (String.mk rest) 64 with ⟨un, err⟩
  constructor
  · intro n hn hc
    have := hfit n hn hc
    rw [hP] at this
    simp only [Prod.mk.injEq] at this
    obtain ⟨hun, herr⟩ := this
    subst hun herr
    simp only [hP]
    exact hval un hc
  · intro h
    cases err with
    | none =>
      obtain ⟨n, hn, _, hun⟩ := hU.2 (by rw [hP])
      rw [hP] at hun
      simp only [] at hun
      subst hun
      simp only [hP] at h ⊢
      have hc : (if neg = true then un ≤ cut else un < cut) := by
        cases neg with
        | false =>
          simp only [Bool.false_eq_true, if_false, true_and] at h ⊢
          by_contra hlt
          rw [if_pos (by omega)] at h
          simp at h
        | true =>
          simp only [if_true, Bool.true_eq_false, false_and, if_false, true_and] at h ⊢
          by_contra hlt
          rw [if_pos (by omega)] at h
          simp at h
      refine ⟨un, hn, hc, ?_⟩
      rw [hval un hc]
    | some e =>
      exfalso
      cases e with
      | malformed =>
        simp [hP] at h
      | outOfRange =>
        have hun : un = 18446744073709551615 := by
          have := ParseUint_range (String.mk rest) 64 (by rw [hP])
          rw [hP, h264] at this
          exact this
        subst hun
        simp only [hP] at h
        cases neg with
        | false =>
          simp only [true_and] at h
          rw [if_pos (by omega)] at h
          simp at h
        | true =>
          simp only [Bool.true_eq_false, false_and, if_false, true_and] at h
          rw [if_pos (by omega)] at h
          simp at h
theorem ParseInt_spec (s : String) (bitSize : Nat) (h1 : 1 ≤ bitSize) (h64 : bitSize ≤ 64) :
    (∀ v, signedNumeral s = some v → -(2 : Int) ^ (bitSize - 1) ≤ v →
      v < (2 : Int) ^ (bitSize - 1) → ParseInt s bitSize = (v, none))
    ∧ ((ParseInt s bitSize).2 = none →
      ∃ v, signedNumeral s = some v ∧ -(2 : Int) ^ (bitSize - 1) ≤ v
        ∧ v < (2 : Int) ^ (bitSize - 1) ∧ (ParseInt s bitSize).1 = v) := by
  have hcast : (2 : Int) ^ (bitSize - 1) = ((2 ^ (bitSize - 1) : Nat) : Int) := by
    push_cast
    rfl
  rw [hcast]
  have core : ∀ (neg : Bool) (rest : List Char),
      (∀ v, (unsignedNumeral (String.mk rest)).map
            (fun n : Nat => if neg = true then -(n : Int) else (n : Int)) = some v →
          -((2 ^ (bitSize - 1) : Nat) : Int) ≤ v → v < ((2 ^ (bitSize - 1) : Nat) : Int) →
          parseIntSigned neg rest bitSize = (v, none))
      ∧ ((parseIntSigned neg rest bitSize).2 = none →
          ∃ v, (unsignedNumeral (String.mk rest)).map
              (fun n : Nat => if neg = true then -(n : Int) else (n : Int)) = some v
            ∧ -((2 ^ (bitSize - 1) : Nat) : Int) ≤ v ∧ v < ((2 ^ (bitSize - 1) : Nat) : Int)
            ∧ (parseIntSigned neg rest bitSize).1 = v) := by
    intro neg rest
    have hspec := parseIntSigned_spec neg rest bitSize h1 h64
    have hpos : 1 ≤ 2 ^ (bitSize - 1) := Nat.one_le_two_pow
    generalize 2 ^ (bitSize - 1) = cut at hspec hpos ⊢
    constructor
    · intro v hv hlo hhi
      rcases hu : unsignedNumeral (String.mk rest) with _ | n
      · rw [hu] at hv
        simp at hv
      · rw [hu] at hv
        simp only [Option.map_some', Option.some.injEq] at hv
        subst hv
        apply hspec.1 n hu
        cases neg with
        | false =>
          simp only [Bool.false_eq_true, if_false] at hhi ⊢
          omega
        | true =>
          simp only [if_true] at hlo ⊢
          omega
    · intro h
      obtain ⟨n, hn, hc, hval⟩ := hspec.2 h
      refine ⟨_, by rw [hn]; rfl, ?_, ?_, hval⟩
      · cases neg with
        | false => simp only [Bool.false_eq_true, if_false] at hc ⊢; omega
        | true => simp only [if_true] at hc ⊢; omega
      · cases neg with
        | false => simp only [Bool.false_eq_true, if_false] at hc ⊢; omega
        | true => simp only [if_true] at hc ⊢; omega
  unfold ParseInt signedNumeral
  rcases hs : s.toList with _ | ⟨c, cs⟩
  · exact ⟨fun v hv => by simp at hv, fun h => by simp at h⟩
  · simp only []
    by_cases hplus : c = '+'
    · subst hplus
      have hb : ('+' == '-') = false := by decide
      have hor : ('+' = '+' ∨ '+' = '-') := Or.inl rfl
      rw [if_pos hor, if_pos rfl, hb]
      exact core false cs
    · by_cases hminus : c = '-'
      · subst hminus
        have hb : ('-' == '-') = true := by decide
        have hor : ('-' = '+' ∨ '-' = '-') := Or.inr rfl
        rw [if_pos hor, if_neg hplus, if_pos rfl, hb]
        exact core true cs
      · have hb : (c == '-') = false := by simpa using hminus
        have hor : ¬ (c = '+' ∨ c = '-') := fun h => h.elim hplus hminus
        rw [if_neg hor, if_neg hplus, if_neg hminus, hb]
        exact core false (c :: cs)

theorem SetInt_fits (bits : Nat) (h1 : 1 ≤ bits) (v : Int)
    (hlo : -(2 : Int) ^ (bits - 1) ≤ v) (hhi : v < (2 : Int) ^ (bits - 1)) :
    SetInt bits v = .int v := by
  unfold SetInt
  have h2 : (2 : Int) ^ bits = 2 * (2 : Int) ^ (bits - 1) := by
    obtain ⟨k, rfl⟩ : ∃ k, bits = k + 1 := ⟨bits - 1, by omega⟩
    simp [pow_succ]
    ring
  rw [h2]
  generalize (2 : Int) ^ (bits - 1) = p at hlo hhi ⊢
  have : (v + p) % (2 * p) = v + p := Int.emod_eq_of_lt (by omega) (by omega)
  rw [this]
  congr 1
  omega

theorem SetUint_fits (bits n : Nat) (h : n < 2 ^ bits) : SetUint bits n = .uint n := by
  unfold SetUint
  rw [Nat.mod_eq_of_lt h]

theorem decodeInt_spec (kind : Kind) (bits : Nat) (h1 : 1 ≤ bits) (h64 : bits ≤ 64)
    (data : Data) (val : String) :
    (∀ v, signedNumeral val = some v → -(2 : Int) ^ (bits - 1) ≤ v →
      v < (2 : Int) ^ (bits - 1) →
      decodeInt kind bits data val = (.scalar kind (.int v), true))
    ∧ ((decodeInt kind bits data val).2 = true →
      ∃ v, signedNumeral val = some v ∧ -(2 : Int) ^ (bits - 1) ≤ v
        ∧ v < (2 : Int) ^ (bits - 1))
    ∧ ((decodeInt kind bits data val).2 = false →
      (decodeInt kind bits data val).1 = .scalar kind data) := by
  have hspec := ParseInt_spec val bits h1 h64
  unfold decodeInt
  rcases hP : ParseInt val bits with ⟨i, err⟩
  rw [hP] at hspec
  cases err with
  | none =>
    refine ⟨fun v hv hlo hhi => ?_, fun _ => ?_, fun h => by simp at h⟩
    · have := hspec.1 v hv hlo hhi
      simp only [Prod.mk.injEq, and_true] at this
      subst this
      simp only []
      rw [SetInt_fits bits h1 i hlo hhi]
    · obtain ⟨v, hv, hlo, hhi, _⟩ := hspec.2 rfl
      exact ⟨v, hv, hlo, hhi⟩
  | some e =>
    refine ⟨fun v hv hlo hhi => ?_, fun h => by simp at h, fun _ => rfl⟩
    have := hspec.1 v hv hlo hhi
    simp at this

theorem decodeUint_spec (kind : Kind) (bits : Nat) (h64 : bits ≤ 64)
    (data : Data) (val : String) :
    (∀ n, unsignedNumeral val = some n → n < 2 ^ bits →
      decodeUint kind bits data val = (.scalar kind (.uint n), true))
    ∧ ((decodeUint kind bits data val).2 = true →
      ∃ n, unsignedNumeral val = some n ∧ n < 2 ^ bits)
    ∧ ((decodeUint kind bits data val).2 = false →
      (decodeUint kind bits data val).1 = .scalar kind data) := by
  have hspec := ParseUint_spec val bits h64
  have hpos : 1 ≤ 2 ^ bits := Nat.one_le_two_pow
  unfold decodeUint
  rcases hP : ParseUint val bits with ⟨i, err⟩
  rw [hP] at hspec
  cases err with
  | none =>
    refine ⟨fun n hn hlt => ?_, fun _ => ?_, fun h => by simp at h⟩
    · have := hspec.1 n hn (by omega)
      simp only [Prod.mk.injEq, and_true] at this
      subst this
      simp only []
      rw [SetUint_fits bits i hlt]
    · obtain ⟨n, hn, hle, _⟩ := hspec.2 rfl
      exact ⟨n, hn, by omega⟩
  | some e =>
    refine ⟨fun n hn hlt => ?_, fun h => by simp at h, fun _ => rfl⟩
    have := hspec.1 n hn (by omega)
    simp at this
/-! ## The fuzzy decoder -/

/-- C12: with `strconv.IntSize` 32 or 64, for every signed integer kind of width `bits`
`FuzzyDecode` returns `true` exactly when the text is an optional `+` or `-` followed by
one or more decimal digits whose value `v` has `-2^(bits-1) ≤ v < 2^(bits-1)`, and the
destination then holds `v`; for every unsigned kind exactly when the text is one or more
decimal digits, without sign, whose value is below `2^bits`, and the destination then
holds that value; so malformed or out-of-range text returns `false`. In particular
`255` decodes into a `uint8` as 255 and `256` is refused. -/
theorem FuzzyDecode_integers (intSize : Nat) (hsize : intSize = 32 ∨ intSize = 64)
    (kind : Kind) (data : Data) (val : String) :
    (∀ bits, intBits intSize kind = some bits →
      (∀ v, signedNumeral val = some v → -(2 : Int) ^ (bits - 1) ≤ v →
        v < (2 : Int) ^ (bits - 1) →
        FuzzyDecode intSize (.scalar kind data) val = (.scalar kind (.int v), true))
      ∧ ((FuzzyDecode intSize (.scalar kind data) val).2 = true →
        ∃ v, signedNumeral val = some v ∧ -(2 : Int) ^ (bits - 1) ≤ v
          ∧ v < (2 : Int) ^ (bits - 1)))
    ∧ (∀ bits, uintBits intSize kind = some bits →
      (∀ n, unsignedNumeral val = some n → n < 2 ^ bits →
        FuzzyDecode intSize (.scalar kind data) val = (.scalar kind (.uint n), true))
      ∧ ((FuzzyDecode intSize (.scalar kind data) val).2 = true →
        ∃ n, unsignedNumeral val = some n ∧ n < 2 ^ bits))
    ∧ FuzzyDecode intSize (.scalar .Uint8 data) "255" = (.scalar .Uint8 (.uint 255), true)
    ∧ (FuzzyDecode intSize (.scalar .Uint8 data) "256").2 = false := by
  have hs1 : 1 ≤ intSize := by omega
  have hs2 : intSize ≤ 64 := by omega
  refine ⟨?_, ?_, rfl, rfl⟩
  · intro bits hbits
    cases kind <;> simp [intBits] at hbits <;> subst hbits
    · exact ⟨(decodeInt_spec .Int intSize hs1 hs2 data val).1,
        (decodeInt_spec .Int intSize hs1 hs2 data val).2.1⟩
    · exact ⟨(decodeInt_spec .Int8 8 (by omega) (by omega) data val).1,
        (decodeInt_spec .Int8 8 (by omega) (by omega) data val).2.1⟩
    · exact ⟨(decodeInt_spec .Int16 16 (by omega) (by omega) data val).1,
        (decodeInt_spec .Int16 16 (by omega) (by omega) data val).2.1⟩
    · exact ⟨(decodeInt_spec .Int32 32 (by omega) (by omega) data val).1,
        (decodeInt_spec .Int32 32 (by omega) (by omega) data val).2.1⟩
    · exact ⟨(decodeInt_spec .Int64 64 (by omega) (by omega) data val).1,
        (decodeInt_spec .Int64 64 (by omega) (by omega) data val).2.1⟩
  · intro bits hbits
    cases kind <;> simp [uintBits] at hbits <;> subst hbits
    · exact ⟨(decodeUint_spec .Uint intSize hs2 data val).1,
        (decodeUint_spec .Uint intSize hs2 data val).2.1⟩
    · exact ⟨(decodeUint_spec .Uint8 8 (by omega) data val).1,
        (decodeUint_spec .Uint8 8 (by omega) data val).2.1⟩
    · exact ⟨(decodeUint_spec .Uint16 16 (by omega) data val).1,
        (decodeUint_spec .Uint16 16 (by omega) data val).2.1⟩
    · exact ⟨(decodeUint_spec .Uint32 32 (by omega) data val).1,
        (decodeUint_spec .Uint32 32 (by omega) data val).2.1⟩
    · exact ⟨(decodeUint_spec .Uint64 64 (by omega) data val).1,
        (decodeUint_spec .Uint64 64 (by omega) data val).2.1⟩

/-- Witness of C12: on a 64-bit platform `-128` decodes into an `int8`. -/
theorem FuzzyDecode_integers_witness :
    ((64 : Nat) = 32 ∨ (64 : Nat) = 64)
    ∧ intBits 64 .Int8 = some 8
    ∧ signedNumeral "-128" = some (-128)
    ∧ FuzzyDecode 64 (.scalar .Int8 (.int 0)) "-128" = (.scalar .Int8 (.int (-128)), true) :=
  ⟨Or.inr rfl, rfl, by decide,
    ((FuzzyDecode_integers 64 (Or.inr rfl) .Int8 (.int 0) "-128").1 8 rfl).1 (-128)
      (by decide) (by decide) (by decide)⟩

/-- C13: for a destination of kind Bool, `FuzzyDecode` returns `true` and sets the
destination to `true` exactly when the text is `true` or `1`, returns `true` and sets
it to `false` exactly when the text is `false` or `0`, and for every other text returns
`false` and leaves the destination as it was. -/
theorem FuzzyDecode_bool (intSize : Nat) (data : Data) (val : String) :
    (FuzzyDecode intSize (.scalar .Bool data) val = (.scalar .Bool (.bool true), true)
      ↔ (val = "true" ∨ val = "1"))
    ∧ (FuzzyDecode intSize (.scalar .Bool data) val = (.scalar .Bool (.bool false), true)
      ↔ (val = "false" ∨ val = "0"))
    ∧ (FuzzyDecode intSize (.scalar .Bool data) val = (.scalar .Bool data, false)
      ↔ ¬ (val = "true" ∨ val = "1" ∨ val = "false" ∨ val = "0"))
    ∧ (FuzzyDecode intSize (.scalar .Bool data) "x").2 = false
    ∧ (FuzzyDecode intSize (.scalar .Bool data) "True").2 = false
    ∧ (FuzzyDecode intSize (.scalar .Bool data) " true").2 = false := by
  refine ⟨?_, ?_, ?_, rfl, rfl, rfl⟩
  · by_cases h1 : val = "true" ∨ val = "1"
    · simp [FuzzyDecode, h1]
    · by_cases h2 : val = "false" ∨ val = "0"
      · simp [FuzzyDecode, h1, h2]
      · simp [FuzzyDecode, h1, h2]
  · by_cases h1 : val = "true" ∨ val = "1"
    · have h2 : ¬ (val = "false" ∨ val = "0") := by
        rcases h1 with h | h <;> subst h <;> decide
      simp [FuzzyDecode, h1, h2]
    · by_cases h2 : val = "false" ∨ val = "0"
      · simp [FuzzyDecode, h1, h2]
      · simp [FuzzyDecode, h1, h2]
  · by_cases h1 : val = "true" ∨ val = "1"
    · have : ¬ ¬ (val = "true" ∨ val = "1" ∨ val = "false" ∨ val = "0") := by
        intro h
        exact h (by tauto)
      simp only [FuzzyDecode, h1, if_true]
      constructor
      · intro h
        simp at h
      · intro h
        exact absurd h this
    · by_cases h2 : val = "false" ∨ val = "0"
      · simp only [FuzzyDecode, h1, h2, if_true, if_false]
        constructor
        · intro h
          simp at h
        · intro h
          exact absurd (by tauto) h
      · simp only [FuzzyDecode, h1, h2, if_false]
        constructor
        · intro _
          tauto
        · intro _
          trivial

/-- C14: for a destination whose kind is none of the integer kinds, Bool or String,
a struct included, `FuzzyDecode` returns `true` for every text and leaves the
destination as it was. -/
theorem FuzzyDecode_other_kinds (intSize : Nat) (val : String) :
    (∀ data : Data, FuzzyDecode intSize (.scalar .Other data) val
      = (.scalar .Other data, true))
    ∧ (∀ fields : List (StructTag × ReflectValue),
      FuzzyDecode intSize (.struct fields) val = (.struct fields, true)) :=
  ⟨fun _ => rfl, fun _ => rfl⟩
/-! ## The struct writer -/

theorem get?_set_self {α : Type} (l : List α) (i : Nat) (x y : α)
    (h : l.get? i = some x) : (l.set i y).get? i = some y := by
  induction l generalizing i with
  | nil => simp at h
  | cons a rest ih =>
    cases i with
    | zero => simp
    | succ j =>
      simp only [List.get?_cons_succ] at h
      simpa using ih j h

theorem get?_set_ne {α : Type} (l : List α) (i j : Nat) (y : α) (h : i ≠ j) :
    (l.set i y).get? j = l.get? j := by
  induction l generalizing i j with
  | nil => simp
  | cons a rest ih =>
    cases i with
    | zero =>
      cases j with
      | zero => exact absurd rfl h
      | succ k => simp
    | succ i2 =>
      cases j with
      | zero => simp
      | succ k =>
        have := ih i2 k (fun h2 => h (by rw [h2]))
        simpa using this

theorem set_get?_self {α : Type} (l : List α) (i : Nat) (x : α)
    (h : l.get? i = some x) : l.set i x = l := by
  induction l generalizing i with
  | nil => simp at h
  | cons a rest ih =>
    cases i with
    | zero =>
      simp at h
      simp [h]
    | succ j =>
      simp only [List.get?_cons_succ] at h
      simp [ih j h]

theorem findField_get? (key : String) (fields : List (StructTag × ReflectValue)) (i : Nat)
    (h : findField key fields = some i) :
    ∃ tag c, fields.get? i = some (tag, c) ∧ mapGet "mapstructure" tag = some key := by
  induction fields generalizing i with
  | nil => simp [findField] at h
  | cons f rest ih =>
    obtain ⟨tag, c⟩ := f
    rw [findField] at h
    by_cases hm : mapGet "mapstructure" tag = some key
    · rw [if_pos hm] at h
      simp only [Option.some.injEq] at h
      subst h
      exact ⟨tag, c, rfl, hm⟩
    · rw [if_neg hm] at h
      rcases hf : findField key rest with _ | j
      · rw [hf] at h
        simp at h
      · rw [hf] at h
        simp only [Option.map_some', Option.some.injEq] at h
        subst h
        obtain ⟨tag2, c2, h1, h2⟩ := ih j hf
        exact ⟨tag2, c2, by simpa using h1, h2⟩

theorem FuzzyDecode_false (intSize : Nat) (dst : ReflectValue) (val : String)
    (h : (FuzzyDecode intSize dst val).2 = false) : (FuzzyDecode intSize dst val).1 = dst := by
  have hint : ∀ kind bits data, (decodeInt kind bits data val).2 = false →
      (decodeInt kind bits data val).1 = .scalar kind data := by
    intro kind bits data h
    unfold decodeInt at h ⊢
    rcases hP : ParseInt val bits with ⟨i, _ | e⟩
    · rw [hP] at h
      simp at h
    · rfl
  have huint : ∀ kind bits data, (decodeUint kind bits data val).2 = false →
      (decodeUint kind bits data val).1 = .scalar kind data := by
    intro kind bits data h
    unfold decodeUint at h ⊢
    rcases hP : ParseUint val bits with ⟨i, _ | e⟩
    · rw [hP] at h
      simp at h
    · rfl
  cases dst with
  | struct fields => rfl
  | scalar kind data =>
    cases kind
    case Bool =>
      unfold FuzzyDecode at h ⊢
      by_cases h1 : val = "true" ∨ val = "1"
      · simp [h1] at h
      · by_cases h2 : val = "false" ∨ val = "0"
        · simp [h1, h2] at h
        · simp [h1, h2]
    case String => simp [FuzzyDecode] at h
    case Other => rfl
    all_goals first
      | exact hint _ _ _ h
      | exact huint _ _ _ h

theorem setStructKeys_atomic (intSize : Nat) (keys : List String) (v : ReflectValue)
    (val : String) (h : (setStructKeys intSize keys v val).2 ≠ .ok) :
    (setStructKeys intSize keys v val).1 = v := by
  induction keys generalizing v with
  | nil =>
    rw [setStructKeys] at h ⊢
    rcases hd : FuzzyDecode intSize v val with ⟨v2, ok⟩
    rw [hd] at h
    cases ok with
    | true => exact absurd rfl h
    | false =>
      have := FuzzyDecode_false intSize v val (by rw [hd])
      rw [hd] at this
      exact this
  | cons key keys ih =>
    cases v with
    | scalar kind data => rfl
    | struct fields =>
      rw [setStructKeys] at h ⊢
      rcases hf : findField key fields with _ | i
      · rfl
      · obtain ⟨tag, c, hg, _⟩ := findField_get? key fields i hf
        rw [hf] at h
        simp only [hg] at h ⊢
        rw [ih c h, set_get?_self fields i (tag, c) hg]
theorem resolvePath_cons (root : ReflectValue) (key : String) (keys : List String)
    (idxs : List Nat) (h : resolvePath root (key :: keys) = some idxs) :
    ∃ fields i tag c rest, root = .struct fields ∧ findField key fields = some i
      ∧ fields.get? i = some (tag, c) ∧ resolvePath c keys = some rest ∧ idxs = i :: rest := by
  cases root with
  | scalar kind data => simp [resolvePath] at h
  | struct fields =>
    rw [resolvePath] at h
    rcases hf : findField key fields with _ | i
    · rw [hf] at h
      simp at h
    · rw [hf] at h
      simp only [] at h
      rcases hg : fields.get? i with _ | ⟨tag, c⟩
      · rw [hg] at h
        simp at h
      · rw [hg] at h
        simp only [] at h
        rcases hr : resolvePath c keys with _ | rest
        · rw [hr] at h
          simp at h
        · rw [hr] at h
          simp only [Option.map_some', Option.some.injEq] at h
          exact ⟨fields, i, tag, c, rest, rfl, hf, hg, hr, h.symm⟩

theorem setStructKeys_struct (intSize : Nat) (key : String) (keys : List String)
    (fields : List (StructTag × ReflectValue)) (val : String) (i : Nat) (tag : StructTag)
    (c : ReflectValue) (hf : findField key fields = some i)
    (hg : fields.get? i = some (tag, c)) :
    setStructKeys intSize (key :: keys) (.struct fields) val
      = (.struct (fields.set i (tag, (setStructKeys intSize keys c val).1)),
          (setStructKeys intSize keys c val).2) := by
  rw [setStructKeys, hf]
  simp only [hg]

theorem setStructKeys_resolved (intSize : Nat) (keys : List String) (root : ReflectValue)
    (val : String) (idxs : List Nat) (t : ReflectValue)
    (hres : resolvePath root keys = some idxs) (hat : root.fieldAt idxs = some t) :
    (setStructKeys intSize keys root val).2
        = (if (FuzzyDecode intSize t val).2 = true then Outcome.ok
            else Outcome.err (typeMismatch t.kindName val))
    ∧ (setStructKeys intSize keys root val).1.fieldAt idxs
        = some (FuzzyDecode intSize t val).1
    ∧ (∀ q, apartIdx q idxs →
        (setStructKeys intSize keys root val).1.fieldAt q = root.fieldAt q) := by
  induction keys generalizing root idxs with
  | nil =>
    simp only [resolvePath, Option.some.injEq] at hres
    subst hres
    simp only [ReflectValue.fieldAt, Option.some.injEq] at hat
    subst hat
    rw [setStructKeys]
    rcases hd : FuzzyDecode intSize root val with ⟨v2, ok⟩
    refine ⟨?_, ?_, ?_⟩
    · cases ok <;> simp
    · cases ok <;> simp [ReflectValue.fieldAt]
    · intro q hq
      exact absurd ⟨q, rfl⟩ hq.2
  | cons key keys ih =>
    obtain ⟨fields, i, tag, c, rest, hroot, hf, hg, hr, hidx⟩ :=
      resolvePath_cons root key keys idxs hres
    subst hroot hidx
    have hat2 : c.fieldAt rest = some t := by
      rw [ReflectValue.fieldAt, hg] at hat
      exact hat
    obtain ⟨h1, h2, h3⟩ := ih c rest hr hat2
    rw [setStructKeys_struct intSize key keys fields val i tag c hf hg]
    refine ⟨h1, ?_, ?_⟩
    · rw [ReflectValue.fieldAt, get?_set_self fields i (tag, c) _ hg]
      exact h2
    · intro q hq
      cases q with
      | nil => exact absurd ⟨i :: rest, rfl⟩ hq.1
      | cons j q2 =>
        by_cases hij : i = j
        · subst hij
          rw [ReflectValue.fieldAt, get?_set_self fields i (tag, c) _ hg,
            ReflectValue.fieldAt, hg]
          apply h3
          constructor
          · rintro ⟨r, hr2⟩
            exact hq.1 ⟨r, by simp [hr2]⟩
          · rintro ⟨r, hr2⟩
            exact hq.2 ⟨r, by simp [hr2]⟩
        · rw [ReflectValue.fieldAt, get?_set_ne fields i j _ hij, ReflectValue.fieldAt]

theorem setStructKeys_stuck (intSize : Nat) (pre : List String) (seg : String)
    (rest : List String) (root : ReflectValue) (val : String) (idxs : List Nat)
    (hres : resolvePath root pre = some idxs) :
    (∀ fields, root.fieldAt idxs = some (.struct fields) → findField seg fields = none →
      setStructKeys intSize (pre ++ seg :: rest) root val
        = (root, .err (unexpectedKey seg)))
    ∧ (∀ kind data, root.fieldAt idxs = some (.scalar kind data) →
      setStructKeys intSize (pre ++ seg :: rest) root val
        = (root, .panicked ("reflect: call of reflect.Value.NumField on " ++ kindText kind
            ++ " Value"))) := by
  induction pre generalizing root idxs with
  | nil =>
    simp only [resolvePath, Option.some.injEq] at hres
    subst hres
    simp only [ReflectValue.fieldAt, Option.some.injEq, List.nil_append]
    constructor
    · intro fields hroot hf
      subst hroot
      rw [setStructKeys, hf]
    · intro kind data hroot
      subst hroot
      rw [setStructKeys]
  | cons key keys ih =>
    obtain ⟨fields0, i, tag, c, rest2, hroot, hf, hg, hr, hidx⟩ :=
      resolvePath_cons root key keys idxs hres
    subst hroot hidx
    obtain ⟨h1, h2⟩ := ih c rest2 hr
    have hstep := setStructKeys_struct intSize key (keys ++ seg :: rest) fields0 val i tag c hf hg
    constructor
    · intro fields hat hnone
      rw [ReflectValue.fieldAt, hg] at hat
      rw [List.cons_append, hstep, h1 fields hat hnone, set_get?_self fields0 i (tag, c) hg]
    · intro kind data hat
      rw [ReflectValue.fieldAt, hg] at hat
      rw [List.cons_append, hstep, h2 kind data hat, set_get?_self fields0 i (tag, c) hg]
/-- C15: the code at the input the claim names. On a destination whose field `port` is
of kind Int, the path `port.x` does not make `SetValueHierarchicalStruct` return the
unexpected-key error: the second segment is looked for with `NumField` on the integer,
which panics. A segment that no field of a struct matches, as `x` at the top level,
does give the unexpected-key error naming the segment. -/
theorem SetValueHierarchicalStruct_scalar_descent :
    SetValueHierarchicalStruct 64 portStruct "port.x" "1"
      = (portStruct, .panicked "reflect: call of reflect.Value.NumField on int Value")
    ∧ (SetValueHierarchicalStruct 64 portStruct "port.x" "1").2
        ≠ .err (unexpectedKey "x")
    ∧ SetValueHierarchicalStruct 64 portStruct "x" "1"
      = (portStruct, .err ⟨"unexpected key: x", none⟩) :=
  ⟨rfl, by decide, rfl⟩

/-- C16: the code at a field whose tag carries an option. `bind` gives the field tagged
`log,omitempty` the path `log` (it splits the tag at the comma), and `FuzzyDecode` on a
string field accepts every text and stores it. Yet `SetValueHierarchicalStruct` at the
path `log` returns neither `nil` nor the type mismatch error: it compares the segment
with the whole tag, finds no field and returns `unexpected key: log`, the destination
as it was. Only the segment `log,omitempty` reaches the field. -/
theorem SetValueHierarchicalStruct_tag_option :
    (walk logSchema []).map (fun l => l.key) = ["log"]
    ∧ (Binder.bind refEnv logSchema [] (NewBinder [("log", .str "x")])).1.resolved
        = [("log", .scalar (.str "x"))]
    ∧ FuzzyDecode 64 (.scalar .String (.string "")) "x" = (.scalar .String (.string "x"), true)
    ∧ SetValueHierarchicalStruct 64 logStruct "log" "x"
        = (logStruct, .err ⟨"unexpected key: log", none⟩)
    ∧ (SetValueHierarchicalStruct 64 logStruct "log" "x").2 ≠ .ok
    ∧ (SetValueHierarchicalStruct 64 logStruct "log" "x").2
        ≠ .err (typeMismatch "string" "x")
    ∧ SetValueHierarchicalStruct 64 logStruct "log,omitempty" "x"
        = (.struct [([("mapstructure", "log,omitempty")], .scalar .String (.string "x"))],
            .ok) :=
  ⟨rfl, rfl, rfl, rfl, by decide, by decide, rfl⟩

/-! ## What the descent does when every segment equals a whole tag -/

/-- On an integer destination `FuzzyDecode` is the decoder of the kind's width. -/
theorem FuzzyDecode_int (intSize : Nat) (kind : Kind) (bits : Nat) (data : Data)
    (val : String) (hbits : intBits intSize kind = some bits) :
    FuzzyDecode intSize (.scalar kind data) val = decodeInt kind bits data val := by
  cases kind <;> simp [intBits] at hbits <;> subst hbits <;> rfl

/-- On an unsigned destination `FuzzyDecode` is the decoder of the kind's width. -/
theorem FuzzyDecode_uint (intSize : Nat) (kind : Kind) (bits : Nat) (data : Data)
    (val : String) (hbits : uintBits intSize kind = some bits) :
    FuzzyDecode intSize (.scalar kind data) val = decodeUint kind bits data val := by
  cases kind <;> simp [uintBits] at hbits <;> subst hbits <;> rfl

/-- When every segment of the dotted path equals the whole `mapstructure` tag of a field
and the field reached is a scalar, the call returns the type mismatch error, naming the
kind and the text, exactly when `FuzzyDecode` on that field returns `false`, and the
destination is then as it was; otherwise it returns `nil`, the field reached holds what
`FuzzyDecode` stored, and every field that is neither on the way to that field nor below
it is as it was. -/
theorem SetValueHierarchicalStruct_decodes (intSize : Nat) (root : ReflectValue)
    (key val : String) (idxs : List Nat) (kind : Kind) (data : Data)
    (hres : resolvePath root (stringsSplit key '.') = some idxs)
    (hleaf : root.fieldAt idxs = some (.scalar kind data)) :
    ((SetValueHierarchicalStruct intSize root key val).2
        = .err (typeMismatch (kindText kind) val)
      ↔ (FuzzyDecode intSize (.scalar kind data) val).2 = false)
    ∧ ((FuzzyDecode intSize (.scalar kind data) val).2 = false →
      SetValueHierarchicalStruct intSize root key val
        = (root, .err (typeMismatch (kindText kind) val)))
    ∧ ((FuzzyDecode intSize (.scalar kind data) val).2 = true →
      (SetValueHierarchicalStruct intSize root key val).2 = .ok
      ∧ (SetValueHierarchicalStruct intSize root key val).1.fieldAt idxs
          = some (FuzzyDecode intSize (.scalar kind data) val).1
      ∧ (∀ q, apartIdx q idxs →
          (SetValueHierarchicalStruct intSize root key val).1.fieldAt q = root.fieldAt q)) := by
  obtain ⟨h1, h2, h3⟩ := setStructKeys_resolved intSize (stringsSplit key '.') root val idxs
    (.scalar kind data) hres hleaf
  unfold SetValueHierarchicalStruct
  rcases hd : (FuzzyDecode intSize (.scalar kind data) val).2 with _ | _
  · rw [hd] at h1
    simp only [Bool.false_eq_true, if_false] at h1
    have hkind : (ReflectValue.scalar kind data).kindName = kindText kind := rfl
    rw [hkind] at h1
    refine ⟨⟨fun _ => rfl, fun _ => h1⟩, fun _ => ?_, fun h => by simp at h⟩
    refine Prod.ext ?_ h1
    exact setStructKeys_atomic intSize _ root val (by rw [h1]; simp)
  · rw [hd] at h1
    simp only [if_true] at h1
    refine ⟨⟨fun h => ?_, fun h => by simp at h⟩, fun h => by simp at h, fun _ => ⟨h1, h2, h3⟩⟩
    rw [h1] at h
    simp at h

/-- The values the field reached ends with, kind by kind: a string field holds the text;
a boolean field holds `true` for `true` and `1`, `false` for `false` and `0`; a signed
field holds the value of a signed decimal numeral in its range; an unsigned field the
value of an unsigned decimal numeral in its range. -/
theorem SetValueHierarchicalStruct_stores (intSize : Nat) (hsize : intSize = 32 ∨ intSize = 64)
    (root : ReflectValue) (key val : String) (idxs : List Nat) (kind : Kind) (data : Data)
    (hres : resolvePath root (stringsSplit key '.') = some idxs)
    (hleaf : root.fieldAt idxs = some (.scalar kind data)) :
    (kind = .String →
      (SetValueHierarchicalStruct intSize root key val).2 = .ok
      ∧ (SetValueHierarchicalStruct intSize root key val).1.fieldAt idxs
          = some (.scalar .String (.string val)))
    ∧ (kind = .Bool → (val = "true" ∨ val = "1") →
      (SetValueHierarchicalStruct intSize root key val).2 = .ok
      ∧ (SetValueHierarchicalStruct intSize root key val).1.fieldAt idxs
          = some (.scalar .Bool (.bool true)))
    ∧ (kind = .Bool → (val = "false" ∨ val = "0") →
      (SetValueHierarchicalStruct intSize root key val).2 = .ok
      ∧ (SetValueHierarchicalStruct intSize root key val).1.fieldAt idxs
          = some (.scalar .Bool (.bool false)))
    ∧ (kind = .Bool → val ≠ "true" → val ≠ "1" → val ≠ "false" → val ≠ "0" →
      SetValueHierarchicalStruct intSize root key val
        = (root, .err (typeMismatch "bool" val)))
    ∧ (∀ bits, intBits intSize kind = some bits →
      (∀ v, signedNumeral val = some v → -(2 : Int) ^ (bits - 1) ≤ v →
        v < (2 : Int) ^ (bits - 1) →
        (SetValueHierarchicalStruct intSize root key val).2 = .ok
        ∧ (SetValueHierarchicalStruct intSize root key val).1.fieldAt idxs
            = some (.scalar kind (.int v)))
      ∧ ((¬ ∃ v, signedNumeral val = some v ∧ -(2 : Int) ^ (bits - 1) ≤ v
            ∧ v < (2 : Int) ^ (bits - 1)) →
        SetValueHierarchicalStruct intSize root key val
          = (root, .err (typeMismatch (kindText kind) val))))
    ∧ (∀ bits, uintBits intSize kind = some bits →
      (∀ n, unsignedNumeral val = some n → n < 2 ^ bits →
        (SetValueHierarchicalStruct intSize root key val).2 = .ok
        ∧ (SetValueHierarchicalStruct intSize root key val).1.fieldAt idxs
            = some (.scalar kind (.uint n)))
      ∧ ((¬ ∃ n, unsignedNumeral val = some n ∧ n < 2 ^ bits) →
        SetValueHierarchicalStruct intSize root key val
          = (root, .err (typeMismatch (kindText kind) val)))) := by
  obtain ⟨-, hF, hT⟩ := SetValueHierarchicalStruct_decodes intSize root key val idxs kind data
    hres hleaf
  have done : ∀ d : Data,
      FuzzyDecode intSize (.scalar kind data) val = (.scalar kind d, true) →
      (SetValueHierarchicalStruct intSize root key val).2 = .ok
      ∧ (SetValueHierarchicalStruct intSize root key val).1.fieldAt idxs
          = some (.scalar kind d) := by
    intro d hd
    have h := hT (by rw [hd])
    rw [hd] at h
    exact ⟨h.1, h.2.1⟩
  have refused : (FuzzyDecode intSize (.scalar kind data) val).2 ≠ true →
      SetValueHierarchicalStruct intSize root key val
        = (root, .err (typeMismatch (kindText kind) val)) := by
    intro h
    exact hF (by simpa using h)
  refine ⟨?_, ?_, ?_, ?_, ?_, ?_⟩
  · intro hk
    subst hk
    exact done _ rfl
  · intro hk hv
    subst hk
    exact done _ (by simp [FuzzyDecode, hv])
  · intro hk hv
    subst hk
    refine done _ ?_
    have : ¬ (val = "true" ∨ val = "1") := by
      rcases hv with rfl | rfl <;> decide
    simp [FuzzyDecode, this, hv]
  · intro hk h1 h2 h3 h4
    subst hk
    refine refused ?_
    simp [FuzzyDecode, h1, h2, h3, h4]
  · intro bits hbits
    have hb1 : 1 ≤ bits ∧ bits ≤ 64 := by
      cases kind <;> simp [intBits] at hbits <;> omega
    obtain ⟨s1, s2, -⟩ := decodeInt_spec kind bits hb1.1 hb1.2 data val
    rw [← FuzzyDecode_int intSize kind bits data val hbits] at s1 s2
    exact ⟨fun v hv hlo hhi => done _ (s1 v hv hlo hhi),
      fun hno => refused (fun h => hno (s2 h))⟩
  · intro bits hbits
    have hb1 : bits ≤ 64 := by
      cases kind <;> simp [uintBits] at hbits <;> omega
    obtain ⟨s1, s2, -⟩ := decodeUint_spec kind bits hb1 data val
    rw [← FuzzyDecode_uint intSize kind bits data val hbits] at s1 s2
    exact ⟨fun n hn hlt => done _ (s1 n hn hlt),
      fun hno => refused (fun h => hno (s2 h))⟩

/-- The write of `8080` at `john.port`, a field of kind Uint16, spelled out. -/
theorem SetValueHierarchicalStruct_port_run :
    SetValueHierarchicalStruct 64 sampleStruct "john.port" "8080"
      = (.struct
          [([("mapstructure", "john")],
              .struct [([("mapstructure", "listen")], .scalar .String (.string "")),
                       ([("mapstructure", "port")], .scalar .Uint16 (.uint 8080))]),
           ([("mapstructure", "debug")], .scalar .Bool (.bool false))], .ok) := by
  rfl

/-- C20: when `SetValueHierarchicalStruct` returns an error, the destination is exactly
as it was before the call; and a call of `FuzzyDecode` that returns `false` leaves its
destination as it was. -/
theorem SetValueHierarchicalStruct_atomic (intSize : Nat) (root : ReflectValue)
    (key val : String) (e : GoError)
    (herr : (SetValueHierarchicalStruct intSize root key val).2 = .err e) :
    (SetValueHierarchicalStruct intSize root key val).1 = root
    ∧ (∀ dst : ReflectValue, (FuzzyDecode intSize dst val).2 = false →
        (FuzzyDecode intSize dst val).1 = dst) :=
  ⟨setStructKeys_atomic intSize _ root val (by
      unfold SetValueHierarchicalStruct at herr
      rw [herr]
      simp),
    fun dst h => FuzzyDecode_false intSize dst val h⟩

/-- Witness of C20: `70000` does not fit the 16-bit field `john.port`. -/
theorem SetValueHierarchicalStruct_atomic_witness :
    (SetValueHierarchicalStruct 64 sampleStruct "john.port" "70000").2
      = .err ⟨"type does not match: type " ++ quote ++ "uint16" ++ quote ++ " and value "
          ++ quote ++ "70000" ++ quote, none⟩
    ∧ (SetValueHierarchicalStruct 64 sampleStruct "john.port" "70000").1 = sampleStruct :=
  ⟨by decide,
    (SetValueHierarchicalStruct_atomic 64 sampleStruct "john.port" "70000"
      ⟨"type does not match: type " ++ quote ++ "uint16" ++ quote ++ " and value "
          ++ quote ++ "70000" ++ quote, none⟩ (by decide)).1⟩
end Config
